import Mathlib

/-!
# AutoLearn: schedule state machine, streak calculator and save-schedule store

A shallow embedding of `backend/models/Schedule.js`, `backend/models/User.js`,
`backend/routes/scheduleProgress.js` and of the save-schedule steps of
`backend/routes/progress.js` / `backend/routes/schedule.js`.

JavaScript numbers that go through `/` and `*` are modelled as IEEE-754 binary64 values with
round-to-nearest-even, computed over `Nat`/`Int`; day numbers and streak counters, which the code
only compares and increments, are `Int`.
-/

namespace AutoLearn

/-! ## JavaScript numbers -/

/-- Floor of the base-2 logarithm, by halving; the first argument bounds the number of steps. -/
def log2Aux : Nat → Nat → Nat
  | 0, _ => 0
  | f + 1, n => if n < 2 then 0 else log2Aux f (n / 2) + 1

/-- Floor of the base-2 logarithm of `n` (`0` for `n = 0`). -/
def natLog2 (n : Nat) : Nat := log2Aux n n

/-- The integer nearest to `x / y`, ties going to the even neighbour (the IEEE-754 default
rounding direction). -/
def roundHalfEven (x y : Nat) : Nat :=
  let q := x / y
  let r := x % y
  if 2 * r < y then q
  else if y < 2 * r then q + 1
  else if q % 2 = 0 then q else q + 1

/-- A non-negative finite double, held exactly as `num / 2 ^ scale`. -/
structure Dbl where
  num : Nat
  scale : Nat
  deriving DecidableEq, Repr

/-- Exact rational value of a finite double. -/
def Dbl.toRat (d : Dbl) : ℚ := (d.num : ℚ) / 2 ^ d.scale

/-- The binary shift `s` for which `a * 2 ^ s / b` lies in `[2 ^ 52, 2 ^ 53)`, so that its
integer part is a 53-bit significand (`a, b > 0`). -/
def sigShift (a b : Nat) : Int :=
  let s0 : Int := 52 + (natLog2 b : Int) - (natLog2 a : Int)
  if a * 2 ^ s0.toNat < 2 ^ 52 * (b * 2 ^ (-s0).toNat) then s0 + 1 else s0

/-- The double nearest to the rational `a / b` (`b > 0`), round-to-nearest, ties-to-even, with a
53-bit significand. The exponent range is not bounded: the operands here are array lengths
(below `2 ^ 32`) and their quotient times 100, far from overflow and from subnormals. -/
def roundToDouble (a b : Nat) : Dbl :=
  if a = 0 then ⟨0, 0⟩
  else
    let s := sigShift a b
    let m := roundHalfEven (a * 2 ^ s.toNat) (b * 2 ^ (-s).toNat)
    ⟨m * 2 ^ (-s).toNat, s.toNat⟩

/-- The JavaScript Number values that occur in the progress computation: non-negative finite
doubles, `Infinity` and `NaN`. -/
inductive JSNumber where
  | finite (d : Dbl)
  | posInf
  | nan
  deriving DecidableEq, Repr

/-- The Number for a natural number `k` (exact below `2 ^ 53`). -/
def JSNumber.ofNat (k : Nat) : JSNumber := .finite ⟨k, 0⟩

/-- JavaScript `n / t` for two array lengths: `x / 0` is `Infinity` for `x > 0`, `0 / 0` is
`NaN`, otherwise the correctly rounded quotient. -/
def jsDivLengths (n t : Nat) : JSNumber :=
  if t = 0 then (if n = 0 then .nan else .posInf)
  else .finite (roundToDouble n t)

/-- JavaScript `x * 100`: the correctly rounded product; `Infinity * 100` is `Infinity`. -/
def jsTimes100 : JSNumber → JSNumber
  | .finite d => .finite (roundToDouble (d.num * 100) (2 ^ d.scale))
  | .posInf => .posInf
  | .nan => .nan

/-- JavaScript `Math.round`: the nearest integer, ties towards `+Infinity`, that is
`floor (x + 1/2)`; `Infinity` and `NaN` are returned as they are. -/
def mathRound : JSNumber → JSNumber
  | .finite d => .ofNat ((2 * d.num + 2 ^ d.scale) / 2 ^ (d.scale + 1))
  | .posInf => .posInf
  | .nan => .nan

/-- Round-half-up of the exact rational `a / b` (`b > 0`): `floor (a / b + 1/2)`. -/
def roundHalfUp (a b : Nat) : Nat := (2 * a + b) / (2 * b)

/-! ## Schedule model (`backend/models/Schedule.js`) -/

/-- One entry of a day's `sessions` array. -/
structure PlanSession where
  title : String
  duration : Nat
  type : String
  deriving DecidableEq, Repr

/-- One entry of the `schedule` array. -/
structure DayEntry where
  day : Int
  sessions : List PlanSession
  deriving DecidableEq, Repr

/-- One entry of `progress.completedSessions`; `completedAt` is a timestamp in milliseconds. -/
structure CompletedSession where
  day : Int
  sessionIndex : Int
  completedAt : Int
  deriving DecidableEq, Repr

/-- The embedded `progress` object. -/
structure Progress where
  currentDay : Int
  completedDays : List Int
  completedSessions : List CompletedSession
  percentComplete : JSNumber
  deriving DecidableEq, Repr

/-- A Schedule document (the fields the state machine reads or writes). -/
structure Schedule where
  userId : String
  materialId : String
  materialTitle : String
  schedule : List DayEntry
  progress : Progress
  active : Bool
  completedAt : Option Int
  deriving DecidableEq, Repr

/-- Schema defaults of `progress`: `currentDay` 1, empty arrays, `percentComplete` 0. -/
def Progress.default : Progress :=
  { currentDay := 1, completedDays := [], completedSessions := [],
    percentComplete := JSNumber.ofNat 0 }

/-- The document built by `new Schedule` with schema defaults: `active` true, `completedAt` unset. -/
def Schedule.new (userId materialId materialTitle : String) (days : List DayEntry) : Schedule :=
  { userId := userId, materialId := materialId, materialTitle := materialTitle,
    schedule := days, progress := Progress.default, active := true, completedAt := none }

/-- The total of `day.sessions.length` over the schedule (the `reduce` of lines 113-115). -/
def totalSessions (days : List DayEntry) : Nat :=
  days.foldl (fun sum day => sum + day.sessions.length) 0

/-- The percentage expression `Math.round((n / total) * 100)` of lines 116-118. -/
def percentOf (n total : Nat) : JSNumber :=
  mathRound (jsTimes100 (jsDivLengths n total))

/-- The method `completeSession(day, sessionIndex)`; `now` is the value of `new Date()`. -/
def Schedule.completeSession (s : Schedule) (day sessionIndex now : Int) : Schedule :=
  -- Add to completed sessions
  let completedSessions : List CompletedSession :=
    s.progress.completedSessions ++ [⟨day, sessionIndex, now⟩]
  -- Check if day is complete
  let found : Option DayEntry := s.schedule.find? (fun d => d.day == day)
  let dayDone : Bool :=
    match found with
    | some dayData =>
      let total := dayData.sessions.length
      let completedSessionsForDay := (completedSessions.filter (fun c => c.day == day)).length
      decide (completedSessionsForDay ≥ total) && !(s.progress.completedDays.contains day)
    | none => false
  let completedDays : List Int :=
    if dayDone then s.progress.completedDays ++ [day] else s.progress.completedDays
  let currentDay : Int := if dayDone then day + 1 else s.progress.currentDay
  -- Calculate overall progress percentage
  let percentComplete := percentOf completedSessions.length (totalSessions s.schedule)
  -- Mark schedule as completed if all days done
  let allDone : Bool := decide (completedDays.length ≥ s.schedule.length)
  { s with
    progress :=
      { currentDay := currentDay, completedDays := completedDays,
        completedSessions := completedSessions, percentComplete := percentComplete }
    completedAt := if allDone then some now else s.completedAt
    active := if allDone then false else s.active }

/-- The fields of `getCurrentStatus()` that the state machine's properties refer to. -/
structure Status where
  currentDay : Int
  totalDays : Nat
  completedDays : Nat
  percentComplete : JSNumber
  isComplete : Bool
  nextSession : Option PlanSession
  daysRemaining : Int
  totalSessions : Nat
  completedSessions : Nat
  deriving DecidableEq, Repr

/-- The method `getCurrentStatus()`. -/
def Schedule.getCurrentStatus (s : Schedule) : Status :=
  let totalDays := s.schedule.length
  let completedDays := s.progress.completedDays.length
  let currentDayData := s.schedule.find? (fun d => d.day == s.progress.currentDay)
  { currentDay := s.progress.currentDay
    totalDays := totalDays
    completedDays := completedDays
    percentComplete := s.progress.percentComplete
    isComplete := !s.active && s.completedAt.isSome
    nextSession := currentDayData.bind (fun d => d.sessions.head?)
    daysRemaining := (totalDays : Int) - (completedDays : Int)
    totalSessions := totalSessions s.schedule
    completedSessions := s.progress.completedSessions.length }

/-- One `completeSession` call: `(day, sessionIndex, now)`. -/
abbrev Call := Int × Int × Int

/-- Apply a sequence of `completeSession` calls, first call first. -/
def Schedule.run (s : Schedule) (calls : List Call) : Schedule :=
  calls.foldl (fun st c => st.completeSession c.1 c.2.1 c.2.2) s

/-! ## The schedule store and the save-schedule routes -/

/-- The Schedule collection, in insertion order. -/
abbrev Store := List Schedule

/-- The filter `{ userId, materialId, active: true }`. -/
def matchesActive (userId materialId : String) (s : Schedule) : Bool :=
  s.userId == userId && s.materialId == materialId && s.active

/-- The call `Schedule.updateMany({ userId, materialId, active: true }, { active: false })`. -/
def deactivateActive (store : Store) (userId materialId : String) : Store :=
  store.map (fun s => if matchesActive userId materialId s then { s with active := false } else s)

/-- The route `POST /api/progress/schedule/save` (lines 195-209) for string fields of the body:
deactivate, then build and save a new document. The body's `scheduleData` is no path of the
schema (the days live under `schedule`), so the new document holds no days. The three string
fields are `required`, so `save()` rejects an empty one, as it does when `settings` does not
cast to the schema's types (`settingsCast = false`); then nothing is inserted. -/
def saveSchedule (store : Store) (userId materialId materialTitle : String)
    (settingsCast : Bool) : Store :=
  let store1 := deactivateActive store userId materialId
  if userId = "" ∨ materialId = "" ∨ materialTitle = "" ∨ settingsCast = false then store1
  else store1 ++ [Schedule.new userId materialId materialTitle []]

/-- Whether the sessions of a day list pass the schema on `save()`. The declaration
`sessions: [{ title: String, duration: Number, type: String, ... }]` (Schedule.js lines 29-36)
has a `type` key, which makes it an array of strings; a session object does not cast to a
string, so a day that holds a session is rejected. -/
def sessionsCast (days : List DayEntry) : Bool :=
  days.all (fun day => day.sessions.isEmpty)

/-- The save step of `POST /api/schedule` (lines 204-241) for string fields of the body: the
filter uses the request's `materialId`, the new document uses `materialId || fallbackId` where
`fallbackId` is the string built from `Date.now()`, and `materialTitle || "Untitled Material"`;
`days` is the generated day list and `othersCast` tells whether the other generated members
cast to the schema's types. A rejected `save()` is caught (lines 237-241) and leaves the
deactivation in place. -/
def saveGeneratedSchedule (store : Store) (userId materialId materialTitle fallbackId : String)
    (days : List DayEntry) (othersCast : Bool) : Store :=
  let store1 := deactivateActive store userId materialId
  let newId := if materialId = "" then fallbackId else materialId
  let title := if materialTitle = "" then "Untitled Material" else materialTitle
  if userId = "" ∨ newId = "" ∨ sessionsCast days = false ∨ othersCast = false then store1
  else store1 ++ [Schedule.new userId newId title days]

/-- The route `POST /api/schedule/session/complete` on the store: the document at position `i`
is loaded, `completeSession` is applied and the document is saved back. -/
def completeSessionAt : Store → Nat → Int → Int → Int → Store
  | [], _, _, _, _ => []
  | s :: rest, 0, day, sessionIndex, now => s.completeSession day sessionIndex now :: rest
  | s :: rest, i + 1, day, sessionIndex, now => s :: completeSessionAt rest i day sessionIndex now

/-- The number of active schedules of the pair `(userId, materialId)`. -/
def activeCount (store : Store) (userId materialId : String) : Nat :=
  (store.filter (matchesActive userId materialId)).length

/-- At most one active schedule per `(userId, materialId)` pair. -/
def AtMostOneActive (store : Store) : Prop :=
  ∀ userId materialId, activeCount store userId materialId ≤ 1

/-! ## Streaks (`backend/models/User.js`) -/

/-- The streak fields of `user.stats`; `lastStudyDate` is a timestamp in milliseconds. -/
structure UserStats where
  currentStreak : Int
  longestStreak : Int
  lastStudyDate : Option Int
  deriving DecidableEq, Repr

/-- The constant `1000 * 60 * 60 * 24`. -/
def msPerDay : Int := 1000 * 60 * 60 * 24

/-- The time zone of the host: the UTC offset in milliseconds (local time minus UTC) in force
before the first transition, and the transitions `(instant, offset)` in ascending order, each
putting `offset` in force from the UTC instant `instant` on. -/
structure TimeZone where
  initialOffset : Int
  transitions : List (Int × Int)
  deriving DecidableEq, Repr

/-- A time zone without transitions. -/
def TimeZone.fixed (offset : Int) : TimeZone :=
  { initialOffset := offset, transitions := [] }

/-- The UTC offset in force at the UTC instant `t`. -/
def TimeZone.offsetAt (zone : TimeZone) (t : Int) : Int :=
  zone.transitions.foldl (fun offset tr => if tr.1 ≤ t then tr.2 else offset) zone.initialOffset

/-- The abstract operation `LocalTime(t)` of ECMA-262. -/
def TimeZone.localTime (zone : TimeZone) (t : Int) : Int :=
  t + zone.offsetAt t

/-- The abstract operation `UTC(t)` of ECMA-262 from the offset in force and the transitions
still ahead: the earliest instant with the given local time; a local time that a transition
repeats or skips is read with the offset before the transition. -/
def utcFrom (offset : Int) : List (Int × Int) → Int → Int
  | [], localTime => localTime - offset
  | (instant, next) :: rest, localTime =>
    if localTime - offset < instant ∨ localTime - next < instant then localTime - offset
    else utcFrom next rest localTime

/-- The abstract operation `UTC(t)` of ECMA-262 in a time zone. -/
def TimeZone.utc (zone : TimeZone) (localTime : Int) : Int :=
  utcFrom zone.initialOffset zone.transitions localTime

/-- The local calendar day of timestamp `t`, counted from 1 January 1970: `Day(LocalTime(t))`. -/
def dayNumber (zone : TimeZone) (t : Int) : Int := zone.localTime t / msPerDay

/-- The result of `new Date(t).setHours(0, 0, 0, 0)`: the timestamp of local midnight of the
local day of `t`, that is `UTC(MakeDate(Day(LocalTime(t)), 0))`. -/
def startOfDay (zone : TimeZone) (t : Int) : Int :=
  zone.utc (dayNumber zone t * msPerDay)

/-- The method `updateStreak()` on a host with time zone `zone`; `now` is the value of
`new Date()`. The test `!lastStudy` holds for `null` and for the number 0. `daysDiff` is the
quotient of two integers below `2 ^ 53` by `msPerDay`, so `daysDiff === 1` holds exactly when the
difference is `msPerDay` and `daysDiff === 0` exactly when it is 0. -/
def updateStreak (zone : TimeZone) (stats : UserStats) (now : Int) : UserStats :=
  let today := startOfDay zone now
  let lastStudy : Option Int := stats.lastStudyDate.map (startOfDay zone)
  let currentStreak : Int :=
    match lastStudy with
    | none => 1
    | some last =>
      if last = 0 then 1
      else
        let diff := today - last
        if diff = 1 * msPerDay then stats.currentStreak + 1
        else if diff = 0 * msPerDay then stats.currentStreak
        else 1
  -- Update longest streak
  let longestStreak : Int :=
    if currentStreak > stats.longestStreak then currentStreak else stats.longestStreak
  { currentStreak := currentStreak, longestStreak := longestStreak, lastStudyDate := some now }

/-! ## Plain objects used as dictionaries, and `Array.prototype.sort` -/

/-- The property names every plain object inherits from `Object.prototype`. Each of them holds a
function (or, for `__proto__`, the prototype object): a truthy value. -/
def objectPrototypeKeys : List String :=
  ["constructor", "__defineGetter__", "__defineSetter__", "hasOwnProperty", "__lookupGetter__",
    "__lookupSetter__", "isPrototypeOf", "propertyIsEnumerable", "toString", "valueOf",
    "__proto__", "toLocaleString"]

/-- The value of a string of decimal digits, `none` when another character occurs. -/
def digitsValue : List Char → Nat → Option Nat
  | [], acc => some acc
  | c :: cs, acc =>
    if 48 ≤ c.toNat ∧ c.toNat ≤ 57 then digitsValue cs (10 * acc + (c.toNat - 48)) else none

/-- The array index a property name stands for: the name is the decimal numeral, without
leading zero, of an integer below `2 ^ 32 - 1`. -/
def arrayIndex? (key : String) : Option Nat :=
  match key.data with
  | [] => none
  | c :: cs =>
    if c.toNat = 48 ∧ cs ≠ [] then none
    else
      match digitsValue (c :: cs) 0 with
      | some n => if n < 2 ^ 32 - 1 then some n else none
      | none => none

/-- Insertion of `x` into a list, in front of the first element `y` with `le x y`. -/
def orderedInsertBy {α : Type} (le : α → α → Bool) (x : α) : List α → List α
  | [] => [x]
  | y :: ys => if le x y then x :: y :: ys else y :: orderedInsertBy le x ys

/-- A stable sort: elements that `le` ranks both ways keep their relative order. For a
consistent comparator this is the arrangement `Array.prototype.sort` returns. -/
def stableSortBy {α : Type} (le : α → α → Bool) : List α → List α
  | [] => []
  | x :: xs => orderedInsertBy le x (stableSortBy le xs)

/-- The own enumerable properties of a plain object with string keys, in creation order. -/
abbrev JSDict (α : Type) := List (String × α)

/-- The truthiness of `obj[key]` when every own value is an object: true for an own property and
for a name inherited from `Object.prototype`. -/
def JSDict.truthyAt {α : Type} (obj : JSDict α) (key : String) : Bool :=
  obj.any (fun p => p.1 == key) || objectPrototypeKeys.contains key

/-- The pattern `if (!obj[key]) obj[key] = init; update(obj[key])` on a dictionary whose values
are objects: a falsy lookup creates the own property; the update then goes to `obj[key]`, which
is the own property or, for a name inherited from `Object.prototype`, the inherited member (the
dictionary itself stays as it is). -/
def JSDict.upsert {α : Type} (obj : JSDict α) (key : String) (init : α) (update : α → α) :
    JSDict α :=
  let created : JSDict α := if !(obj.truthyAt key) then obj ++ [(key, init)] else obj
  created.map (fun p => if p.1 == key then (p.1, update p.2) else p)

/-- The result of `Object.values(obj)`: the values under array-index names first, by ascending
index, then the other values in the order their properties were created. -/
def JSDict.values {α : Type} (obj : JSDict α) : List α :=
  let indexed : List (Nat × α) := obj.filterMap (fun p => (arrayIndex? p.1).map (fun i => (i, p.2)))
  let named : List (String × α) := obj.filter (fun p => (arrayIndex? p.1).isNone)
  (stableSortBy (fun a b => decide (a.1 ≤ b.1)) indexed).map (fun p => p.2) ++
    named.map (fun p => p.2)

/-- The test `a - b > 0` on two Numbers (false when the difference is `NaN`). -/
def JSNumber.differencePositive : JSNumber → JSNumber → Bool
  | .finite a, .finite b => decide (b.num * 2 ^ a.scale < a.num * 2 ^ b.scale)
  | .posInf, .finite _ => true
  | _, _ => false

/-! ## Quiz results (`backend/models/QuizResult.js`) -/

/-- One entry of `answers` (the fields the statistics read); `topic` is `none` when absent. -/
structure Answer where
  questionNumber : Nat
  isCorrect : Bool
  topic : Option String
  timeTaken : Nat
  deriving DecidableEq, Repr

/-- One value of the `topicStats` object. -/
structure TopicStat where
  topic : String
  questionsAsked : Nat
  questionsCorrect : Nat
  deriving DecidableEq, Repr

/-- One entry of `weakTopics`. -/
structure WeakTopic where
  topic : String
  questionsAsked : Nat
  questionsCorrect : Nat
  accuracy : JSNumber
  deriving DecidableEq, Repr

/-- The expression `answer.topic || 'General'`: an absent or empty topic reads as "General". -/
def topicOf (answer : Answer) : String :=
  match answer.topic with
  | some t => if t = "" then "General" else t
  | none => "General"

/-- The body of the `forEach` of lines 73-88: create the topic's statistics when
`topicStats[topic]` is falsy, then count the answer in `topicStats[topic]`. -/
def recordAnswer (topicStats : JSDict TopicStat) (answer : Answer) : JSDict TopicStat :=
  let topic := topicOf answer
  topicStats.upsert topic { topic := topic, questionsAsked := 0, questionsCorrect := 0 }
    (fun stat =>
      { stat with
        questionsAsked := stat.questionsAsked + 1
        questionsCorrect :=
          if answer.isCorrect then stat.questionsCorrect + 1 else stat.questionsCorrect })

/-- The `map` of lines 91-93: the statistics with their accuracy. -/
def withAccuracy (stat : TopicStat) : WeakTopic :=
  { topic := stat.topic, questionsAsked := stat.questionsAsked,
    questionsCorrect := stat.questionsCorrect,
    accuracy := percentOf stat.questionsCorrect stat.questionsAsked }

/-- The method `calculateWeakTopics()`: the value assigned to `this.weakTopics`. -/
def calculateWeakTopics (answers : List Answer) : List WeakTopic :=
  let topicStats : JSDict TopicStat := answers.foldl recordAnswer []
  -- Convert to array and calculate accuracy
  stableSortBy (fun a b => !(a.accuracy.differencePositive b.accuracy))
    ((JSDict.values topicStats).map withAccuracy)

/-! ## Study sessions (`backend/models/StudySession.js`) -/

/-- JavaScript `Math.round(x / d)` for an integer `x` and a positive integer `d`: the quotient is
rounded to a double (the rounding is symmetric in the sign), then to the nearest integer with
ties towards `+Infinity`. -/
def mathRoundQuotient (x : Int) (d : Nat) : Int :=
  if 0 ≤ x then
    let q := roundToDouble x.toNat d
    (((2 * q.num + 2 ^ q.scale) / 2 ^ (q.scale + 1) : Nat) : Int)
  else
    let q := roundToDouble (-x).toNat d
    (-(2 * (q.num : Int)) + 2 ^ q.scale) / 2 ^ (q.scale + 1)

/-- A StudySession document (the fields `completeSession` reads or writes); times are timestamps
in milliseconds, durations are minutes, `none` is an unset field. -/
structure StudySession where
  planned : Int
  actual : Option Int
  startTime : Option Int
  endTime : Option Int
  completed : Bool
  deriving DecidableEq, Repr

/-- The method `completeSession()` of a study session. The test `!this.duration.actual` holds for
an unset duration and for 0. -/
def StudySession.completeSession (s : StudySession) : StudySession :=
  match s.startTime, s.endTime with
  | some startTime, some endTime =>
    let durationMs := endTime - startTime
    { s with actual := some (mathRoundQuotient durationMs (1000 * 60)), completed := true }
  | _, _ =>
    if s.actual = none ∨ s.actual = some 0 then
      -- If no end time recorded, use planned duration
      { s with actual := some s.planned, completed := true }
    else { s with completed := true }

/-- The route `POST /api/progress/session/complete`, lines 70-71: `endTime` is set to the
current time, then `completeSession()` runs. -/
def completeSessionRoute (s : StudySession) (now : Int) : StudySession :=
  ({ s with endTime := some now }).completeSession

/-! ## Quiz submission (`backend/routes/progress.js`) -/

/-- The quiz counters of `user.stats`; scores are whole percentages. -/
structure QuizStats where
  totalQuizzesTaken : Nat
  averageQuizScore : Nat
  deriving DecidableEq, Repr

/-- The statistics update of `POST /api/progress/quiz/submit`, lines 155-160, for a stored user
and the submitted `quizData.score`. -/
def submitQuizStats (stats : QuizStats) (score : Nat) : QuizStats :=
  let totalQuizzes := stats.totalQuizzesTaken + 1
  let currentAvg := stats.averageQuizScore
  let newAvg : Int :=
    mathRoundQuotient ((currentAvg * stats.totalQuizzesTaken + score : Nat) : Int) totalQuizzes
  { totalQuizzesTaken := totalQuizzes, averageQuizScore := newAvg.toNat }

/-! ## Dashboard weak topics (`backend/routes/analytics.js`) -/

/-- A stored quiz result, as the analytics routes read it: `quizData.score`, the derived
`weakTopics`, the `answers` and the `completedAt` timestamp. -/
structure QuizResult where
  score : Nat
  weakTopics : List WeakTopic
  answers : List Answer := []
  completedAt : Int := 0
  deriving DecidableEq, Repr

/-- One value of the `allWeakTopics` object. -/
structure TopicTotals where
  topic : String
  totalAsked : Nat
  totalCorrect : Nat
  deriving DecidableEq, Repr

/-- One entry of the dashboard's `weakTopics`. -/
structure DashboardTopic where
  topic : String
  accuracy : JSNumber
  questionsAsked : Nat
  deriving DecidableEq, Repr

/-- The body of the inner `forEach` of lines 58-68: create the topic's totals when
`allWeakTopics[wt.topic]` is falsy, then add the entry's counts. -/
def addWeakTopic (allWeakTopics : JSDict TopicTotals) (wt : WeakTopic) : JSDict TopicTotals :=
  allWeakTopics.upsert wt.topic { topic := wt.topic, totalAsked := 0, totalCorrect := 0 }
    (fun t =>
      { t with
        totalAsked := t.totalAsked + wt.questionsAsked
        totalCorrect := t.totalCorrect + wt.questionsCorrect })

/-- The grouping of lines 56-69 over all quiz results. -/
def collectWeakTopics (quizResults : List QuizResult) : JSDict TopicTotals :=
  quizResults.foldl (fun acc result => result.weakTopics.foldl addWeakTopic acc) []

/-- The `map` of lines 72-76. -/
def toDashboardTopic (t : TopicTotals) : DashboardTopic :=
  { topic := t.topic, accuracy := percentOf t.totalCorrect t.totalAsked,
    questionsAsked := t.totalAsked }

/-- The dashboard's `weakTopics` (lines 71-78): map, sort by accuracy, `slice(0, 5)`. -/
def dashboardWeakTopics (quizResults : List QuizResult) : List DashboardTopic :=
  ((stableSortBy (fun a b => !(a.accuracy.differencePositive b.accuracy))
    ((JSDict.values (collectWeakTopics quizResults)).map toDashboardTopic))).take 5

/-- Apply a sequence of `updateStreak` calls at the given clock readings, first call first. -/
def runStreak (zone : TimeZone) (stats : UserStats) (events : List Int) : UserStats :=
  events.foldl (updateStreak zone) stats

/-- The schema defaults of the streak fields: both streaks 0, no last study date. -/
def UserStats.default : UserStats :=
  { currentStreak := 0, longestStreak := 0, lastStudyDate := none }

/-! ## Detailed weak topics (`GET /api/analytics/weak-topics/:userId`) -/

/-- One element of a topic's `recentTrend`: the quiz's `completedAt` and the answer's
`isCorrect`. -/
structure TrendPoint where
  date : Int
  correct : Bool
  deriving DecidableEq, Repr

/-- One value of the `topicAnalysis` object (lines 152-159). -/
structure TopicAnalysis where
  topic : String
  totalQuestions : Nat
  correctAnswers : Nat
  averageTimeTaken : Nat
  recentTrend : List TrendPoint
  lastSeen : Int
  deriving DecidableEq, Repr

/-- One element of the response's `topics` (lines 174-182). -/
structure TopicReport where
  topic : String
  accuracy : JSNumber
  totalQuestions : Nat
  averageTimeTaken : JSNumber
  needsReview : Bool
  lastSeen : Int
  trend : List TrendPoint
  deriving DecidableEq, Repr

/-- The comparison `a < b` of two JavaScript numbers: false as soon as one side is `NaN`. -/
def JSNumber.lessThan : JSNumber → JSNumber → Bool
  | .finite a, .finite b => decide (a.num * 2 ^ b.scale < b.num * 2 ^ a.scale)
  | .finite _, .posInf => true
  | _, _ => false

/-- The number literal `0.7`: the double nearest to 7/10. -/
def sevenTenths : JSNumber := .finite (roundToDouble 7 10)

/-- The body of the inner `forEach` of lines 148-171 for one answer of the quiz result completed
at `completedAt`: create the topic's record when `topicAnalysis[topic]` is falsy, then count the
question, the correct answer and the time, and push one trend point. -/
def analyzeAnswer (completedAt : Int) (topicAnalysis : JSDict TopicAnalysis) (answer : Answer) :
    JSDict TopicAnalysis :=
  let topic := topicOf answer
  topicAnalysis.upsert topic
    { topic := topic, totalQuestions := 0, correctAnswers := 0, averageTimeTaken := 0,
      recentTrend := [], lastSeen := completedAt }
    (fun t =>
      { t with
        totalQuestions := t.totalQuestions + 1
        correctAnswers := if answer.isCorrect then t.correctAnswers + 1 else t.correctAnswers
        averageTimeTaken := t.averageTimeTaken + answer.timeTaken
        recentTrend := t.recentTrend ++ [⟨completedAt, answer.isCorrect⟩] })

/-- The two nested `forEach` loops of lines 147-172 over the quiz results in the order the
query returns them. -/
def analyzeTopics (quizResults : List QuizResult) : JSDict TopicAnalysis :=
  quizResults.foldl (fun acc result => result.answers.foldl (analyzeAnswer result.completedAt) acc)
    []

/-- The call `xs.slice(-5)`: the last five elements, all of them when there are fewer. -/
def sliceLastFive {α : Type} (xs : List α) : List α :=
  xs.drop (xs.length - 5)

/-- The `map` of lines 174-182. -/
def toTopicReport (t : TopicAnalysis) : TopicReport :=
  { topic := t.topic
    accuracy := percentOf t.correctAnswers t.totalQuestions
    totalQuestions := t.totalQuestions
    averageTimeTaken := mathRound (jsDivLengths t.averageTimeTaken t.totalQuestions)
    needsReview := (jsDivLengths t.correctAnswers t.totalQuestions).lessThan sevenTenths
    lastSeen := t.lastSeen
    trend := sliceLastFive t.recentTrend }

/-- The response's `topics` (lines 174-187): map, then sort by accuracy. -/
def weakTopicsReport (quizResults : List QuizResult) : List TopicReport :=
  stableSortBy (fun a b => !(a.accuracy.differencePositive b.accuracy))
    ((JSDict.values (analyzeTopics quizResults)).map toTopicReport)

/-! ## Dashboard study time (`backend/routes/analytics.js`) -/

/-- The summand `s.duration.actual || s.duration.planned || 0` of line 46: `actual` when it is
set and not 0, else `planned` (a `planned` of 0 gives the final 0). -/
def durationOf (s : StudySession) : Int :=
  match s.actual with
  | some actual => if actual ≠ 0 then actual else if s.planned ≠ 0 then s.planned else 0
  | none => if s.planned ≠ 0 then s.planned else 0

/-- The dashboard's `totalStudyTime` (lines 45-47): `reduce` from 0 over the sessions. -/
def totalStudyTime (sessions : List StudySession) : Int :=
  sessions.foldl (fun sum s => sum + durationOf s) 0

/-! ## Request validation (`backend/routes/quizResults.js`, `backend/routes/scheduleProgress.js`) -/

/-- A field of a parsed JSON request body as the route sees it after destructuring:
`undefined` when the field is absent. Numbers are the integers (a JSON body holds no `NaN`);
arrays and objects carry no content because the checks only test them for truthiness. -/
inductive JSValue where
  | undefined
  | null
  | boolean (b : Bool)
  | number (n : Int)
  | string (s : String)
  | array (length : Nat)
  | object
  deriving DecidableEq, Repr

/-- JavaScript truthiness: `undefined`, `null`, `false`, `0` and `''` are falsy, everything else
(every array and object included) is truthy. -/
def JSValue.truthy : JSValue → Bool
  | .undefined => false
  | .null => false
  | .boolean b => b
  | .number n => n != 0
  | .string s => s != ""
  | .array _ => true
  | .object => true

/-- The test `v == null`: true for `null` and `undefined` only. -/
def JSValue.looseNull : JSValue → Bool
  | .undefined => true
  | .null => true
  | _ => false

/-- The test `a === b` against a value of the request body: primitives compare by value, and an
array or object of the request is never identical to a stored one. -/
def JSValue.strictEquals : JSValue → JSValue → Bool
  | .undefined, .undefined => true
  | .null, .null => true
  | .boolean a, .boolean b => a == b
  | .number a, .number b => a == b
  | .string a, .string b => a == b
  | _, _ => false

/-- What a route sends back: the HTTP status and the `error` text, if any. -/
structure Response where
  status : Nat
  error : Option String
  deriving DecidableEq, Repr

/-- The body of `POST /api/quiz-results` (line 9). -/
structure QuizResultBody where
  userId : JSValue
  materialId : JSValue
  materialTitle : JSValue
  quizData : JSValue
  answers : JSValue
  timeSpent : JSValue
  deriving DecidableEq, Repr

/-- The list `missingFields` after lines 11-17. -/
def missingFields (body : QuizResultBody) : List String :=
  let missingFields : List String := []
  let missingFields := if !body.userId.truthy then missingFields ++ ["userId"] else missingFields
  let missingFields :=
    if !body.materialId.truthy then missingFields ++ ["materialId"] else missingFields
  let missingFields :=
    if !body.materialTitle.truthy then missingFields ++ ["materialTitle"] else missingFields
  let missingFields :=
    if !body.quizData.truthy then missingFields ++ ["quizData"] else missingFields
  let missingFields := if !body.answers.truthy then missingFields ++ ["answers"] else missingFields
  let missingFields :=
    if body.timeSpent.looseNull then missingFields ++ ["timeSpent"] else missingFields
  missingFields

/-- The route `POST /api/quiz-results` (lines 9-34) on the collection `saved` of stored bodies:
status 400 with the missing-field message, else the save; `saveSucceeds` tells whether
`quizResult.save()` resolves (it rejects on a schema violation, which the `catch` turns into a
status 500). -/
def postQuizResult (saved : List QuizResultBody) (body : QuizResultBody) (saveSucceeds : Bool) :
    Response × List QuizResultBody :=
  let missing := missingFields body
  if missing.length > 0 then
    (⟨400, some ("Missing required fields: " ++ ", ".intercalate missing)⟩, saved)
  else if saveSucceeds then (⟨200, none⟩, saved ++ [body])
  else (⟨500, some "Failed to save quiz result"⟩, saved)

/-- One entry of `progress.startedSessions` as `POST /:id/start-session` pushes it: `day` and
`sessionIndex` are whatever the request body held. -/
structure StartedRecord where
  day : JSValue
  sessionIndex : JSValue
  startedAt : Int
  deriving DecidableEq, Repr

/-- The condition of line 12, under which the route answers 400. -/
def startSessionRejects (day sessionIndex : JSValue) : Bool :=
  !day.truthy && !sessionIndex.truthy && day != .number 0 && sessionIndex != .number 0

/-- The read `schedule.progress.startedSessions` on a Schedule document. The schema declares
the paths `currentDay`, `completedDays`, `completedSessions` and `percentComplete` under
`progress` (Schedule.js lines 52-69) and no other, so the read gives `undefined`, here `none`. -/
def Progress.startedSessions (_progress : Progress) : Option (List StartedRecord) :=
  none

/-- The route `POST /:id/start-session` (lines 10-29) for a schedule found by id;
`startedSessions` is what the read `schedule.progress.startedSessions` gives (`none` for
`undefined`) and `now` is the value of `new Date()`. After the check of line 12 come the `some`
test and the `push`; calling `some` on `undefined` throws, and the `catch` of line 26 answers
500. Returned are the response and the value of `progress.startedSessions` afterwards. -/
def startSessionRoute (startedSessions : Option (List StartedRecord))
    (day sessionIndex : JSValue) (now : Int) : Response × Option (List StartedRecord) :=
  if startSessionRejects day sessionIndex then
    (⟨400, some "day and sessionIndex are required"⟩, startedSessions)
  else
    match startedSessions with
    | none => (⟨500, some "Failed to start session"⟩, none)
    | some started =>
      let alreadyStarted : Bool :=
        started.any (fun s => s.day.strictEquals day && s.sessionIndex.strictEquals sessionIndex)
      if !alreadyStarted then (⟨200, none⟩, some (started ++ [⟨day, sessionIndex, now⟩]))
      else (⟨200, none⟩, some started)

/-! ## Shape check of a generated schedule (`backend/routes/schedule.js`) -/

/-- A value produced by `JSON.parse`; an object is the list of its members, one per key. -/
inductive Json where
  | null
  | bool (b : Bool)
  | num (n : Int)
  | str (s : String)
  | arr (items : List Json)
  | obj (members : List (String × Json))

/-- The property read `v.key` for a key that is no built-in property (`schedule`, `sessions`,
`date`, `day`): `none` when the read throws a `TypeError` (on `null`), `some none` when it gives
`undefined`. -/
def Json.property (v : Json) (key : String) : Option (Option Json) :=
  match v with
  | .null => none
  | .obj members => some (members.lookup key)
  | _ => some none

/-- Truthiness of an optional parsed value, `none` standing for `undefined`. -/
def Json.truthy : Option Json → Bool
  | none => false
  | some .null => false
  | some (.bool b) => b
  | some (.num n) => n != 0
  | some (.str s) => s != ""
  | some (.arr _) => true
  | some (.obj _) => true

/-- The elements of the value when `Array.isArray` holds for it. -/
def Json.asArray : Option Json → Option (List Json)
  | some (.arr items) => some items
  | _ => none

/-- How the `try` block of lines 139-199 ends for a parsed value. -/
inductive ParseOutcome where
  | accepted
  | rejected (details : String)
  deriving DecidableEq, Repr

/-- The check of lines 169-173 on `scheduleData.schedule[0]`: `firstDay.sessions` must be truthy
and an array; reading a property of a `null` first day throws. -/
def checkFirstDay (firstDay : Json) : ParseOutcome :=
  match firstDay.property "sessions" with
  | none => .rejected "Cannot read properties of null"
  | some sessions =>
    if !Json.truthy sessions || (Json.asArray sessions).isNone then
      .rejected "Invalid day structure: missing sessions array"
    else .accepted

/-- The `map` callback of lines 176-185 reads `day.date` and `day.day`, which throws on a `null`
element and on nothing else. -/
def mapThrows (days : List Json) : Bool :=
  days.any (fun day => (day.property "date").isNone)

/-- The `try` block from line 160 to line 185 on the parsed value `scheduleData`: the three
checks, then the `map` over all days. A rejection is answered with status 500 before anything
is saved. -/
def validateScheduleData (scheduleData : Json) : ParseOutcome :=
  match scheduleData.property "schedule" with
  | none => .rejected "Cannot read properties of null"
  | some schedule =>
    if !Json.truthy schedule || (Json.asArray schedule).isNone then
      .rejected "Invalid schedule structure: missing or invalid schedule array"
    else
      match (Json.asArray schedule).getD [] with
      | [] => .rejected "Schedule array is empty"
      | firstDay :: rest =>
        match checkFirstDay firstDay with
        | .rejected details => .rejected details
        | .accepted =>
          if mapThrows (firstDay :: rest) then .rejected "Cannot read properties of null"
          else .accepted

/-! ## Vocabulary of the statements -/

/-- The number of completed-session records carrying the day number `day`. -/
def recordsForDay (records : List CompletedSession) (day : Int) : Nat :=
  (records.filter (fun c => c.day == day)).length

/-- The `(day, sessionIndex)` slots of a schedule: one per session of every day entry. -/
def slots (days : List DayEntry) : List (Int × Int) :=
  days.flatMap (fun d => (List.range d.sessions.length).map (fun (i : Nat) => (d.day, (i : Int))))

/-- The `(day, sessionIndex)` arguments of a sequence of calls. -/
def callPairs (calls : List Call) : List (Int × Int) :=
  calls.map (fun c => (c.1, c.2.1))

/-- An integer percentage: a whole number between 0 and 100. -/
def IsPercentage (x : JSNumber) : Prop := ∃ k : Nat, x = JSNumber.ofNat k ∧ k ≤ 100

/-- The day-completion test of lines 97-106 as a proposition: the first day entry numbered `day`
exists, `records` holds at least as many records for `day` as that entry has sessions, and `day`
is not yet in `completedDays`. -/
def DayCompletes (s : Schedule) (day : Int) (records : List CompletedSession) : Prop :=
  (∃ e, s.schedule.find? (fun d => d.day == day) = some e ∧
      e.sessions.length ≤ recordsForDay records day) ∧
    day ∉ s.progress.completedDays

/-- The two-day schedule of the scenario: day 1 with two sessions, day 2 with one. -/
def scenarioDays : List DayEntry :=
  [⟨1, [⟨"Read", 30, "reading"⟩, ⟨"Practise", 30, "practice"⟩]⟩, ⟨2, [⟨"Quiz", 20, "quiz"⟩]⟩]

/-- The scenario schedule, newly created. -/
def scenario : Schedule := Schedule.new "u1" "m1" "Notes" scenarioDays

/-- A one-day schedule with 40 sessions. -/
def fortySessions : List DayEntry := [⟨1, List.replicate 40 ⟨"Read", 30, "reading"⟩⟩]

/-- The first 23 slots of day 1, completed at times 0, 1, ..., 22. -/
def twentyThreeCalls : List Call := (List.range 23).map (fun (i : Nat) => (1, (i : Int), (i : Int)))

/-- A one-day schedule with a single session. -/
def singleSession : List DayEntry := [⟨1, [⟨"Read", 30, "reading"⟩]⟩]

/-- The state invariant of the schedule state machine: `completedDays` has no duplicates; a day
number is in it exactly when its (first) day entry exists and the records for that day are at
least one and at least as many as the entry has sessions; and an inactive schedule has
`completedAt` set and at least as many completed days as day entries. -/
def Schedule.Inv (s : Schedule) : Prop :=
  s.progress.completedDays.Nodup ∧
    (∀ d, d ∈ s.progress.completedDays ↔
      ∃ e, s.schedule.find? (fun x => x.day == d) = some e ∧
        e.sessions.length ≤ recordsForDay s.progress.completedSessions d ∧
        1 ≤ recordsForDay s.progress.completedSessions d) ∧
    (s.active = false →
      s.completedAt.isSome = true ∧ s.schedule.length ≤ s.progress.completedDays.length)

/-- The distinct elements of a list in the order of their first occurrence. -/
def firstSeen (l : List String) : List String :=
  l.foldl (fun acc t => if acc.contains t then acc else acc ++ [t]) []

/-- The whole number a Number stands for (0 for `Infinity`, `NaN` and fractions). -/
def JSNumber.natValue : JSNumber → Nat
  | .finite d => if d.scale = 0 then d.num else 0
  | _ => 0

/-- The value a dictionary built by `upsert` over `items` holds under `key`: the updates of the
items with that key, in order, applied to the initial value. -/
def groupValue {ι α : Type} (keyOf : ι → String) (init : String → α) (upd : ι → α → α)
    (items : List ι) (key : String) : α :=
  (items.filter (fun i => keyOf i == key)).foldl (fun acc i => upd i acc) (init key)

/-- The state of a dictionary after `upsert` over `items`: distinct keys, none of them a name
of `Object.prototype`, each a key of some item and holding that key's `groupValue`; every item
key outside `Object.prototype` is present. -/
def DictInv {ι α : Type} (keyOf : ι → String) (init : String → α) (upd : ι → α → α)
    (items : List ι) (d : JSDict α) : Prop :=
  (d.map (fun p => p.1)).Nodup ∧
    (∀ p ∈ d, p.1 ∉ objectPrototypeKeys ∧ p.1 ∈ items.map keyOf ∧
      p.2 = groupValue keyOf init upd items p.1) ∧
    (∀ i ∈ items, keyOf i ∉ objectPrototypeKeys → keyOf i ∈ d.map (fun p => p.1))

/-- The number of answers whose topic reads as `t`. -/
def askedFor (answers : List Answer) (t : String) : Nat :=
  answers.countP (fun a => topicOf a == t)

/-- The number of correct answers whose topic reads as `t`. -/
def correctFor (answers : List Answer) (t : String) : Nat :=
  answers.countP (fun a => topicOf a == t && a.isCorrect)

/-- An answer with the given topic and correctness. -/
def answerOn (topic : String) (isCorrect : Bool) : Answer :=
  { questionNumber := 1, isCorrect := isCorrect, topic := some topic, timeTaken := 10 }

/-- Forty answers on topic "A", 23 of them correct, and one answer on topic "constructor". -/
def fortyOnOneTopic : List Answer :=
  List.replicate 23 (answerOn "A" true) ++ List.replicate 17 (answerOn "A" false) ++
    [answerOn "constructor" true]

/-- Two hundred answers on topic "A", all but the last correct. -/
def twoHundredOnOneTopic : List Answer :=
  List.replicate 199 (answerOn "A" true) ++ [answerOn "A" false]

/-- The quiz of the scenario: topics A, A, B, B answered right, wrong, right, right. -/
def scenarioAnswers : List Answer :=
  [answerOn "A" true, answerOn "A" false, answerOn "B" true, answerOn "B" true]

/-- The sum of `questionsAsked` over the stored entries with topic `t`. -/
def totalAskedFor (entries : List WeakTopic) (t : String) : Nat :=
  ((entries.filter (fun wt => wt.topic == t)).map (fun wt => wt.questionsAsked)).sum

/-- The sum of `questionsCorrect` over the stored entries with topic `t`. -/
def totalCorrectFor (entries : List WeakTopic) (t : String) : Nat :=
  ((entries.filter (fun wt => wt.topic == t)).map (fun wt => wt.questionsCorrect)).sum

/-- All stored weak-topic entries of the quiz results, in order. -/
def storedEntries (quizResults : List QuizResult) : List WeakTopic :=
  quizResults.flatMap (fun q => q.weakTopics)

/-- The dashboard's list before `slice(0, 5)`: all topics, sorted by accuracy. -/
def sortedDashboardTopics (quizResults : List QuizResult) : List DashboardTopic :=
  stableSortBy (fun a b => !(a.accuracy.differencePositive b.accuracy))
    ((JSDict.values (collectWeakTopics quizResults)).map toDashboardTopic)

/-- A stored quiz result whose single weak-topic entry is 23 correct out of 40 on topic "A". -/
def halfwayQuiz : QuizResult :=
  { score := 58, weakTopics := [⟨"A", 40, 23, JSNumber.ofNat 57⟩] }

/-- Two stored quiz results over seven topics. -/
def sevenTopicQuizzes : List QuizResult :=
  [{ score := 70,
     weakTopics := [⟨"T1", 2, 1, JSNumber.ofNat 50⟩, ⟨"T2", 4, 1, JSNumber.ofNat 25⟩,
       ⟨"T3", 1, 1, JSNumber.ofNat 100⟩, ⟨"T4", 5, 4, JSNumber.ofNat 80⟩] },
   { score := 60,
     weakTopics := [⟨"T2", 4, 3, JSNumber.ofNat 75⟩, ⟨"T5", 10, 1, JSNumber.ofNat 10⟩,
       ⟨"T6", 3, 2, JSNumber.ofNat 67⟩, ⟨"T7", 2, 0, JSNumber.ofNat 0⟩] }]

/-- A three-day schedule with one session a day. -/
def threeDays : List DayEntry :=
  [⟨1, [⟨"Read", 30, "reading"⟩]⟩, ⟨2, [⟨"Practise", 30, "practice"⟩]⟩, ⟨3, [⟨"Quiz", 20, "quiz"⟩]⟩]

/-- A stored quiz result whose single weak-topic entry has `questionsAsked = 0`. -/
def zeroAskedQuiz : QuizResult :=
  { score := 0, weakTopics := [⟨"A", 0, 0, JSNumber.nan⟩] }

/-- The duration the specification counts for a session: the actual duration when one is
recorded, the planned duration otherwise. -/
def recordedOrPlanned (s : StudySession) : Int :=
  match s.actual with
  | some actual => actual
  | none => s.planned

/-- A session planned for 30 minutes, started at time 0 and not yet completed. -/
def plannedHalfHour : StudySession :=
  { planned := 30, actual := none, startTime := some 0, endTime := none, completed := false }

/-- The required fields of `POST /api/quiz-results`, in the order the route tests them. -/
def requiredFieldNames : List String :=
  ["userId", "materialId", "materialTitle", "quizData", "answers", "timeSpent"]

/-- Whether the named required field counts as missing: the first five when falsy, `timeSpent`
when `null` or `undefined`. -/
def fieldIsMissing (body : QuizResultBody) (name : String) : Bool :=
  if name = "userId" then !body.userId.truthy
  else if name = "materialId" then !body.materialId.truthy
  else if name = "materialTitle" then !body.materialTitle.truthy
  else if name = "quizData" then !body.quizData.truthy
  else if name = "answers" then !body.answers.truthy
  else if name = "timeSpent" then body.timeSpent.looseNull
  else false

/-- A complete quiz-result body with no answers and no time spent. -/
def emptyQuizBody : QuizResultBody :=
  { userId := .string "u1", materialId := .string "m1", materialTitle := .string "Notes",
    quizData := .object, answers := .array 0, timeSpent := .number 0 }

/-- A generated schedule of two days whose second day has no `sessions` member. -/
def secondDayWithoutSessions : Json :=
  .obj [("schedule",
    .arr [.obj [("day", .num 1), ("sessions", .arr [.obj [("title", .str "Read")]])],
      .obj [("day", .num 2), ("dailyGoal", .str "Review")]])]

/-- The answers the weak-topics route folds, each with the `completedAt` of its quiz result, in
the order of the two nested loops. -/
def attempts (quizResults : List QuizResult) : List (Int × Answer) :=
  quizResults.flatMap (fun r => r.answers.map (fun a => (r.completedAt, a)))

/-- The trend points of the attempts whose topic reads as `topic`, in the order of the loops. -/
def attemptsOn (quizResults : List QuizResult) (topic : String) : List TrendPoint :=
  ((attempts quizResults).filter (fun i => topicOf i.2 == topic)).map
    (fun i => ⟨i.1, i.2.isCorrect⟩)

/-- A quiz result with one answer on topic "A", completed at the given time. -/
def attemptAt (completedAt : Int) (isCorrect : Bool) : QuizResult :=
  { score := 0, weakTopics := [], answers := [answerOn "A" isCorrect], completedAt := completedAt }

/-- Six quiz results as the weak-topics query returns them, newest first (completed at times
6000, 5000, ..., 1000); only the newest attempt is correct. -/
def sixAttempts : List QuizResult :=
  [attemptAt 6000 true, attemptAt 5000 false, attemptAt 4000 false, attemptAt 3000 false,
    attemptAt 2000 false, attemptAt 1000 false]

/-- One quiz result with 23 answers on topic "A", 16 of them correct. -/
def sixteenOfTwentyThree : List QuizResult :=
  [{ score := 70, weakTopics := [],
     answers := List.replicate 16 (answerOn "A" true) ++ List.replicate 7 (answerOn "A" false),
     completedAt := 1000 }]

/-- The time zone America/New_York with its two offset changes of 2026: UTC-5 until 8 March,
07:00 UTC, then UTC-4 until 1 November, 06:00 UTC, then UTC-5. -/
def newYork2026 : TimeZone :=
  { initialOffset := -18000000,
    transitions := [(1772953200000, -14400000), (1793512800000, -18000000)] }

/-- The instant 7 March 2026, 17:00 UTC: 12:00 on 7 March in New York. -/
def marchSeventh : Int := 1772902800000

/-- The instant 8 March 2026, 17:00 UTC: 13:00 on 8 March in New York. -/
def marchEighth : Int := 1772989200000

/-- The instant 9 March 2026, 16:00 UTC: 12:00 on 9 March in New York. -/
def marchNinth : Int := 1773072000000

/-- A schedule document as `POST /api/progress/schedule/save` stores it for the pair
`("u1", "m1")`: active, without days. -/
def storedSchedule : Schedule := Schedule.new "u1" "m1" "Notes" []

/-! ## Properties of `completeSession` -/

theorem completeSession_schedule (s : Schedule) (day sessionIndex now : Int) :
    (s.completeSession day sessionIndex now).schedule = s.schedule := rfl

theorem completeSession_userId (s : Schedule) (day sessionIndex now : Int) :
    (s.completeSession day sessionIndex now).userId = s.userId := rfl

theorem completeSession_materialId (s : Schedule) (day sessionIndex now : Int) :
    (s.completeSession day sessionIndex now).materialId = s.materialId := rfl

theorem completeSession_records (s : Schedule) (day sessionIndex now : Int) :
    (s.completeSession day sessionIndex now).progress.completedSessions =
      s.progress.completedSessions ++ [⟨day, sessionIndex, now⟩] := rfl

theorem completeSession_percent (s : Schedule) (day sessionIndex now : Int) :
    (s.completeSession day sessionIndex now).progress.percentComplete =
      percentOf (s.progress.completedSessions.length + 1) (totalSessions s.schedule) := by
  simp [Schedule.completeSession]

/-- The Boolean test of the code agrees with `DayCompletes` on the extended record list. -/
theorem completeSession_days_of_completes (s : Schedule) (day sessionIndex now : Int)
    (h : DayCompletes s day (s.progress.completedSessions ++ [⟨day, sessionIndex, now⟩])) :
    (s.completeSession day sessionIndex now).progress.completedDays =
        s.progress.completedDays ++ [day] ∧
      (s.completeSession day sessionIndex now).progress.currentDay = day + 1 := by
  obtain ⟨⟨e, he, hle⟩, hnot⟩ := h
  unfold recordsForDay at hle
  unfold Schedule.completeSession
  have hc : s.progress.completedDays.contains day = false := by simpa using hnot
  simp only [he, ge_iff_le, hle, decide_True, hc, Bool.not_false, Bool.and_self, if_true,
    and_self]

theorem completeSession_days_of_not_completes (s : Schedule) (day sessionIndex now : Int)
    (h : ¬ DayCompletes s day (s.progress.completedSessions ++ [⟨day, sessionIndex, now⟩])) :
    (s.completeSession day sessionIndex now).progress.completedDays = s.progress.completedDays ∧
      (s.completeSession day sessionIndex now).progress.currentDay = s.progress.currentDay := by
  unfold DayCompletes recordsForDay at h
  unfold Schedule.completeSession
  cases he : s.schedule.find? (fun d => d.day == day) with
  | none => simp
  | some e =>
    simp only [he, Option.some.injEq, exists_eq_left', not_and, not_not] at h
    by_cases hle : e.sessions.length ≤
        ((s.progress.completedSessions ++
          [(⟨day, sessionIndex, now⟩ : CompletedSession)]).filter (fun c => c.day == day)).length
    · have hc : s.progress.completedDays.contains day = true := by simpa using h hle
      simp only [ge_iff_le, hle, decide_True, hc, Bool.not_true, Bool.and_false,
        Bool.false_eq_true, if_false, and_self]
    · simp only [ge_iff_le, hle, decide_False, Bool.false_and, Bool.false_eq_true, if_false,
        and_self]

/-- C1. Day-completion rule of `completeSession`: with the new record appended, if the schedule
has a day entry numbered `day` (the first such entry), the records for `day` number at least
that entry's sessions and `day` is not yet in `completedDays`, then `day` is appended to
`completedDays` and `currentDay` becomes `day + 1`; in every other case both are unchanged. -/
theorem completeSession_day_rule (s : Schedule) (day sessionIndex now : Int) :
    (DayCompletes s day (s.completeSession day sessionIndex now).progress.completedSessions →
        (s.completeSession day sessionIndex now).progress.completedDays =
            s.progress.completedDays ++ [day] ∧
          (s.completeSession day sessionIndex now).progress.currentDay = day + 1) ∧
      (¬ DayCompletes s day (s.completeSession day sessionIndex now).progress.completedSessions →
        (s.completeSession day sessionIndex now).progress.completedDays =
            s.progress.completedDays ∧
          (s.completeSession day sessionIndex now).progress.currentDay =
            s.progress.currentDay) :=
  ⟨completeSession_days_of_completes s day sessionIndex now,
    completeSession_days_of_not_completes s day sessionIndex now⟩

/-- The scenario of C1: after completing (1,0) and then (1,1) on the two-day schedule,
`completedDays = [1]` and `currentDay = 2`. -/
theorem completeSession_day_rule_witness :
    ((scenario.completeSession 1 0 1000).completeSession 1 1 2000).progress.completedDays = [1] ∧
      ((scenario.completeSession 1 0 1000).completeSession 1 1 2000).progress.currentDay = 2 :=
  (completeSession_day_rule (scenario.completeSession 1 0 1000) 1 1 2000).1
    ⟨⟨⟨1, [⟨"Read", 30, "reading"⟩, ⟨"Practise", 30, "practice"⟩]⟩, by decide, by decide⟩,
      by decide⟩

/-- C7. `completeSession` is append-only and not idempotent: one call appends exactly one record
with the given day and session index at the end of `completedSessions`, earlier records staying
as they were, and two successive calls with the same pair add two records. -/
theorem completeSession_append_only (s : Schedule) (day sessionIndex now now2 : Int) :
    (s.completeSession day sessionIndex now).progress.completedSessions =
        s.progress.completedSessions ++ [⟨day, sessionIndex, now⟩] ∧
      ((s.completeSession day sessionIndex now).completeSession day sessionIndex
          now2).progress.completedSessions.length =
        s.progress.completedSessions.length + 2 := by
  simp [completeSession_records]

/-! ## The double-precision percentage -/

theorem log2Aux_spec (f : Nat) : ∀ n, n ≤ f → 0 < n →
    2 ^ log2Aux f n ≤ n ∧ n < 2 ^ (log2Aux f n + 1) := by
  induction f with
  | zero => intro n h0 hpos; omega
  | succ f ih =>
    intro n hle hpos
    unfold log2Aux
    by_cases h2 : n < 2
    · simp only [h2, if_true]
      have : n = 1 := by omega
      subst this
      norm_num
    · simp only [h2, if_false]
      have hhalf := ih (n / 2) (by omega) (by omega)
      obtain ⟨hlo, hhi⟩ := hhalf
      have e1 : 2 ^ (log2Aux f (n / 2) + 1) = 2 * 2 ^ log2Aux f (n / 2) := by ring
      have e2 : 2 ^ (log2Aux f (n / 2) + 1 + 1) = 2 * 2 ^ (log2Aux f (n / 2) + 1) := by ring
      rw [e2]
      rw [e1] at hhi ⊢
      constructor <;> omega

theorem natLog2_spec (n : Nat) (hpos : 0 < n) :
    2 ^ natLog2 n ≤ n ∧ n < 2 ^ (natLog2 n + 1) :=
  log2Aux_spec n n le_rfl hpos

/-- The rounded quotient is within half a unit of the exact one. -/
theorem roundHalfEven_spec (x y : Nat) (hy : 0 < y) :
    2 * (roundHalfEven x y * y) ≤ 2 * x + y ∧ 2 * x ≤ 2 * (roundHalfEven x y * y) + y := by
  have h1 : y * (x / y) + x % y = x := Nat.div_add_mod x y
  have h2 : x % y < y := Nat.mod_lt x hy
  unfold roundHalfEven
  simp only []
  generalize x / y = q at *
  generalize x % y = r at *
  have e : (q + 1) * y = y * q + y := by ring
  have e2 : q * y = y * q := by ring
  split_ifs <;> simp only [e, e2] <;> omega

/-- The shifted quotient has at least 53 significant bits. -/
theorem sigShift_spec (a b : Nat) (ha : 0 < a) (hb : 0 < b) :
    2 ^ 52 * (b * 2 ^ (-(sigShift a b)).toNat) ≤ a * 2 ^ (sigShift a b).toNat := by
  obtain ⟨hla, -⟩ := natLog2_spec a ha
  obtain ⟨-, hlb⟩ := natLog2_spec b hb
  unfold sigShift
  simp only []
  split_ifs with hlt
  · -- one more bit is needed
    rcases le_or_lt 0 (52 + (natLog2 b : Int) - (natLog2 a : Int)) with h0 | h0
    · obtain ⟨j, hj⟩ := Int.eq_ofNat_of_zero_le h0
      have hj2 : j + natLog2 a = 52 + natLog2 b := by omega
      have t1 : (52 + (natLog2 b : Int) - (natLog2 a : Int) + 1).toNat = j + 1 := by omega
      have t2 : (-(52 + (natLog2 b : Int) - (natLog2 a : Int) + 1)).toNat = 0 := by omega
      rw [t1, t2]
      have key : 2 ^ natLog2 a * 2 ^ (j + 1) = 2 ^ 52 * 2 ^ (natLog2 b + 1) := by
        rw [← pow_add, ← pow_add]
        congr 1
        omega
      calc 2 ^ 52 * (b * 2 ^ 0) = 2 ^ 52 * b := by ring
        _ ≤ 2 ^ 52 * 2 ^ (natLog2 b + 1) := Nat.mul_le_mul_left _ hlb.le
        _ = 2 ^ natLog2 a * 2 ^ (j + 1) := key.symm
        _ ≤ a * 2 ^ (j + 1) := Nat.mul_le_mul_right _ hla
    · obtain ⟨k, hk⟩ : ∃ k : Nat, natLog2 a = 53 + natLog2 b + k := ⟨natLog2 a - 53 - natLog2 b, by omega⟩
      have t1 : (52 + (natLog2 b : Int) - (natLog2 a : Int) + 1).toNat = 0 := by omega
      have t2 : (-(52 + (natLog2 b : Int) - (natLog2 a : Int) + 1)).toNat = k := by omega
      rw [t1, t2]
      have key : 2 ^ 52 * (2 ^ (natLog2 b + 1) * 2 ^ k) = 2 ^ natLog2 a := by
        rw [← pow_add, ← pow_add, hk]
        congr 1
        omega
      calc 2 ^ 52 * (b * 2 ^ k) ≤ 2 ^ 52 * (2 ^ (natLog2 b + 1) * 2 ^ k) :=
            Nat.mul_le_mul_left _ (Nat.mul_le_mul_right _ hlb.le)
        _ = 2 ^ natLog2 a := key
        _ ≤ a := hla
        _ = a * 2 ^ 0 := by ring
  · exact not_lt.mp hlt

theorem Dbl.toRat_nonneg (d : Dbl) : 0 ≤ d.toRat := by
  unfold Dbl.toRat
  positivity

/-- Relative error of rounding to a double: at most `2 ^ (-53)`. -/
theorem roundToDouble_error (a b : Nat) (hb : 0 < b) :
    |(roundToDouble a b).toRat - (a : ℚ) / b| ≤ (a : ℚ) / b / 2 ^ 53 := by
  unfold roundToDouble
  by_cases ha : a = 0
  · simp [ha, Dbl.toRat]
  · simp only [ha, if_false, Dbl.toRat]
    have hapos : 0 < a := Nat.pos_of_ne_zero ha
    have hs := sigShift_spec a b hapos hb
    generalize sigShift a b = s at hs ⊢
    have hU : 0 < 2 ^ (-s).toNat := by positivity
    have hr := roundHalfEven_spec (a * 2 ^ s.toNat) (b * 2 ^ (-s).toNat) (Nat.mul_pos hb hU)
    generalize roundHalfEven (a * 2 ^ s.toNat) (b * 2 ^ (-s).toNat) = m at hr ⊢
    generalize hUd : 2 ^ (-s).toNat = U at hs hr hU ⊢
    generalize hPd : 2 ^ s.toNat = P at hs hr ⊢
    have hP : 0 < P := by rw [← hPd]; positivity
    obtain ⟨hr1, hr2⟩ := hr
    have hbq : (0 : ℚ) < b := by exact_mod_cast hb
    have hPq : (0 : ℚ) < P := by exact_mod_cast hP
    have hUq : (0 : ℚ) < U := by exact_mod_cast hU
    have hsq : (2 : ℚ) ^ 52 * (b * U) ≤ a * P := by exact_mod_cast hs
    have hr1q : (2 : ℚ) * (m * (b * U)) ≤ 2 * (a * P) + b * U := by exact_mod_cast hr1
    have hr2q : (2 : ℚ) * (a * P) ≤ 2 * (m * (b * U)) + b * U := by exact_mod_cast hr2
    have hcast : ((m * U : Nat) : ℚ) / ((2 : ℚ) ^ s.toNat) = (m * U : ℚ) / P := by
      rw [← hPd]; push_cast; ring
    rw [hcast]
    have hdiff : (m * U : ℚ) / P - a / b = (m * (b * U) - a * P) / (b * P) := by
      field_simp
      ring
    rw [hdiff, abs_le]
    have hbP : (0 : ℚ) < b * P := mul_pos hbq hPq
    have hrhs : (a : ℚ) / b / 2 ^ 53 = (a * P / 2 ^ 53) / (b * P) := by
      field_simp
      ring
    rw [hrhs]
    constructor
    · rw [neg_le, ← neg_div, div_le_div_iff_of_pos_right hbP]
      linarith
    · rw [div_le_div_iff_of_pos_right hbP]
      linarith

/-- `Math.round` of a finite double is the floor of its value plus one half. -/
theorem mathRound_spec (d : Dbl) :
    ∃ k : Nat, mathRound (.finite d) = JSNumber.ofNat k ∧
      (k : ℚ) ≤ d.toRat + 1 / 2 ∧ d.toRat + 1 / 2 < k + 1 := by
  refine ⟨(2 * d.num + 2 ^ d.scale) / 2 ^ (d.scale + 1), rfl, ?_⟩
  have hpos : 0 < 2 ^ (d.scale + 1) := by positivity
  have h1 := Nat.div_add_mod (2 * d.num + 2 ^ d.scale) (2 ^ (d.scale + 1))
  have h2 := Nat.mod_lt (2 * d.num + 2 ^ d.scale) hpos
  generalize (2 * d.num + 2 ^ d.scale) / 2 ^ (d.scale + 1) = k at h1 ⊢
  generalize (2 * d.num + 2 ^ d.scale) % 2 ^ (d.scale + 1) = r at h1 h2
  have hpow : 2 ^ (d.scale + 1) = 2 * 2 ^ d.scale := by ring
  rw [hpow] at h1 h2
  unfold Dbl.toRat
  generalize hPd : 2 ^ d.scale = P at h1 h2
  have hP : 0 < P := by rw [← hPd]; positivity
  have hPq : (0 : ℚ) < P := by exact_mod_cast hP
  have hPc : ((2 : ℚ) ^ d.scale) = P := by rw [← hPd]; push_cast; ring
  rw [hPc]
  have h1q : (2 : ℚ) * P * k + r = 2 * d.num + P := by exact_mod_cast h1
  have h2q : (r : ℚ) < 2 * P := by exact_mod_cast h2
  have hr0 : (0 : ℚ) ≤ r := by positivity
  have hval : (d.num : ℚ) / P + 1 / 2 = (2 * d.num + P) / (2 * P) := by
    field_simp
    ring
  rw [hval]
  have h2P : (0 : ℚ) < 2 * P := by positivity
  constructor
  · rw [le_div_iff₀ h2P]
    linarith
  · rw [div_lt_iff₀ h2P]
    linarith

/-- The exact round-half-up is the floor of the exact quotient plus one half. -/
theorem roundHalfUp_spec (a b : Nat) (hb : 0 < b) :
    roundHalfUp a b * (2 * b) ≤ 2 * a + b ∧ 2 * a + b < (roundHalfUp a b + 1) * (2 * b) := by
  unfold roundHalfUp
  have h2b : 0 < 2 * b := by omega
  constructor
  · exact Nat.div_mul_le_self _ _
  · have := Nat.lt_div_mul_add (a := 2 * a + b) h2b
    rw [Nat.add_mul, Nat.one_mul]
    exact this

/-- The value rounded by `percentOf` is within three rounding units of `100 * n / t`. -/
theorem percentOf_error (n t : Nat) (ht : 0 < t) :
    ∃ d : Dbl, percentOf n t = mathRound (.finite d) ∧
      |d.toRat - 100 * (n : ℚ) / t| ≤ 100 * (n : ℚ) / t * (3 / 2 ^ 53) := by
  have ht0 : t ≠ 0 := Nat.pos_iff_ne_zero.mp ht
  refine ⟨roundToDouble ((roundToDouble n t).num * 100) (2 ^ (roundToDouble n t).scale), ?_, ?_⟩
  · simp [percentOf, jsDivLengths, ht0, jsTimes100]
  · have h1 := roundToDouble_error n t ht
    have h2 := roundToDouble_error ((roundToDouble n t).num * 100)
      (2 ^ (roundToDouble n t).scale) (by positivity)
    generalize roundToDouble ((roundToDouble n t).num * 100) (2 ^ (roundToDouble n t).scale)
      = d2 at h2 ⊢
    have hq1 : (((roundToDouble n t).num * 100 : Nat) : ℚ) / ((2 ^ (roundToDouble n t).scale : Nat) : ℚ)
        = 100 * (roundToDouble n t).toRat := by
      unfold Dbl.toRat
      push_cast
      ring
    rw [hq1] at h2
    generalize (roundToDouble n t).toRat = q1 at h1 h2
    have hx : (0 : ℚ) ≤ (n : ℚ) / t := by positivity
    have e : 100 * (n : ℚ) / t = 100 * ((n : ℚ) / t) := by ring
    rw [e]
    generalize (n : ℚ) / t = x at h1 h2 hx
    rw [abs_le] at h1 h2 ⊢
    obtain ⟨h1a, h1b⟩ := h1
    obtain ⟨h2a, h2b⟩ := h2
    have hq : q1 ≤ 2 * x := by
      have : x / 2 ^ 53 ≤ x := div_le_self hx (by norm_num)
      linarith
    have hq0 : 0 ≤ q1 := by
      have : x / 2 ^ 53 ≤ x := div_le_self hx (by norm_num)
      linarith
    have hd : 100 * q1 / 2 ^ 53 ≤ 100 * (2 * x) / 2 ^ 53 := by
      apply div_le_div_of_nonneg_right _ (by positivity)
      linarith
    constructor
    · have : 100 * (x / 2 ^ 53) + 100 * (2 * x) / 2 ^ 53 = 100 * x * (3 / 2 ^ 53) := by ring
      linarith
    · have : 100 * (x / 2 ^ 53) + 100 * (2 * x) / 2 ^ 53 = 100 * x * (3 / 2 ^ 53) := by ring
      linarith

/-- The stored percentage against the exact round-half-up of `100 * n / t`: they agree unless
`100 * n / t` lies exactly halfway between two integers, where the stored value may be one less. -/
theorem percentOf_spec (n t : Nat) (ht : 0 < t) (hn : n < 2 ^ 32) :
    ∃ k : Nat, percentOf n t = JSNumber.ofNat k ∧
      (k = roundHalfUp (100 * n) t ∨
        ((200 * n) % (2 * t) = t ∧ k + 1 = roundHalfUp (100 * n) t)) := by
  obtain ⟨d, hd, herr⟩ := percentOf_error n t ht
  obtain ⟨k, hk, hk1, hk2⟩ := mathRound_spec d
  refine ⟨k, hd.trans hk, ?_⟩
  obtain ⟨hR1, hR2⟩ := roundHalfUp_spec (100 * n) t ht
  generalize roundHalfUp (100 * n) t = R at hR1 hR2 ⊢
  have htq : (0 : ℚ) < t := by exact_mod_cast ht
  have hnq : (n : ℚ) < 2 ^ 32 := by exact_mod_cast hn
  have hn0 : (0 : ℚ) ≤ n := by positivity
  -- the rounding error is below `1 / (2 t)`
  have hsmall : 100 * (n : ℚ) / t * (3 / 2 ^ 53) < 1 / (2 * t) := by
    rw [div_mul_eq_mul_div, div_lt_div_iff₀ htq (by positivity)]
    nlinarith
  have hlt := lt_of_le_of_lt herr hsmall
  rw [abs_lt] at hlt
  obtain ⟨hlo, hhi⟩ := hlt
  have h2t : (0 : ℚ) < 2 * t := by positivity
  -- both error bounds multiplied by `2 t`
  have hD1 : d.toRat * (2 * t) < 200 * n + 1 := by
    have : d.toRat < (200 * n + 1) / (2 * t) := by
      have e : (200 * (n : ℚ) + 1) / (2 * t) = 100 * n / t + 1 / (2 * t) := by
        field_simp
        ring
      rw [e]
      linarith
    exact (lt_div_iff₀ h2t).mp this
  have hD2 : 200 * (n : ℚ) - 1 < d.toRat * (2 * t) := by
    have : (200 * n - 1) / (2 * t) < d.toRat := by
      have e : (200 * (n : ℚ) - 1) / (2 * t) = 100 * n / t - 1 / (2 * t) := by
        field_simp
        ring
      rw [e]
      linarith
    exact (div_lt_iff₀ h2t).mp this
  have hK1 : (k : ℚ) * (2 * t) ≤ d.toRat * (2 * t) + t := by
    have := mul_le_mul_of_nonneg_right hk1 h2t.le
    linarith
  have hK2 : d.toRat * (2 * t) + t < ((k : ℚ) + 1) * (2 * t) := by
    have := mul_lt_mul_of_pos_right hk2 h2t
    linarith
  generalize d.toRat * (2 * t) = Y at hD1 hD2 hK1 hK2
  have hR1q : (R : ℚ) * (2 * t) ≤ 2 * (100 * n) + t := by exact_mod_cast hR1
  have hR2q : (2 : ℚ) * (100 * n) + t < ((R : ℚ) + 1) * (2 * t) := by exact_mod_cast hR2
  have h2tn : 0 < 2 * t := by omega
  have h1t : (1 : ℚ) ≤ t := by exact_mod_cast ht
  rcases Nat.eq_or_lt_of_le hR1 with heq | hneq
  · -- `100 * n / t` is a half-integer
    have heqq : (R : ℚ) * (2 * t) = 2 * (100 * n) + t := by exact_mod_cast heq
    have hkR : k < R + 1 := by
      have : (k : ℚ) * (2 * t) < ((R : ℚ) + 1) * (2 * t) := by linarith
      have : k * (2 * t) < (R + 1) * (2 * t) := by exact_mod_cast this
      exact Nat.lt_of_mul_lt_mul_right this
    have hRk : R < k + 2 := by
      have : (R : ℚ) * (2 * t) < ((k : ℚ) + 2) * (2 * t) := by linarith
      have : R * (2 * t) < (k + 2) * (2 * t) := by exact_mod_cast this
      exact Nat.lt_of_mul_lt_mul_right this
    have hRpos : R ≠ 0 := by
      rintro rfl
      omega
    by_cases hkeq : k = R
    · exact Or.inl hkeq
    right
    obtain ⟨r, hr⟩ : ∃ r, R = r + 1 := ⟨R - 1, by omega⟩
    subst hr
    have hsplit : 200 * n = t + r * (2 * t) := by
      have e : (r + 1) * (2 * t) = r * (2 * t) + 2 * t := by ring
      rw [e] at heq
      omega
    constructor
    · rw [hsplit, Nat.add_mul_mod_self_right]
      exact Nat.mod_eq_of_lt (by omega)
    · omega
  · left
    have hneq1 : R * (2 * t) + 1 ≤ 2 * (100 * n) + t := hneq
    have hneq2 : 2 * (100 * n) + t + 1 ≤ (R + 1) * (2 * t) := hR2
    have hneq1q : (R : ℚ) * (2 * t) + 1 ≤ 2 * (100 * n) + t := by exact_mod_cast hneq1
    have hneq2q : (2 : ℚ) * (100 * n) + t + 1 ≤ ((R : ℚ) + 1) * (2 * t) := by
      exact_mod_cast hneq2
    have hkR : k < R + 1 := by
      have : (k : ℚ) * (2 * t) < ((R : ℚ) + 1) * (2 * t) := by linarith
      have : k * (2 * t) < (R + 1) * (2 * t) := by exact_mod_cast this
      exact Nat.lt_of_mul_lt_mul_right this
    have hRk : R < k + 1 := by
      have : (R : ℚ) * (2 * t) < ((k : ℚ) + 1) * (2 * t) := by linarith
      have : R * (2 * t) < (k + 1) * (2 * t) := by exact_mod_cast this
      exact Nat.lt_of_mul_lt_mul_right this
    omega

/-! ## Sequences of calls -/

theorem run_nil (s : Schedule) : s.run [] = s := rfl

theorem run_append_one (s : Schedule) (calls : List Call) (c : Call) :
    s.run (calls ++ [c]) = (s.run calls).completeSession c.1 c.2.1 c.2.2 := by
  simp [Schedule.run, List.foldl_append]

theorem run_append (s : Schedule) (calls more : List Call) :
    s.run (calls ++ more) = (s.run calls).run more := by
  simp [Schedule.run, List.foldl_append]

theorem run_schedule (s : Schedule) (calls : List Call) : (s.run calls).schedule = s.schedule := by
  induction calls using List.reverseRecOn with
  | nil => rfl
  | append_singleton cs c ih => rw [run_append_one, completeSession_schedule, ih]

theorem run_records_length (s : Schedule) (calls : List Call) :
    (s.run calls).progress.completedSessions.length =
      s.progress.completedSessions.length + calls.length := by
  induction calls using List.reverseRecOn with
  | nil => rfl
  | append_singleton cs c ih =>
    rw [run_append_one, completeSession_records]
    simp [ih]
    omega

theorem roundHalfUp_le_hundred (n t : Nat) (ht : 0 < t) (h : n ≤ t) :
    roundHalfUp (100 * n) t ≤ 100 := by
  unfold roundHalfUp
  have : (2 * (100 * n) + t) / (2 * t) < 101 := by
    rw [Nat.div_lt_iff_lt_mul (by omega)]
    omega
  omega

/-! ## The stored percentage -/

/-- C2, as stated, fails: with 40 sessions in total and 23 completed-session records the stored
`percentComplete` is 57, while round-half-up of `100 * 23 / 40 = 57.5` is 58 (the double
`23 / 40` lies just below 0.575, and so does its product with 100 below 57.5). -/
theorem percentComplete_not_round_half_up :
    1 ≤ totalSessions fortySessions ∧
      ((Schedule.new "u1" "m1" "Notes" fortySessions).run
          twentyThreeCalls).progress.completedSessions.length = 23 ∧
      ((Schedule.new "u1" "m1" "Notes" fortySessions).run
          twentyThreeCalls).progress.percentComplete = JSNumber.ofNat 57 ∧
      roundHalfUp (100 * 23) (totalSessions fortySessions) = 58 := by
  decide

/-- C2, amended. For a schedule with at least one session in total, after any `completeSession`
call the stored `percentComplete` is a whole number `k`; with `n` the number of records
including the new one and `T` the total session count, `k` is round-half-up of `100 * n / T`
unless `100 * n / T` lies exactly halfway between two integers, where `k` is that value or one
less. (`n` is an array length, hence below `2 ^ 32`.) -/
theorem completeSession_percent_rounding (s : Schedule) (day sessionIndex now : Int)
    (hT : 1 ≤ totalSessions s.schedule)
    (hn : s.progress.completedSessions.length + 1 < 2 ^ 32) :
    ∃ k : Nat,
      (s.completeSession day sessionIndex now).progress.percentComplete = JSNumber.ofNat k ∧
      (k = roundHalfUp (100 * (s.progress.completedSessions.length + 1))
            (totalSessions s.schedule) ∨
        ((200 * (s.progress.completedSessions.length + 1)) % (2 * totalSessions s.schedule) =
            totalSessions s.schedule ∧
          k + 1 = roundHalfUp (100 * (s.progress.completedSessions.length + 1))
            (totalSessions s.schedule))) := by
  rw [completeSession_percent]
  exact percentOf_spec _ _ hT hn

/-- The scenario of C2: two records out of three sessions; the stored value is 67. -/
theorem completeSession_percent_rounding_witness :
    (1 ≤ totalSessions (scenario.completeSession 1 0 1000).schedule ∧
      (scenario.completeSession 1 0 1000).progress.completedSessions.length + 1 < 2 ^ 32) ∧
    ((scenario.completeSession 1 0 1000).completeSession 1 1 2000).progress.percentComplete =
      JSNumber.ofNat 67 ∧
    ∃ k : Nat,
      ((scenario.completeSession 1 0 1000).completeSession 1 1 2000).progress.percentComplete =
        JSNumber.ofNat k ∧
      (k = roundHalfUp (100 * ((scenario.completeSession 1 0 1000).progress.completedSessions.length
            + 1)) (totalSessions (scenario.completeSession 1 0 1000).schedule) ∨
        ((200 * ((scenario.completeSession 1 0 1000).progress.completedSessions.length + 1)) %
            (2 * totalSessions (scenario.completeSession 1 0 1000).schedule) =
            totalSessions (scenario.completeSession 1 0 1000).schedule ∧
          k + 1 = roundHalfUp
            (100 * ((scenario.completeSession 1 0 1000).progress.completedSessions.length + 1))
            (totalSessions (scenario.completeSession 1 0 1000).schedule))) :=
  ⟨⟨by decide, by decide⟩, by decide,
    completeSession_percent_rounding (scenario.completeSession 1 0 1000) 1 1 2000 (by decide)
      (by decide)⟩

/-- C3, the failing input: on a schedule without any session (here the empty day list, as stored by
`POST /api/progress/schedule/save`), `completeSession` divides by zero and stores `Infinity`
in `percentComplete`, not 0. -/
theorem completeSession_empty_schedule_percent :
    totalSessions (Schedule.new "u1" "m1" "Notes" []).schedule = 0 ∧
      ((Schedule.new "u1" "m1" "Notes" []).completeSession 1 0 1000).progress.percentComplete =
        JSNumber.posInf ∧
      ((Schedule.new "u1" "m1" "Notes" []).completeSession 1 0 1000).progress.percentComplete ≠
        JSNumber.ofNat 0 := by
  decide

/-- Without sessions the quotient is `Infinity` after every call. -/
theorem completeSession_percent_of_no_sessions (s : Schedule) (day sessionIndex now : Int)
    (h : totalSessions s.schedule = 0) :
    (s.completeSession day sessionIndex now).progress.percentComplete = JSNumber.posInf := by
  rw [completeSession_percent, h]
  simp [percentOf, jsDivLengths, jsTimes100, mathRound]

/-- C4, as stated, fails: completing the only session of a schedule twice gives
`percentComplete = 200`, which is not a percentage. -/
theorem percentComplete_exceeds_hundred :
    ¬ IsPercentage
      ((Schedule.new "u1" "m1" "Notes" singleSession).run
        [(1, 0, 1000), (1, 0, 2000)]).progress.percentComplete := by
  have h : ((Schedule.new "u1" "m1" "Notes" singleSession).run
      [(1, 0, 1000), (1, 0, 2000)]).progress.percentComplete = JSNumber.ofNat 200 := by decide
  rw [h]
  rintro ⟨k, hk, hle⟩
  simp only [JSNumber.ofNat, JSNumber.finite.injEq, Dbl.mk.injEq, and_true] at hk
  omega

/-- C4, amended. For a schedule with at least one session in total, in every state reached from a
newly created schedule by `completeSession` calls (any arguments, repeats included),
`percentComplete` is a whole number, never negative, and it is at most 100 as long as the number
of calls does not exceed the total session count. -/
theorem run_percent_bounds (userId materialId materialTitle : String) (days : List DayEntry)
    (calls : List Call) (hT : 1 ≤ totalSessions days) (hlen : calls.length < 2 ^ 32) :
    ∃ k : Nat,
      ((Schedule.new userId materialId materialTitle days).run calls).progress.percentComplete =
        JSNumber.ofNat k ∧
      (calls.length ≤ totalSessions days → k ≤ 100) := by
  induction calls using List.reverseRecOn with
  | nil => exact ⟨0, rfl, fun _ => by omega⟩
  | append_singleton cs c _ =>
    rw [run_append_one, completeSession_percent, run_schedule, run_records_length]
    have hlen2 : cs.length + 1 < 2 ^ 32 := by simpa using hlen
    have hT2 : 0 < totalSessions (Schedule.new userId materialId materialTitle days).schedule := hT
    have h0 : (Schedule.new userId materialId materialTitle days).progress.completedSessions.length
        = 0 := rfl
    rw [h0, Nat.zero_add]
    obtain ⟨k, hk, hcase⟩ := percentOf_spec (cs.length + 1) _ hT2 hlen2
    refine ⟨k, hk, fun hle => ?_⟩
    have hle2 : cs.length + 1 ≤ totalSessions days := by simpa using hle
    have hR := roundHalfUp_le_hundred (cs.length + 1) (totalSessions days) hT hle2
    have hsch : (Schedule.new userId materialId materialTitle days).schedule = days := rfl
    rw [hsch] at hcase
    rcases hcase with h | ⟨_, h⟩ <;> omega

/-- The scenario for C4: three calls on the three-session schedule end at 100. -/
theorem run_percent_bounds_witness :
    (1 ≤ totalSessions scenarioDays ∧
      [((1 : Int), (0 : Int), (1000 : Int)), (1, 1, 2000), (2, 0, 3000)].length < 2 ^ 32) ∧
    ∃ k : Nat,
      ((Schedule.new "u1" "m1" "Notes" scenarioDays).run
          [(1, 0, 1000), (1, 1, 2000), (2, 0, 3000)]).progress.percentComplete =
        JSNumber.ofNat k ∧
      ([((1 : Int), (0 : Int), (1000 : Int)), (1, 1, 2000), (2, 0, 3000)].length ≤
          totalSessions scenarioDays → k ≤ 100) :=
  ⟨⟨by decide, by decide⟩,
    run_percent_bounds "u1" "m1" "Notes" scenarioDays [(1, 0, 1000), (1, 1, 2000), (2, 0, 3000)]
      (by decide) (by decide)⟩

/-! ## The state invariant -/

theorem completeSession_active_eq (s : Schedule) (day sessionIndex now : Int) :
    (s.completeSession day sessionIndex now).active =
        (if s.schedule.length ≤ (s.completeSession day sessionIndex now).progress.completedDays.length
          then false else s.active) ∧
      (s.completeSession day sessionIndex now).completedAt =
        (if s.schedule.length ≤ (s.completeSession day sessionIndex now).progress.completedDays.length
          then some now else s.completedAt) := by
  have h1 : (s.completeSession day sessionIndex now).active =
      (if decide ((s.completeSession day sessionIndex now).progress.completedDays.length ≥
          s.schedule.length) = true then false else s.active) := rfl
  have h2 : (s.completeSession day sessionIndex now).completedAt =
      (if decide ((s.completeSession day sessionIndex now).progress.completedDays.length ≥
          s.schedule.length) = true then some now else s.completedAt) := rfl
  rw [h1, h2]
  simp only [decide_eq_true_eq, ge_iff_le, and_self]

theorem completeSession_done (s : Schedule) (day sessionIndex now : Int)
    (h : s.schedule.length ≤ (s.completeSession day sessionIndex now).progress.completedDays.length) :
    (s.completeSession day sessionIndex now).active = false ∧
      (s.completeSession day sessionIndex now).completedAt = some now := by
  obtain ⟨h1, h2⟩ := completeSession_active_eq s day sessionIndex now
  rw [h1, h2, if_pos h, if_pos h]
  exact ⟨rfl, rfl⟩

theorem completeSession_not_done (s : Schedule) (day sessionIndex now : Int)
    (h : ¬ s.schedule.length ≤
      (s.completeSession day sessionIndex now).progress.completedDays.length) :
    (s.completeSession day sessionIndex now).active = s.active ∧
      (s.completeSession day sessionIndex now).completedAt = s.completedAt := by
  obtain ⟨h1, h2⟩ := completeSession_active_eq s day sessionIndex now
  rw [h1, h2, if_neg h, if_neg h]
  exact ⟨rfl, rfl⟩

theorem recordsForDay_append (records : List CompletedSession) (day sessionIndex now d : Int) :
    recordsForDay (records ++ [⟨day, sessionIndex, now⟩]) d =
      recordsForDay records d + (if day = d then 1 else 0) := by
  unfold recordsForDay
  by_cases h : day = d <;> simp [List.filter_append, h]

theorem new_inv (userId materialId materialTitle : String) (days : List DayEntry) :
    (Schedule.new userId materialId materialTitle days).Inv := by
  refine ⟨List.nodup_nil, fun d => ?_, fun h => ?_⟩
  · simp [Schedule.new, Progress.default, recordsForDay]
  · simp [Schedule.new] at h

theorem completeSession_inv (s : Schedule) (day sessionIndex now : Int) (h : s.Inv) :
    (s.completeSession day sessionIndex now).Inv := by
  obtain ⟨hnd, hmem, hact⟩ := h
  have hrec : ∀ d, recordsForDay (s.completeSession day sessionIndex now).progress.completedSessions d
      = recordsForDay s.progress.completedSessions d + (if day = d then 1 else 0) := by
    intro d
    rw [completeSession_records, recordsForDay_append]
  by_cases hc : DayCompletes s day (s.progress.completedSessions ++ [⟨day, sessionIndex, now⟩])
  · obtain ⟨hcd, -⟩ := completeSession_days_of_completes s day sessionIndex now hc
    obtain ⟨⟨e, he, hle⟩, hnot⟩ := hc
    rw [recordsForDay_append, if_pos rfl] at hle
    have hinv12 : (s.completeSession day sessionIndex now).progress.completedDays.Nodup ∧
        ∀ d, d ∈ (s.completeSession day sessionIndex now).progress.completedDays ↔
          ∃ e, (s.completeSession day sessionIndex now).schedule.find? (fun x => x.day == d) = some e ∧
            e.sessions.length ≤
              recordsForDay (s.completeSession day sessionIndex now).progress.completedSessions d ∧
            1 ≤ recordsForDay (s.completeSession day sessionIndex now).progress.completedSessions d := by
      rw [hcd, completeSession_schedule]
      refine ⟨?_, fun d => ?_⟩
      · rw [List.nodup_append]
        refine ⟨hnd, List.nodup_singleton _, ?_⟩
        intro x hx hx2
        rw [List.mem_singleton] at hx2
        exact hnot (hx2 ▸ hx)
      · rw [hrec d, List.mem_append, List.mem_singleton, hmem d]
        by_cases hd : day = d
        · subst hd
          simp only [if_true]
          constructor
          · intro _
            exact ⟨e, he, hle, by omega⟩
          · intro _
            exact Or.inr trivial
        · simp only [if_neg hd, Nat.add_zero]
          constructor
          · rintro (h1 | h1)
            · exact h1
            · exact absurd h1.symm hd
          · intro h1
            exact Or.inl h1
    refine ⟨hinv12.1, hinv12.2, fun hfalse => ?_⟩
    by_cases hdone : s.schedule.length ≤
        (s.completeSession day sessionIndex now).progress.completedDays.length
    · obtain ⟨-, h2⟩ := completeSession_done s day sessionIndex now hdone
      rw [h2, completeSession_schedule]
      exact ⟨rfl, hdone⟩
    · obtain ⟨h1, h2⟩ := completeSession_not_done s day sessionIndex now hdone
      rw [h1] at hfalse
      obtain ⟨h3, h4⟩ := hact hfalse
      rw [h2, completeSession_schedule, hcd]
      refine ⟨h3, ?_⟩
      rw [List.length_append]
      omega
  · obtain ⟨hcd, -⟩ := completeSession_days_of_not_completes s day sessionIndex now hc
    have hinv2 : ∀ d, d ∈ (s.completeSession day sessionIndex now).progress.completedDays ↔
          ∃ e, (s.completeSession day sessionIndex now).schedule.find? (fun x => x.day == d) = some e ∧
            e.sessions.length ≤
              recordsForDay (s.completeSession day sessionIndex now).progress.completedSessions d ∧
            1 ≤ recordsForDay (s.completeSession day sessionIndex now).progress.completedSessions d := by
      intro d
      rw [hcd, completeSession_schedule, hrec d, hmem d]
      by_cases hd : day = d
      · subst hd
        simp only [if_true]
        constructor
        · rintro ⟨e, he, hle, h1⟩
          exact ⟨e, he, by omega, by omega⟩
        · rintro ⟨e, he, hle, -⟩
          have hin : day ∈ s.progress.completedDays := by
            by_contra hnot
            exact hc ⟨⟨e, he, by rw [recordsForDay_append, if_pos rfl]; exact hle⟩, hnot⟩
          exact (hmem day).mp hin
      · simp only [if_neg hd, Nat.add_zero]
    refine ⟨hcd ▸ hnd, hinv2, fun hfalse => ?_⟩
    by_cases hdone : s.schedule.length ≤
        (s.completeSession day sessionIndex now).progress.completedDays.length
    · obtain ⟨-, h2⟩ := completeSession_done s day sessionIndex now hdone
      rw [h2, completeSession_schedule]
      exact ⟨rfl, hdone⟩
    · obtain ⟨h1, h2⟩ := completeSession_not_done s day sessionIndex now hdone
      rw [h1] at hfalse
      obtain ⟨h3, h4⟩ := hact hfalse
      rw [h2, completeSession_schedule, hcd]
      exact ⟨h3, h4⟩

theorem run_inv (s : Schedule) (calls : List Call) (h : s.Inv) : (s.run calls).Inv := by
  induction calls using List.reverseRecOn with
  | nil => exact h
  | append_singleton cs c ih =>
    rw [run_append_one]
    exact completeSession_inv _ _ _ _ ih

/-- Completed days are day numbers of the schedule. -/
theorem Inv.mem_days (s : Schedule) (h : s.Inv) (d : Int) (hd : d ∈ s.progress.completedDays) :
    d ∈ s.schedule.map (fun e => e.day) := by
  obtain ⟨e, he, -⟩ := (h.2.1 d).mp hd
  have hmem := List.mem_of_find?_eq_some he
  have hday := List.find?_some he
  simp only [beq_iff_eq] at hday
  exact List.mem_map.mpr ⟨e, hmem, hday⟩

/-- In an invariant state, every completed day leaves room for at most as many as there are
day entries. -/
theorem Inv.length_le (s : Schedule) (h : s.Inv) :
    s.progress.completedDays.length ≤ s.schedule.length := by
  have hsub : s.progress.completedDays ⊆ s.schedule.map (fun e => e.day) :=
    fun d hd => Inv.mem_days s h d hd
  have := (List.Nodup.subperm h.1 hsub).length_le
  simpa using this

/-! ## Terminal state -/

theorem isComplete_iff (s : Schedule) :
    s.getCurrentStatus.isComplete = true ↔ s.active = false ∧ s.completedAt.isSome = true := by
  simp [Schedule.getCurrentStatus]

/-- Once every day entry is matched by a completed day, no call passes the day-completion test. -/
theorem not_dayCompletes_of_full (s : Schedule) (day : Int) (records : List CompletedSession)
    (hinv : s.Inv) (hfull : s.schedule.length ≤ s.progress.completedDays.length) :
    ¬ DayCompletes s day records := by
  rintro ⟨⟨e, he, -⟩, hnot⟩
  have hmem := List.mem_of_find?_eq_some he
  have hday := List.find?_some he
  simp only [beq_iff_eq] at hday
  have hsub : (day :: s.progress.completedDays) ⊆ s.schedule.map (fun e => e.day) := by
    intro x hx
    rcases List.mem_cons.mp hx with rfl | hx
    · exact List.mem_map.mpr ⟨e, hmem, hday⟩
    · exact Inv.mem_days s hinv x hx
  have hnd : (day :: s.progress.completedDays).Nodup := List.nodup_cons.mpr ⟨hnot, hinv.1⟩
  have := (List.Nodup.subperm hnd hsub).length_le
  simp only [List.length_cons, List.length_map] at this
  omega

theorem terminal_step (s : Schedule) (day sessionIndex now : Int) (hinv : s.Inv)
    (hact : s.active = false) :
    (s.completeSession day sessionIndex now).progress.currentDay = s.progress.currentDay ∧
      (s.completeSession day sessionIndex now).progress.completedDays =
        s.progress.completedDays ∧
      (s.completeSession day sessionIndex now).active = false ∧
      (s.completeSession day sessionIndex now).completedAt.isSome = true := by
  obtain ⟨-, hfull⟩ := hinv.2.2 hact
  have hno := not_dayCompletes_of_full s day
    (s.progress.completedSessions ++ [⟨day, sessionIndex, now⟩]) hinv hfull
  obtain ⟨hcd, hcur⟩ := completeSession_days_of_not_completes s day sessionIndex now hno
  have hdone : s.schedule.length ≤
      (s.completeSession day sessionIndex now).progress.completedDays.length := by
    rw [hcd]
    exact hfull
  obtain ⟨h1, h2⟩ := completeSession_done s day sessionIndex now hdone
  exact ⟨hcur, hcd, h1, by rw [h2]; rfl⟩

theorem terminal_run (s : Schedule) (more : List Call) (hinv : s.Inv) (hact : s.active = false) :
    (s.run more).progress.currentDay = s.progress.currentDay ∧
      (s.run more).progress.completedDays = s.progress.completedDays ∧
      (s.run more).active = false ∧
      ((s.run more).completedAt.isSome = true) := by
  induction more using List.reverseRecOn with
  | nil => exact ⟨rfl, rfl, hact, (hinv.2.2 hact).1⟩
  | append_singleton cs c ih =>
    obtain ⟨h1, h2, h3, -⟩ := ih
    rw [run_append_one]
    obtain ⟨g1, g2, g3, g4⟩ := terminal_step (s.run cs) c.1 c.2.1 c.2.2 (run_inv s cs hinv) h3
    exact ⟨g1.trans h1, g2.trans h2, g3, g4⟩

/-- C6. Terminal state: in a state reached from a newly created schedule by `completeSession`
calls, if `getCurrentStatus().isComplete` is true then `active` is false and `completedAt` is
set, and after any further calls `currentDay` and `completedDays` are as before and
`isComplete` is still true. -/
theorem complete_is_terminal (userId materialId materialTitle : String) (days : List DayEntry)
    (calls more : List Call)
    (h : ((Schedule.new userId materialId materialTitle days).run
      calls).getCurrentStatus.isComplete = true) :
    ((Schedule.new userId materialId materialTitle days).run calls).active = false ∧
      ((Schedule.new userId materialId materialTitle days).run calls).completedAt.isSome = true ∧
      (((Schedule.new userId materialId materialTitle days).run calls).run
          more).progress.currentDay =
        ((Schedule.new userId materialId materialTitle days).run calls).progress.currentDay ∧
      (((Schedule.new userId materialId materialTitle days).run calls).run
          more).progress.completedDays =
        ((Schedule.new userId materialId materialTitle days).run calls).progress.completedDays ∧
      (((Schedule.new userId materialId materialTitle days).run calls).run
          more).getCurrentStatus.isComplete = true := by
  obtain ⟨hact, hset⟩ := (isComplete_iff _).mp h
  have hinv := run_inv _ calls (new_inv userId materialId materialTitle days)
  obtain ⟨h1, h2, h3, h4⟩ := terminal_run _ more hinv hact
  exact ⟨hact, hset, h1, h2, (isComplete_iff _).mpr ⟨h3, h4⟩⟩

/-- The scenario for C6: the two-day schedule is complete after its three sessions, and a
repeated call for day 1 and a call for an unknown day change nothing. -/
theorem complete_is_terminal_witness :
    ((Schedule.new "u1" "m1" "Notes" scenarioDays).run
        [(1, 0, 1000), (1, 1, 2000), (2, 0, 3000)]).getCurrentStatus.isComplete = true ∧
      (((Schedule.new "u1" "m1" "Notes" scenarioDays).run
          [(1, 0, 1000), (1, 1, 2000), (2, 0, 3000)]).run
            [(1, 0, 4000), (7, 0, 5000)]).progress.currentDay =
        ((Schedule.new "u1" "m1" "Notes" scenarioDays).run
          [(1, 0, 1000), (1, 1, 2000), (2, 0, 3000)]).progress.currentDay :=
  ⟨by decide,
    (complete_is_terminal "u1" "m1" "Notes" scenarioDays
      [(1, 0, 1000), (1, 1, 2000), (2, 0, 3000)] [(1, 0, 4000), (7, 0, 5000)] (by decide)).2.2.1⟩

/-! ## Completing every slot once -/

theorem foldl_sessions (days : List DayEntry) (a : Nat) :
    days.foldl (fun sum day => sum + day.sessions.length) a =
      a + (days.map (fun e => e.sessions.length)).sum := by
  induction days generalizing a with
  | nil => simp
  | cons e rest ih =>
    simp only [List.foldl_cons, List.map_cons, List.sum_cons]
    rw [ih]
    omega

theorem totalSessions_eq_slots (days : List DayEntry) : totalSessions days = (slots days).length := by
  unfold totalSessions
  rw [foldl_sessions, Nat.zero_add]
  induction days with
  | nil => rfl
  | cons e rest ih =>
    simp only [slots, List.flatMap_cons, List.length_append, List.length_map, List.length_range,
      List.map_cons, List.sum_cons] at ih ⊢
    rw [ih]

theorem run_records (s : Schedule) (calls : List Call) :
    (s.run calls).progress.completedSessions =
      s.progress.completedSessions ++ calls.map (fun c => ⟨c.1, c.2.1, c.2.2⟩) := by
  induction calls using List.reverseRecOn with
  | nil => simp [run_nil]
  | append_singleton cs c ih =>
    rw [run_append_one, completeSession_records, ih]
    simp

theorem recordsForDay_run_new (userId materialId materialTitle : String) (days : List DayEntry)
    (calls : List Call) (d : Int) :
    recordsForDay ((Schedule.new userId materialId materialTitle days).run
        calls).progress.completedSessions d =
      (callPairs calls).countP (fun p => p.1 == d) := by
  rw [run_records]
  unfold recordsForDay callPairs
  rw [← List.countP_eq_length_filter]
  simp only [Schedule.new, Progress.default, List.nil_append, List.countP_map]
  rfl

theorem slots_countP_zero (days : List DayEntry) (d : Int)
    (h : d ∉ days.map (fun e => e.day)) : (slots days).countP (fun p => p.1 == d) = 0 := by
  rw [List.countP_eq_zero]
  intro p hp
  simp only [slots, List.mem_flatMap, List.mem_map, List.mem_range] at hp
  obtain ⟨e, he, i, -, rfl⟩ := hp
  simp only [beq_iff_eq]
  intro hd
  exact h (List.mem_map.mpr ⟨e, he, hd⟩)

theorem slots_countP (days : List DayEntry) (hnd : (days.map (fun e => e.day)).Nodup)
    (e : DayEntry) (he : e ∈ days) :
    (slots days).countP (fun p => p.1 == e.day) = e.sessions.length := by
  induction days with
  | nil => simp at he
  | cons x rest ih =>
    rw [List.map_cons, List.nodup_cons] at hnd
    obtain ⟨hx, hrest⟩ := hnd
    have hsplit : slots (x :: rest) =
        (List.range x.sessions.length).map (fun (i : Nat) => (x.day, (i : Int))) ++ slots rest := by
      simp [slots]
    rw [hsplit, List.countP_append, List.countP_map]
    rcases List.mem_cons.mp he with rfl | hmem
    · rw [slots_countP_zero rest e.day hx, Nat.add_zero]
      have hall : List.countP ((fun p : Int × Int => p.1 == e.day) ∘
          fun i : Nat => (e.day, (i : Int))) (List.range e.sessions.length) =
          (List.range e.sessions.length).length :=
        List.countP_eq_length.mpr (fun i _ => by simp)
      rw [hall, List.length_range]
    · have hne : x.day ≠ e.day := by
        intro heq
        exact hx (heq ▸ List.mem_map.mpr ⟨e, hmem, rfl⟩)
      rw [ih hrest hmem]
      have : List.countP ((fun p : Int × Int => p.1 == e.day) ∘ fun i : Nat => (x.day, (i : Int)))
          (List.range x.sessions.length) = 0 := by
        rw [List.countP_eq_zero]
        intro i _
        simpa using hne
      rw [this, Nat.zero_add]

theorem find_of_nodup (days : List DayEntry) (hnd : (days.map (fun e => e.day)).Nodup)
    (e : DayEntry) (he : e ∈ days) : days.find? (fun x => x.day == e.day) = some e := by
  induction days with
  | nil => simp at he
  | cons x rest ih =>
    rw [List.map_cons, List.nodup_cons] at hnd
    obtain ⟨hx, hrest⟩ := hnd
    rcases List.mem_cons.mp he with rfl | hmem
    · exact List.find?_cons_of_pos _ (by simp)
    · have hne : x.day ≠ e.day := by
        intro heq
        exact hx (heq ▸ List.mem_map.mpr ⟨e, hmem, rfl⟩)
      rw [List.find?_cons_of_neg _ (by simpa using hne)]
      exact ih hrest hmem

theorem percentOf_self (t : Nat) (ht : 0 < t) (hsize : t < 2 ^ 32) :
    percentOf t t = JSNumber.ofNat 100 := by
  obtain ⟨k, hk, hcase⟩ := percentOf_spec t t ht hsize
  have hR : roundHalfUp (100 * t) t = 100 := by
    unfold roundHalfUp
    apply Nat.div_eq_of_lt_le
    · omega
    · omega
  rw [hR] at hcase
  rcases hcase with h | ⟨h, -⟩
  · rw [hk, h]
  · exfalso
    have : 200 * t % (2 * t) = 0 := by
      have e : 200 * t = 100 * (2 * t) := by ring
      rw [e]
      exact Nat.mul_mod_left _ _
    omega

/-- C5, as stated, fails on the schedule without days: its day numbers are pairwise distinct,
every day has a session, and the empty sequence calls every slot once; the final state is the
initial one, with `percentComplete = 0`, `active = true` and `completedAt` unset. -/
theorem empty_schedule_stays_active :
    (([] : List DayEntry).map (fun e => e.day)).Nodup ∧
      (∀ e ∈ ([] : List DayEntry), 1 ≤ e.sessions.length) ∧
      (callPairs []).Perm (slots []) ∧
      ((Schedule.new "u1" "m1" "Notes" []).run []).progress.percentComplete ≠
        JSNumber.ofNat 100 ∧
      ((Schedule.new "u1" "m1" "Notes" []).run []).active = true ∧
      ((Schedule.new "u1" "m1" "Notes" []).run []).completedAt = none := by
  refine ⟨List.nodup_nil, ?_, List.Perm.refl _, by decide, rfl, rfl⟩
  intro e he
  simp at he

/-- C5, amended. For a schedule with at least one day, pairwise distinct day numbers and at
least one session in every day (fewer than `2 ^ 32` sessions in all), starting from the newly
created schedule and calling `completeSession` exactly once for each slot, in any order, the
final state has `percentComplete = 100`, `completedDays` holds every day number exactly once,
`active` is false and `completedAt` is set. -/
theorem run_all_slots (userId materialId materialTitle : String) (days : List DayEntry)
    (calls : List Call) (hne : days ≠ [])
    (hdistinct : (days.map (fun e => e.day)).Nodup)
    (hsess : ∀ e ∈ days, 1 ≤ e.sessions.length)
    (hcalls : (callPairs calls).Perm (slots days))
    (hsize : totalSessions days < 2 ^ 32) :
    ((Schedule.new userId materialId materialTitle days).run calls).progress.percentComplete =
        JSNumber.ofNat 100 ∧
      ((Schedule.new userId materialId materialTitle days).run calls).progress.completedDays.Perm
        (days.map (fun e => e.day)) ∧
      ((Schedule.new userId materialId materialTitle days).run calls).active = false ∧
      ((Schedule.new userId materialId materialTitle days).run calls).completedAt.isSome =
        true := by
  have hinv := run_inv _ calls (new_inv userId materialId materialTitle days)
  have hsched : ((Schedule.new userId materialId materialTitle days).run calls).schedule = days :=
    run_schedule _ _
  -- every day number is completed
  have hall : ∀ e ∈ days,
      e.day ∈ ((Schedule.new userId materialId materialTitle days).run
        calls).progress.completedDays := by
    intro e he
    refine (hinv.2.1 e.day).mpr ⟨e, ?_, ?_, ?_⟩
    · rw [hsched]
      exact find_of_nodup days hdistinct e he
    · rw [recordsForDay_run_new, hcalls.countP_eq, slots_countP days hdistinct e he]
    · rw [recordsForDay_run_new, hcalls.countP_eq, slots_countP days hdistinct e he]
      exact hsess e he
  have hperm : ((Schedule.new userId materialId materialTitle days).run
      calls).progress.completedDays.Perm (days.map (fun e => e.day)) := by
    refine (List.perm_ext_iff_of_nodup hinv.1 hdistinct).mpr (fun d => ⟨fun hd => ?_, fun hd => ?_⟩)
    · have := Inv.mem_days _ hinv d hd
      rwa [hsched] at this
    · obtain ⟨e, he, rfl⟩ := List.mem_map.mp hd
      exact hall e he
  -- the number of calls is the number of sessions
  have hlen : calls.length = totalSessions days := by
    rw [totalSessions_eq_slots, ← hcalls.length_eq]
    simp [callPairs]
  have hpos : 0 < totalSessions days := by
    obtain ⟨e, rest, rfl⟩ := List.exists_cons_of_ne_nil hne
    have h1 := hsess e (List.mem_cons_self _ _)
    unfold totalSessions
    rw [foldl_sessions]
    simp only [List.map_cons, List.sum_cons]
    omega
  rcases List.eq_nil_or_concat calls with hnil | ⟨cs, c, hcs⟩
  · rw [hnil] at hlen
    simp at hlen
    omega
  · rw [List.concat_eq_append] at hcs
    subst hcs
    rw [run_append_one] at hperm ⊢
    have hdone : ((Schedule.new userId materialId materialTitle days).run cs).schedule.length ≤
        (((Schedule.new userId materialId materialTitle days).run cs).completeSession
          c.1 c.2.1 c.2.2).progress.completedDays.length := by
      rw [hperm.length_eq, run_schedule]
      simp [Schedule.new]
    obtain ⟨h1, h2⟩ := completeSession_done _ c.1 c.2.1 c.2.2 hdone
    refine ⟨?_, hperm, h1, by rw [h2]; rfl⟩
    rw [completeSession_percent, run_schedule, run_records_length]
    have hn : (Schedule.new userId materialId materialTitle days).progress.completedSessions.length
        + cs.length + 1 = totalSessions days := by
      rw [← hlen]
      simp [Schedule.new, Progress.default]
    rw [hn]
    exact percentOf_self _ hpos hsize

/-- The scenario of C5, with the slots taken in another order than the schedule lists them. -/
theorem run_all_slots_witness :
    (scenarioDays ≠ [] ∧ (scenarioDays.map (fun e => e.day)).Nodup ∧
      (callPairs [(2, 0, 1000), (1, 1, 2000), (1, 0, 3000)]).Perm (slots scenarioDays)) ∧
    ((Schedule.new "u1" "m1" "Notes" scenarioDays).run
        [(2, 0, 1000), (1, 1, 2000), (1, 0, 3000)]).progress.percentComplete =
      JSNumber.ofNat 100 ∧
    ((Schedule.new "u1" "m1" "Notes" scenarioDays).run
        [(2, 0, 1000), (1, 1, 2000), (1, 0, 3000)]).progress.completedDays.Perm
      (scenarioDays.map (fun e => e.day)) ∧
    ((Schedule.new "u1" "m1" "Notes" scenarioDays).run
        [(2, 0, 1000), (1, 1, 2000), (1, 0, 3000)]).active = false ∧
    ((Schedule.new "u1" "m1" "Notes" scenarioDays).run
        [(2, 0, 1000), (1, 1, 2000), (1, 0, 3000)]).completedAt.isSome = true :=
  ⟨⟨by decide, by decide, by decide⟩,
    run_all_slots "u1" "m1" "Notes" scenarioDays [(2, 0, 1000), (1, 1, 2000), (1, 0, 3000)]
      (by decide) (by decide) (by decide) (by decide) (by decide)⟩

/-- The scenario as the specification lists it: in schedule order the final state is
`completedDays = [1, 2]`, inactive, completed at the last call, 100 percent. -/
theorem scenario_final_state :
    ((Schedule.new "u1" "m1" "Notes" scenarioDays).run
        [(1, 0, 1000), (1, 1, 2000), (2, 0, 3000)]).progress.completedDays = [1, 2] ∧
      ((Schedule.new "u1" "m1" "Notes" scenarioDays).run
        [(1, 0, 1000), (1, 1, 2000), (2, 0, 3000)]).active = false ∧
      ((Schedule.new "u1" "m1" "Notes" scenarioDays).run
        [(1, 0, 1000), (1, 1, 2000), (2, 0, 3000)]).completedAt = some 3000 ∧
      ((Schedule.new "u1" "m1" "Notes" scenarioDays).run
        [(1, 0, 1000), (1, 1, 2000), (2, 0, 3000)]).progress.percentComplete =
          JSNumber.ofNat 100 := by
  decide

/-! ## At most one active schedule per pair -/

theorem activeCount_cons (x : Schedule) (store : Store) (u m : String) :
    activeCount (x :: store) u m =
      (if matchesActive u m x then 1 else 0) + activeCount store u m := by
  unfold activeCount
  by_cases h : matchesActive u m x = true
  · simp [List.filter_cons, h]
    omega
  · simp [List.filter_cons, h]

theorem activeCount_append_one (store : Store) (x : Schedule) (u m : String) :
    activeCount (store ++ [x]) u m =
      activeCount store u m + (if matchesActive u m x then 1 else 0) := by
  unfold activeCount
  by_cases h : matchesActive u m x = true
  · simp [List.filter_append, h]
  · simp [List.filter_append, h]

theorem matchesActive_deactivated (u m u2 m2 : String) (x : Schedule)
    (h : matchesActive u2 m2
      (if matchesActive u m x then { x with active := false } else x) = true) :
    matchesActive u2 m2 x = true ∧ ¬ (u2 = u ∧ m2 = m) := by
  by_cases hx : matchesActive u m x = true
  · rw [if_pos hx] at h
    simp [matchesActive] at h
  · rw [if_neg hx] at h
    refine ⟨h, ?_⟩
    rintro ⟨rfl, rfl⟩
    exact hx h

theorem activeCount_deactivate_le (store : Store) (u m u2 m2 : String) :
    activeCount (deactivateActive store u m) u2 m2 ≤ activeCount store u2 m2 := by
  induction store with
  | nil => simp [deactivateActive, activeCount]
  | cons x rest ih =>
    have hcons : deactivateActive (x :: rest) u m =
        (if matchesActive u m x then { x with active := false } else x) ::
          deactivateActive rest u m := rfl
    rw [hcons, activeCount_cons, activeCount_cons]
    by_cases h : matchesActive u2 m2
        (if matchesActive u m x then { x with active := false } else x) = true
    · have := (matchesActive_deactivated u m u2 m2 x h).1
      rw [if_pos h, if_pos this]
      omega
    · rw [if_neg h]
      split_ifs <;> omega

theorem activeCount_deactivate_same (store : Store) (u m : String) :
    activeCount (deactivateActive store u m) u m = 0 := by
  induction store with
  | nil => simp [deactivateActive, activeCount]
  | cons x rest ih =>
    have hcons : deactivateActive (x :: rest) u m =
        (if matchesActive u m x then { x with active := false } else x) ::
          deactivateActive rest u m := rfl
    rw [hcons, activeCount_cons, ih]
    by_cases h : matchesActive u m
        (if matchesActive u m x then { x with active := false } else x) = true
    · exact absurd ⟨rfl, rfl⟩ (matchesActive_deactivated u m u m x h).2
    · rw [if_neg h]

theorem matchesActive_new (u m u2 m2 title : String) (days : List DayEntry) :
    matchesActive u2 m2 (Schedule.new u m title days) = true ↔ u = u2 ∧ m = m2 := by
  simp [matchesActive, Schedule.new]

/-- Deactivating the pair `(u, m)` and then inserting a new active schedule for `(u, m2)`
keeps the invariant, provided the pair `(u, m2)` has no active schedule left. -/
theorem insert_after_deactivate (store : Store) (u m m2 title : String) (days : List DayEntry)
    (h : AtMostOneActive store) (hfree : activeCount (deactivateActive store u m) u m2 = 0) :
    AtMostOneActive (deactivateActive store u m ++ [Schedule.new u m2 title days]) := by
  intro u3 m3
  rw [activeCount_append_one]
  by_cases hm : matchesActive u3 m3 (Schedule.new u m2 title days) = true
  · obtain ⟨rfl, rfl⟩ := (matchesActive_new u m2 u3 m3 title days).mp hm
    rw [if_pos hm, hfree]
  · rw [if_neg hm, Nat.add_zero]
    exact le_trans (activeCount_deactivate_le store u m u3 m3) (h u3 m3)

theorem deactivate_preserves (store : Store) (u m : String) (h : AtMostOneActive store) :
    AtMostOneActive (deactivateActive store u m) :=
  fun u3 m3 => le_trans (activeCount_deactivate_le store u m u3 m3) (h u3 m3)

theorem matchesActive_completeSession (x : Schedule) (day sessionIndex now : Int) (u m : String)
    (h : matchesActive u m (x.completeSession day sessionIndex now) = true) :
    matchesActive u m x = true := by
  unfold matchesActive at h ⊢
  rw [completeSession_userId, completeSession_materialId] at h
  simp only [Bool.and_eq_true] at h ⊢
  refine ⟨h.1, ?_⟩
  obtain ⟨hact, -⟩ := completeSession_active_eq x day sessionIndex now
  rw [hact] at h
  by_cases hd : x.schedule.length ≤
      (x.completeSession day sessionIndex now).progress.completedDays.length
  · rw [if_pos hd] at h
    exact absurd h.2 (by simp)
  · rw [if_neg hd] at h
    exact h.2

theorem activeCount_completeSessionAt (store : Store) (i : Nat) (day sessionIndex now : Int)
    (u m : String) :
    activeCount (completeSessionAt store i day sessionIndex now) u m ≤ activeCount store u m := by
  induction store generalizing i with
  | nil => simp [completeSessionAt]
  | cons x rest ih =>
    cases i with
    | zero =>
      have hc : completeSessionAt (x :: rest) 0 day sessionIndex now =
          x.completeSession day sessionIndex now :: rest := rfl
      rw [hc, activeCount_cons, activeCount_cons]
      by_cases h : matchesActive u m (x.completeSession day sessionIndex now) = true
      · rw [if_pos h, if_pos (matchesActive_completeSession x day sessionIndex now u m h)]
      · rw [if_neg h]
        omega
    | succ j =>
      have hc : completeSessionAt (x :: rest) (j + 1) day sessionIndex now =
          x :: completeSessionAt rest j day sessionIndex now := rfl
      rw [hc, activeCount_cons, activeCount_cons]
      have := ih j
      omega

theorem filter_eq_of_activeCount_zero (store : Store) (u m : String)
    (h : activeCount store u m = 0) : store.filter (matchesActive u m) = [] := by
  unfold activeCount at h
  exact List.length_eq_zero.mp h

/-- Claim C9: `POST /api/schedule` for the pair `("u1", "m1")` with a generated schedule whose
days hold sessions, on a store with one active schedule of the pair, deactivates that schedule
and inserts nothing, so the pair is left without an active schedule. In general the invariant
"at most one active schedule per `(userId, materialId)` pair" is kept by
`POST /api/progress/schedule/save`, by `completeSession` on any stored schedule, and by
`POST /api/schedule` for a request that carries a `materialId` or whose fallback id is not the
`materialId` of an active schedule of the user; after a successful save through the progress
route the new schedule, which holds no days, is the only active one of its pair; and the save
step of `POST /api/schedule` inserts nothing as soon as a day holds a session. A request to
`POST /api/schedule` with an empty `materialId` whose fallback id is that of an active schedule
of the user, and whose generated days hold no session, leaves two active schedules of one
pair. -/
theorem generated_schedule_not_saved :
    (saveGeneratedSchedule [storedSchedule] "u1" "m1" "Notes v2" "material_1700000000000"
          scenarioDays true = [{ storedSchedule with active := false }] ∧
      (saveGeneratedSchedule [storedSchedule] "u1" "m1" "Notes v2" "material_1700000000000"
          scenarioDays true).filter (matchesActive "u1" "m1") = []) ∧
      activeCount
          (saveGeneratedSchedule [Schedule.new "u1" "material_1700000000000" "Notes" []] "u1" ""
            "Notes" "material_1700000000000" [⟨1, []⟩] true)
          "u1" "material_1700000000000" = 2 ∧
      ∀ (store : Store), AtMostOneActive store → ∀ (u m title : String),
        (∀ settingsCast, AtMostOneActive (saveSchedule store u m title settingsCast)) ∧
          (∀ fallbackId days othersCast, (m ≠ "" ∨ activeCount store u fallbackId = 0) →
            AtMostOneActive (saveGeneratedSchedule store u m title fallbackId days othersCast)) ∧
          (∀ i day sessionIndex now,
            AtMostOneActive (completeSessionAt store i day sessionIndex now)) ∧
          (u ≠ "" → m ≠ "" → title ≠ "" →
            (saveSchedule store u m title true).filter (matchesActive u m) =
              [Schedule.new u m title []]) ∧
          (∀ fallbackId days othersCast, sessionsCast days = false →
            saveGeneratedSchedule store u m title fallbackId days othersCast =
              deactivateActive store u m) := by
  refine ⟨⟨by decide, by decide⟩, by decide, fun store h u m title => ⟨?_, ?_, ?_, ?_, ?_⟩⟩
  · intro settingsCast
    unfold saveSchedule
    simp only []
    split_ifs
    · exact deactivate_preserves store u m h
    · exact insert_after_deactivate store u m m title [] h
        (activeCount_deactivate_same store u m)
  · intro fallbackId days othersCast hfb
    unfold saveGeneratedSchedule
    simp only []
    generalize (if title = "" then "Untitled Material" else title) = title2
    by_cases hm : m = ""
    · rw [if_pos hm]
      split_ifs
      · exact deactivate_preserves store u m h
      · apply insert_after_deactivate store u m fallbackId _ days h
        rcases hfb with hne | hzero
        · exact absurd hm hne
        · exact Nat.le_zero.mp (hzero ▸ activeCount_deactivate_le store u m u fallbackId)
    · rw [if_neg hm]
      split_ifs
      · exact deactivate_preserves store u m h
      · exact insert_after_deactivate store u m m _ days h
          (activeCount_deactivate_same store u m)
  · intro i day sessionIndex now u3 m3
    exact le_trans (activeCount_completeSessionAt store i day sessionIndex now u3 m3) (h u3 m3)
  · intro hu hm ht
    unfold saveSchedule
    simp only [hu, hm, ht, Bool.true_eq_false, or_self, if_false]
    rw [List.filter_append,
      filter_eq_of_activeCount_zero _ u m (activeCount_deactivate_same store u m)]
    simp [matchesActive, Schedule.new]
  · intro fallbackId days othersCast hcast
    unfold saveGeneratedSchedule
    simp only [hcast, true_or, or_true, if_true]

/-! ## Streaks -/

theorem msPerDay_pos : 0 < msPerDay := by decide

/-- In a time zone without transitions local midnight is the day number times a day, less the
offset. -/
theorem startOfDay_fixed (offset t : Int) :
    startOfDay (TimeZone.fixed offset) t =
      dayNumber (TimeZone.fixed offset) t * msPerDay - offset := rfl

theorem updateStreak_current_of_none (zone : TimeZone) (stats : UserStats) (now : Int)
    (h : stats.lastStudyDate = none) : (updateStreak zone stats now).currentStreak = 1 := by
  simp [updateStreak, h]

theorem updateStreak_current_of_some (zone : TimeZone) (stats : UserStats) (now last : Int)
    (h : stats.lastStudyDate = some last) :
    (updateStreak zone stats now).currentStreak =
      (if startOfDay zone last = 0 then 1
        else if startOfDay zone now - startOfDay zone last = 1 * msPerDay then
          stats.currentStreak + 1
        else if startOfDay zone now - startOfDay zone last = 0 * msPerDay then
          stats.currentStreak
        else 1) := by
  simp [updateStreak, h]

/-- The streak rule at calendar-day granularity in a time zone without transitions, for a clock
at least two local days past the epoch. -/
theorem updateStreak_rule_fixed (offset : Int) (stats : UserStats) (now : Int)
    (hclock : 2 * msPerDay ≤ startOfDay (TimeZone.fixed offset) now) :
    (stats.lastStudyDate = none →
        (updateStreak (TimeZone.fixed offset) stats now).currentStreak = 1) ∧
      (∀ last, stats.lastStudyDate = some last →
        (dayNumber (TimeZone.fixed offset) now = dayNumber (TimeZone.fixed offset) last + 1 →
          (updateStreak (TimeZone.fixed offset) stats now).currentStreak =
            stats.currentStreak + 1) ∧
        (dayNumber (TimeZone.fixed offset) now = dayNumber (TimeZone.fixed offset) last →
          (updateStreak (TimeZone.fixed offset) stats now).currentStreak =
            stats.currentStreak) ∧
        (dayNumber (TimeZone.fixed offset) now ≠ dayNumber (TimeZone.fixed offset) last + 1 →
          dayNumber (TimeZone.fixed offset) now ≠ dayNumber (TimeZone.fixed offset) last →
          (updateStreak (TimeZone.fixed offset) stats now).currentStreak = 1)) := by
  refine ⟨updateStreak_current_of_none _ stats now, fun last hlast => ?_⟩
  rw [updateStreak_current_of_some _ stats now last hlast]
  have hD := msPerDay_pos
  have e1 := startOfDay_fixed offset now
  have e2 := startOfDay_fixed offset last
  generalize dayNumber (TimeZone.fixed offset) now = dn at *
  generalize dayNumber (TimeZone.fixed offset) last = dl at *
  have hdiff : startOfDay (TimeZone.fixed offset) now - startOfDay (TimeZone.fixed offset) last =
      (dn - dl) * msPerDay := by
    rw [e1, e2]
    ring
  rw [hdiff]
  have hone : (dn - dl) * msPerDay = 1 * msPerDay ↔ dn = dl + 1 := by
    rw [Int.mul_eq_mul_right_iff (ne_of_gt hD)]
    omega
  have hzero : (dn - dl) * msPerDay = 0 * msPerDay ↔ dn = dl := by
    rw [Int.mul_eq_mul_right_iff (ne_of_gt hD)]
    omega
  by_cases h0 : startOfDay (TimeZone.fixed offset) last = 0
  · -- a last study day that starts at timestamp 0 reads as "no date"; the clock is two days on
    have hgap : (2 : Int) * msPerDay ≤ (dn - dl) * msPerDay := by
      rw [← hdiff, h0]
      omega
    have hge : 2 ≤ dn - dl := le_of_mul_le_mul_right hgap hD
    rw [if_pos h0]
    refine ⟨fun h => ?_, fun h => ?_, fun _ _ => rfl⟩ <;> omega
  · rw [if_neg h0]
    refine ⟨fun h => ?_, fun h => ?_, fun h1 h2 => ?_⟩
    · rw [if_pos (hone.mpr h)]
    · have hne : ¬ (dn - dl) * msPerDay = 1 * msPerDay := by
        rw [hone]
        omega
      rw [if_neg hne, if_pos (hzero.mpr h)]
    · rw [if_neg (fun hc => h1 (hone.mp hc)), if_neg (fun hc => h2 (hzero.mp hc))]

/-- Claim C10: in New York a user with a streak of 3 who studied on 8 March 2026 and studies again
on 9 March, the next calendar day, gets `currentStreak = 1`: the daylight-saving change of
8 March puts the two local midnights 23 hours apart, so `daysDiff` is neither 1 nor 0. In a time
zone without transitions, with the clock at least two local days past the epoch, the method
follows the calendar-day rule: 1 without a last study date, the old value plus 1 on the day
after the last study day, the old value on the same day, and 1 in every other case. -/
theorem updateStreak_resets_across_dst :
    (dayNumber newYork2026 marchNinth = dayNumber newYork2026 marchEighth + 1 ∧
      startOfDay newYork2026 marchNinth - startOfDay newYork2026 marchEighth =
        23 * (60 * 60 * 1000) ∧
      updateStreak newYork2026 ⟨3, 5, some marchEighth⟩ marchNinth =
        ⟨1, 5, some marchNinth⟩) ∧
      ∀ (offset : Int) (stats : UserStats) (now : Int),
        2 * msPerDay ≤ startOfDay (TimeZone.fixed offset) now →
        (stats.lastStudyDate = none →
            (updateStreak (TimeZone.fixed offset) stats now).currentStreak = 1) ∧
          (∀ last, stats.lastStudyDate = some last →
            (dayNumber (TimeZone.fixed offset) now =
                dayNumber (TimeZone.fixed offset) last + 1 →
              (updateStreak (TimeZone.fixed offset) stats now).currentStreak =
                stats.currentStreak + 1) ∧
            (dayNumber (TimeZone.fixed offset) now = dayNumber (TimeZone.fixed offset) last →
              (updateStreak (TimeZone.fixed offset) stats now).currentStreak =
                stats.currentStreak) ∧
            (dayNumber (TimeZone.fixed offset) now ≠
                dayNumber (TimeZone.fixed offset) last + 1 →
              dayNumber (TimeZone.fixed offset) now ≠ dayNumber (TimeZone.fixed offset) last →
              (updateStreak (TimeZone.fixed offset) stats now).currentStreak = 1)) :=
  ⟨⟨by decide, by decide, by decide⟩,
    fun offset stats now hclock => updateStreak_rule_fixed offset stats now hclock⟩

/-! ## Streak sequences -/

theorem updateStreak_longest_eq (zone : TimeZone) (stats : UserStats) (now : Int) :
    (updateStreak zone stats now).longestStreak =
      (if (updateStreak zone stats now).currentStreak > stats.longestStreak
        then (updateStreak zone stats now).currentStreak else stats.longestStreak) := rfl

theorem updateStreak_lastStudyDate (zone : TimeZone) (stats : UserStats) (now : Int) :
    (updateStreak zone stats now).lastStudyDate = some now := rfl

theorem runStreak_append_one (zone : TimeZone) (stats : UserStats) (events : List Int)
    (now : Int) :
    runStreak zone stats (events ++ [now]) = updateStreak zone (runStreak zone stats events) now := by
  simp [runStreak, List.foldl_append]

theorem updateStreak_next_day (offset : Int) (stats : UserStats) (now last : Int)
    (h : stats.lastStudyDate = some last) (h0 : startOfDay (TimeZone.fixed offset) last ≠ 0)
    (hday : dayNumber (TimeZone.fixed offset) now = dayNumber (TimeZone.fixed offset) last + 1) :
    (updateStreak (TimeZone.fixed offset) stats now).currentStreak = stats.currentStreak + 1 := by
  rw [updateStreak_current_of_some _ stats now last h, if_neg h0]
  have hdiff : startOfDay (TimeZone.fixed offset) now - startOfDay (TimeZone.fixed offset) last =
      1 * msPerDay := by
    rw [startOfDay_fixed, startOfDay_fixed, hday]
    ring
  rw [if_pos hdiff]

/-- The state after the events of `n + 1` consecutive days in a time zone without
transitions. -/
theorem runStreak_consecutive (offset D : Int) (times : Nat → Int) (n : Nat)
    (hdays : ∀ i, i < n + 1 → dayNumber (TimeZone.fixed offset) (times i) = D + i)
    (hclock : ∀ i, i < n + 1 → 2 * msPerDay ≤ startOfDay (TimeZone.fixed offset) (times i)) :
    runStreak (TimeZone.fixed offset) UserStats.default ((List.range (n + 1)).map times) =
      ⟨(n : Int) + 1, (n : Int) + 1, some (times n)⟩ := by
  induction n with
  | zero =>
    have h1 : List.range (0 + 1) = [0] := rfl
    rw [h1]
    simp [runStreak, UserStats.default, updateStreak]
  | succ n ih =>
    have ih2 := ih (fun i hi => hdays i (by omega)) (fun i hi => hclock i (by omega))
    rw [List.range_succ, List.map_append, List.map_singleton, runStreak_append_one, ih2]
    have hpos := msPerDay_pos
    have h0 : startOfDay (TimeZone.fixed offset) (times n) ≠ 0 := by
      have := hclock n (by omega)
      omega
    have hday : dayNumber (TimeZone.fixed offset) (times (n + 1)) =
        dayNumber (TimeZone.fixed offset) (times n) + 1 := by
      rw [hdays (n + 1) (by omega), hdays n (by omega)]
      push_cast
      ring
    have hcur := updateStreak_next_day offset ⟨(n : Int) + 1, (n : Int) + 1, some (times n)⟩
      (times (n + 1)) (times n) rfl h0 hday
    have hlong := updateStreak_longest_eq (TimeZone.fixed offset)
      ⟨(n : Int) + 1, (n : Int) + 1, some (times n)⟩ (times (n + 1))
    have hlast := updateStreak_lastStudyDate (TimeZone.fixed offset)
      ⟨(n : Int) + 1, (n : Int) + 1, some (times n)⟩ (times (n + 1))
    rw [hcur] at hlong
    simp only at hcur hlong
    have hgt : (n : Int) + 1 + 1 > (n : Int) + 1 := by omega
    rw [if_pos hgt] at hlong
    generalize updateStreak (TimeZone.fixed offset)
      ⟨(n : Int) + 1, (n : Int) + 1, some (times n)⟩ (times (n + 1)) = r at hcur hlong hlast
    cases r
    simp only at hcur hlong hlast
    subst hcur hlong hlast
    push_cast
    rfl

/-- Claim C11: in New York the events at noon of 7, 8 and 9 March 2026, three consecutive
calendar days, starting from a user with no last study date and both streaks 0, end with
`currentStreak = 1` and `longestStreak = 2`: the third update meets local midnights 23 hours
apart and resets the streak. In a time zone without transitions, with every event at least two
local days past the epoch, the events of `N >= 1` consecutive local days give
`currentStreak = N` and `longestStreak = N`. -/
theorem streak_resets_across_dst :
    ([marchSeventh, marchEighth, marchNinth].map (dayNumber newYork2026) =
        [20519, 20520, 20521] ∧
      runStreak newYork2026 UserStats.default [marchSeventh, marchEighth, marchNinth] =
        ⟨1, 2, some marchNinth⟩) ∧
      ∀ (offset D : Int) (times : Nat → Int) (N : Nat), 1 ≤ N →
        (∀ i, i < N → dayNumber (TimeZone.fixed offset) (times i) = D + i) →
        (∀ i, i < N → 2 * msPerDay ≤ startOfDay (TimeZone.fixed offset) (times i)) →
        (runStreak (TimeZone.fixed offset) UserStats.default
            ((List.range N).map times)).currentStreak = N ∧
          (runStreak (TimeZone.fixed offset) UserStats.default
            ((List.range N).map times)).longestStreak = N := by
  refine ⟨⟨by decide, by decide⟩, fun offset D times N hN hdays hclock => ?_⟩
  obtain ⟨n, rfl⟩ : ∃ n, N = n + 1 := ⟨N - 1, by omega⟩
  rw [runStreak_consecutive offset D times n hdays hclock]
  push_cast
  exact ⟨rfl, rfl⟩

theorem updateStreak_current_cases (zone : TimeZone) (stats : UserStats) (now : Int) :
    (updateStreak zone stats now).currentStreak = 1 ∨
      (stats.lastStudyDate ≠ none ∧
        ((updateStreak zone stats now).currentStreak = stats.currentStreak + 1 ∨
          (updateStreak zone stats now).currentStreak = stats.currentStreak)) := by
  cases h : stats.lastStudyDate with
  | none => exact Or.inl (updateStreak_current_of_none zone stats now h)
  | some last =>
    rw [updateStreak_current_of_some zone stats now last h]
    split_ifs
    · exact Or.inl rfl
    · exact Or.inr ⟨by simp, Or.inl rfl⟩
    · exact Or.inr ⟨by simp, Or.inr rfl⟩
    · exact Or.inl rfl

/-- After at least one update the streak is at least 1, at most the longest streak, and a last
study date is recorded. -/
theorem runStreak_bounds (zone : TimeZone) (events : List Int) (hne : events ≠ []) :
    1 ≤ (runStreak zone UserStats.default events).currentStreak ∧
      (runStreak zone UserStats.default events).currentStreak ≤
        (runStreak zone UserStats.default events).longestStreak ∧
      (runStreak zone UserStats.default events).lastStudyDate ≠ none := by
  induction events using List.reverseRecOn with
  | nil => exact absurd rfl hne
  | append_singleton es e ih =>
    rw [runStreak_append_one]
    have hlong := updateStreak_longest_eq zone (runStreak zone UserStats.default es) e
    have hlast := updateStreak_lastStudyDate zone (runStreak zone UserStats.default es) e
    have hcases := updateStreak_current_cases zone (runStreak zone UserStats.default es) e
    have hcur : 1 ≤ (updateStreak zone (runStreak zone UserStats.default es) e).currentStreak := by
      rcases hcases with h | ⟨hdate, h⟩
      · omega
      · have hes : es ≠ [] := by
          rintro rfl
          exact hdate rfl
        obtain ⟨h1, -, -⟩ := ih hes
        rcases h with h | h <;> omega
    refine ⟨hcur, ?_, by rw [hlast]; simp⟩
    rw [hlong]
    split_ifs <;> omega

/-- C12. After every `updateStreak` call, in whatever time zone the host runs, `longestStreak`
is the maximum of its previous value and the new `currentStreak`; so it never decreases, it is
at least the new `currentStreak`, and for a user with at least one earlier update a reset of the
streak to 1 leaves it as it was. -/
theorem updateStreak_longest_max (zone : TimeZone) (stats : UserStats) (now : Int)
    (events : List Int) :
    (updateStreak zone stats now).longestStreak =
        max stats.longestStreak (updateStreak zone stats now).currentStreak ∧
      stats.longestStreak ≤ (updateStreak zone stats now).longestStreak ∧
      (updateStreak zone stats now).currentStreak ≤ (updateStreak zone stats now).longestStreak ∧
      (events ≠ [] →
        (updateStreak zone (runStreak zone UserStats.default events) now).currentStreak = 1 →
        (updateStreak zone (runStreak zone UserStats.default events) now).longestStreak =
          (runStreak zone UserStats.default events).longestStreak) := by
  have hlong := updateStreak_longest_eq zone stats now
  refine ⟨?_, ?_, ?_, fun hne hreset => ?_⟩
  · rw [hlong]
    split_ifs with h
    · exact (max_eq_right (le_of_lt h)).symm
    · exact (max_eq_left (not_lt.mp h)).symm
  · rw [hlong]
    split_ifs <;> omega
  · rw [hlong]
    split_ifs <;> omega
  · obtain ⟨h1, h2, -⟩ := runStreak_bounds zone events hne
    rw [updateStreak_longest_eq, hreset]
    have : ¬ (1 > (runStreak zone UserStats.default events).longestStreak) := by omega
    rw [if_neg this]

/-- The scenario of C12: events on the local days 20000, 20001 and 20004 (UTC) give
`(currentStreak, longestStreak)` = (1, 1), (2, 2), (1, 2); the reset on the third event leaves
`longestStreak` at 2. -/
theorem updateStreak_longest_max_witness :
    (runStreak (TimeZone.fixed 0) UserStats.default
        [20000 * msPerDay + 28800000]).currentStreak = 1 ∧
      (runStreak (TimeZone.fixed 0) UserStats.default
        [20000 * msPerDay + 28800000]).longestStreak = 1 ∧
      (runStreak (TimeZone.fixed 0) UserStats.default
        [20000 * msPerDay + 28800000, 20001 * msPerDay + 61200000]).currentStreak = 2 ∧
      (runStreak (TimeZone.fixed 0) UserStats.default
        [20000 * msPerDay + 28800000, 20001 * msPerDay + 61200000]).longestStreak = 2 ∧
      (updateStreak (TimeZone.fixed 0) (runStreak (TimeZone.fixed 0) UserStats.default
        [20000 * msPerDay + 28800000, 20001 * msPerDay + 61200000])
          (20004 * msPerDay + 3600000)).currentStreak = 1 ∧
      (updateStreak (TimeZone.fixed 0) (runStreak (TimeZone.fixed 0) UserStats.default
        [20000 * msPerDay + 28800000, 20001 * msPerDay + 61200000])
          (20004 * msPerDay + 3600000)).longestStreak =
        (runStreak (TimeZone.fixed 0) UserStats.default
          [20000 * msPerDay + 28800000, 20001 * msPerDay + 61200000]).longestStreak :=
  ⟨by decide, by decide, by decide, by decide, by decide,
    (updateStreak_longest_max (TimeZone.fixed 0) UserStats.default (20004 * msPerDay + 3600000)
      [20000 * msPerDay + 28800000, 20001 * msPerDay + 61200000]).2.2.2 (by decide) (by decide)⟩

/-! ## Stable sorting and `Object.values` -/

theorem orderedInsertBy_perm {α : Type} (le : α → α → Bool) (x : α) (l : List α) :
    (orderedInsertBy le x l).Perm (x :: l) := by
  induction l with
  | nil => exact List.Perm.refl _
  | cons y ys ih =>
    unfold orderedInsertBy
    split_ifs
    · exact List.Perm.refl _
    · exact (List.Perm.cons y ih).trans (List.Perm.swap x y ys)

theorem stableSortBy_perm {α : Type} (le : α → α → Bool) (l : List α) :
    (stableSortBy le l).Perm l := by
  induction l with
  | nil => exact List.Perm.refl _
  | cons x xs ih =>
    unfold stableSortBy
    exact (orderedInsertBy_perm le x _).trans (List.Perm.cons x ih)

/-- Stability: a class of elements that the comparator never ranks strictly among themselves
keeps its order of appearance. -/
theorem orderedInsertBy_filter {α : Type} (le : α → α → Bool) (p : α → Bool)
    (hp : ∀ a b, le a b = false → p a = true → p b = false) (x : α) (l : List α) :
    (orderedInsertBy le x l).filter p = (x :: l).filter p := by
  induction l with
  | nil => rfl
  | cons y ys ih =>
    unfold orderedInsertBy
    by_cases h : le x y = true
    · rw [if_pos h]
    · rw [if_neg h]
      have hf : le x y = false := by simpa using h
      by_cases hx : p x = true
      · have hy := hp x y hf hx
        rw [List.filter_cons_of_neg (by simp [hy]), ih, List.filter_cons_of_pos hx,
          List.filter_cons_of_pos hx, List.filter_cons_of_neg (by simp [hy])]
      · have hx2 : p x = false := by simpa using hx
        rw [List.filter_cons, ih]
        simp [List.filter_cons, hx2]

theorem stableSortBy_filter {α : Type} (le : α → α → Bool) (p : α → Bool)
    (hp : ∀ a b, le a b = false → p a = true → p b = false) (l : List α) :
    (stableSortBy le l).filter p = l.filter p := by
  induction l with
  | nil => rfl
  | cons x xs ih =>
    unfold stableSortBy
    rw [orderedInsertBy_filter le p hp, List.filter_cons, List.filter_cons, ih]

theorem orderedInsertBy_pairwise {α : Type} (le : α → α → Bool) (key : α → Nat) (x : α)
    (l : List α) (hle : ∀ b ∈ l, le x b = decide (key x ≤ key b))
    (hs : l.Pairwise (fun a b => key a ≤ key b)) :
    (orderedInsertBy le x l).Pairwise (fun a b => key a ≤ key b) := by
  induction l with
  | nil => simp [orderedInsertBy]
  | cons y ys ih =>
    unfold orderedInsertBy
    rw [List.pairwise_cons] at hs
    obtain ⟨hy, hys⟩ := hs
    have hxy := hle y (List.mem_cons_self _ _)
    by_cases h : le x y = true
    · rw [if_pos h]
      rw [hxy, decide_eq_true_eq] at h
      refine List.pairwise_cons.mpr ⟨?_, List.pairwise_cons.mpr ⟨hy, hys⟩⟩
      intro b hb
      rcases List.mem_cons.mp hb with rfl | hb
      · exact h
      · exact le_trans h (hy b hb)
    · rw [if_neg h]
      rw [hxy, decide_eq_true_eq] at h
      refine List.pairwise_cons.mpr ⟨?_, ih (fun b hb => hle b (List.mem_cons_of_mem _ hb)) hys⟩
      intro b hb
      rcases List.mem_cons.mp ((orderedInsertBy_perm le x ys).mem_iff.mp hb) with rfl | hb
      · omega
      · exact hy b hb

/-- On a list where the comparator is the order of a numeric key, the result is sorted. -/
theorem stableSortBy_pairwise {α : Type} (le : α → α → Bool) (key : α → Nat) (l : List α)
    (hle : ∀ a ∈ l, ∀ b ∈ l, le a b = decide (key a ≤ key b)) :
    (stableSortBy le l).Pairwise (fun a b => key a ≤ key b) := by
  induction l with
  | nil => simp [stableSortBy]
  | cons x xs ih =>
    unfold stableSortBy
    apply orderedInsertBy_pairwise
    · intro b hb
      exact hle x (List.mem_cons_self _ _) b
        (List.mem_cons_of_mem _ ((stableSortBy_perm le xs).mem_iff.mp hb))
    · exact ih (fun a ha b hb => hle a (List.mem_cons_of_mem _ ha) b (List.mem_cons_of_mem _ hb))

theorem values_perm {α : Type} (obj : JSDict α) :
    (JSDict.values obj).Perm (obj.map (fun p => p.2)) := by
  unfold JSDict.values
  simp only []
  have h1 := (stableSortBy_perm (fun a b : Nat × α => decide (a.1 ≤ b.1))
    (obj.filterMap (fun p => (arrayIndex? p.1).map (fun i => (i, p.2))))).map (fun p => p.2)
  refine (List.Perm.append_right _ h1).trans ?_
  clear h1
  induction obj with
  | nil => simp
  | cons p ps ih =>
    cases hidx : arrayIndex? p.1 with
    | none =>
      simp only [List.filterMap_cons, hidx, Option.map_none', List.filter_cons, Option.isNone_none,
        if_true, List.map_cons]
      exact List.perm_middle.trans (List.Perm.cons _ ih)
    | some i =>
      simp only [List.filterMap_cons, hidx, Option.map_some', List.filter_cons,
        Option.isNone_some, Bool.false_eq_true, if_false, List.map_cons, List.cons_append]
      exact List.Perm.cons _ ih

/-- Without array-index names `Object.values` lists the values in creation order. -/
theorem values_of_no_index {α : Type} (obj : JSDict α)
    (h : ∀ p ∈ obj, arrayIndex? p.1 = none) : JSDict.values obj = obj.map (fun p => p.2) := by
  unfold JSDict.values
  simp only []
  have h1 : obj.filterMap (fun p => (arrayIndex? p.1).map (fun i => (i, p.2))) = [] := by
    rw [List.filterMap_eq_nil_iff]
    intro p hp
    simp [h p hp]
  have h2 : obj.filter (fun p => (arrayIndex? p.1).isNone) = obj := by
    rw [List.filter_eq_self]
    intro p hp
    simp [h p hp]
  rw [h1, h2]
  rfl

/-! ## Dictionaries built by `upsert` -/

theorem contains_true_iff (l : List String) (a : String) : l.contains a = true ↔ a ∈ l := by
  simp

theorem truthyAt_iff {α : Type} (obj : JSDict α) (key : String) :
    obj.truthyAt key = true ↔ key ∈ obj.map (fun p => p.1) ∨ key ∈ objectPrototypeKeys := by
  unfold JSDict.truthyAt
  rw [Bool.or_eq_true, List.any_eq_true, contains_true_iff]
  constructor
  · rintro (⟨p, hp, hk⟩ | h)
    · left
      rw [beq_iff_eq] at hk
      exact List.mem_map.mpr ⟨p, hp, hk⟩
    · exact Or.inr h
  · rintro (h | h)
    · obtain ⟨p, hp, hk⟩ := List.mem_map.mp h
      exact Or.inl ⟨p, hp, by simpa using hk⟩
    · exact Or.inr h

theorem upsert_keys {α : Type} (obj : JSDict α) (key : String) (init : α) (f : α → α) :
    (obj.upsert key init f).map (fun p => p.1) =
      (if obj.truthyAt key then obj.map (fun p => p.1) else obj.map (fun p => p.1) ++ [key]) := by
  unfold JSDict.upsert
  simp only [List.map_map]
  have hfst : ((fun p : String × α => p.1) ∘
      fun p : String × α => if p.1 == key then (p.1, f p.2) else p) = fun p => p.1 := by
    funext p
    simp only [Function.comp]
    split_ifs <;> rfl
  rw [hfst]
  by_cases h : obj.truthyAt key = true
  · simp [h]
  · simp [h]

theorem mem_upsert {α : Type} (obj : JSDict α) (key : String) (init : α) (f : α → α)
    (q : String × α) (hq : q ∈ obj.upsert key init f) :
    (q.1 ≠ key ∧ q ∈ obj) ∨
      (q.1 = key ∧ ((∃ v, (key, v) ∈ obj ∧ q.2 = f v) ∨
        (obj.truthyAt key = false ∧ q.2 = f init))) := by
  unfold JSDict.upsert at hq
  simp only [] at hq
  obtain ⟨p, hp, hpq⟩ := List.mem_map.mp hq
  have hp2 : p ∈ obj ∨ (obj.truthyAt key = false ∧ p = (key, init)) := by
    by_cases h : obj.truthyAt key = true
    · simp only [h, Bool.not_true, Bool.false_eq_true, if_false] at hp
      exact Or.inl hp
    · have hf : obj.truthyAt key = false := by simpa using h
      simp only [hf, Bool.not_false, if_true, List.mem_append, List.mem_singleton] at hp
      rcases hp with hp | hp
      · exact Or.inl hp
      · exact Or.inr ⟨hf, hp⟩
  by_cases hk : p.1 = key
  · right
    have hb : (p.1 == key) = true := by simpa using hk
    rw [if_pos hb] at hpq
    subst hpq
    refine ⟨hk, ?_⟩
    rcases hp2 with hp2 | ⟨hf, hp2⟩
    · left
      refine ⟨p.2, ?_, rfl⟩
      rw [← hk]
      exact hp2
    · right
      refine ⟨hf, ?_⟩
      rw [hp2]
  · left
    have hb : ¬ (p.1 == key) = true := by simpa using hk
    rw [if_neg hb] at hpq
    subst hpq
    refine ⟨hk, ?_⟩
    rcases hp2 with hp2 | ⟨-, hp2⟩
    · exact hp2
    · exact absurd (by rw [hp2]) hk

theorem groupValue_append_same {ι α : Type} (keyOf : ι → String) (init : String → α)
    (upd : ι → α → α) (items : List ι) (i : ι) :
    groupValue keyOf init upd (items ++ [i]) (keyOf i) =
      upd i (groupValue keyOf init upd items (keyOf i)) := by
  unfold groupValue
  rw [List.filter_append, List.foldl_append]
  simp

theorem groupValue_append_other {ι α : Type} (keyOf : ι → String) (init : String → α)
    (upd : ι → α → α) (items : List ι) (i : ι) (key : String) (h : key ≠ keyOf i) :
    groupValue keyOf init upd (items ++ [i]) key = groupValue keyOf init upd items key := by
  unfold groupValue
  rw [List.filter_append]
  have : (keyOf i == key) = false := by simpa using fun hc => h hc.symm
  simp [this]

theorem groupValue_of_absent {ι α : Type} (keyOf : ι → String) (init : String → α)
    (upd : ι → α → α) (items : List ι) (key : String) (h : key ∉ items.map keyOf) :
    groupValue keyOf init upd items key = init key := by
  unfold groupValue
  have : items.filter (fun i => keyOf i == key) = [] := by
    rw [List.filter_eq_nil_iff]
    intro i hi hk
    rw [beq_iff_eq] at hk
    exact h (List.mem_map.mpr ⟨i, hi, hk⟩)
  rw [this]
  rfl

theorem dictInv_step {ι α : Type} (keyOf : ι → String) (init : String → α) (upd : ι → α → α)
    (items : List ι) (d : JSDict α) (i : ι) (h : DictInv keyOf init upd items d) :
    DictInv keyOf init upd (items ++ [i]) (d.upsert (keyOf i) (init (keyOf i)) (upd i)) := by
  obtain ⟨hnd, hval, hall⟩ := h
  have htruthy := truthyAt_iff d (keyOf i)
  refine ⟨?_, ?_, ?_⟩
  · rw [upsert_keys]
    by_cases ht : d.truthyAt (keyOf i) = true
    · rw [if_pos ht]
      exact hnd
    · rw [if_neg ht, List.nodup_append]
      refine ⟨hnd, List.nodup_singleton _, ?_⟩
      intro x hx hx2
      rw [List.mem_singleton] at hx2
      subst hx2
      exact ht (htruthy.mpr (Or.inl hx))
  · intro q hq
    rcases mem_upsert d (keyOf i) (init (keyOf i)) (upd i) q hq with
      ⟨hne, hqd⟩ | ⟨heq, hcase⟩
    · obtain ⟨h1, h2, h3⟩ := hval q hqd
      refine ⟨h1, ?_, ?_⟩
      · rw [List.map_append]
        exact List.mem_append_left _ h2
      · rw [groupValue_append_other keyOf init upd items i q.1 hne]
        exact h3
    · rcases hcase with ⟨v, hv, hqv⟩ | ⟨hf, hqv⟩
      · obtain ⟨h1, -, h3⟩ := hval (keyOf i, v) hv
        simp only at h1 h3
        refine ⟨heq ▸ h1, ?_, ?_⟩
        · rw [heq, List.map_append]
          exact List.mem_append_right _ (by simp)
        · rw [heq, groupValue_append_same, hqv, h3]
      · have hnot : ¬ (keyOf i ∈ d.map (fun p => p.1) ∨ keyOf i ∈ objectPrototypeKeys) := by
          intro hc
          have := htruthy.mpr hc
          rw [hf] at this
          exact Bool.false_ne_true this
        have hproto : keyOf i ∉ objectPrototypeKeys := fun hc => hnot (Or.inr hc)
        have habsent : keyOf i ∉ items.map keyOf := by
          intro hc
          obtain ⟨j, hj, hjk⟩ := List.mem_map.mp hc
          have := hall j hj (hjk ▸ hproto)
          rw [hjk] at this
          exact hnot (Or.inl this)
        refine ⟨heq ▸ hproto, ?_, ?_⟩
        · rw [heq, List.map_append]
          exact List.mem_append_right _ (by simp)
        · rw [heq, groupValue_append_same, hqv,
            groupValue_of_absent keyOf init upd items (keyOf i) habsent]
  · intro j hj hproto
    rw [upsert_keys]
    rcases List.mem_append.mp hj with hj | hj
    · have := hall j hj hproto
      split_ifs
      · exact this
      · exact List.mem_append_left _ this
    · rw [List.mem_singleton] at hj
      subst hj
      by_cases ht : d.truthyAt (keyOf j) = true
      · rw [if_pos ht]
        rcases htruthy.mp ht with h | h
        · exact h
        · exact absurd h hproto
      · rw [if_neg ht]
        exact List.mem_append_right _ (by simp)

theorem dictInv_foldl {ι α : Type} (keyOf : ι → String) (init : String → α) (upd : ι → α → α)
    (items : List ι) :
    DictInv keyOf init upd items
      (items.foldl (fun d i => d.upsert (keyOf i) (init (keyOf i)) (upd i)) []) := by
  induction items using List.reverseRecOn with
  | nil =>
    refine ⟨List.nodup_nil, ?_, ?_⟩
    · intro p hp
      simp at hp
    · intro i hi
      simp at hi
  | append_singleton is i ih =>
    rw [List.foldl_append]
    exact dictInv_step keyOf init upd is _ i ih

theorem firstSeen_append_one (l : List String) (t : String) :
    firstSeen (l ++ [t]) =
      (if (firstSeen l).contains t then firstSeen l else firstSeen l ++ [t]) := by
  simp [firstSeen, List.foldl_append]

/-- The keys of the dictionary are the item keys outside `Object.prototype`, in the order in
which they were first seen. -/
theorem keys_foldl_upsert {ι α : Type} (keyOf : ι → String) (init : String → α)
    (upd : ι → α → α) (items : List ι) :
    (items.foldl (fun (d : JSDict α) i => d.upsert (keyOf i) (init (keyOf i)) (upd i))
        []).map (fun p => p.1) =
      firstSeen ((items.map keyOf).filter (fun k => !objectPrototypeKeys.contains k)) := by
  induction items using List.reverseRecOn with
  | nil => rfl
  | append_singleton is i ih =>
    rw [List.foldl_append, List.map_append, List.filter_append]
    simp only [List.foldl_cons, List.foldl_nil, List.map_cons, List.map_nil]
    rw [upsert_keys, ih]
    have htruthy := truthyAt_iff
      (is.foldl (fun (d : JSDict α) i => d.upsert (keyOf i) (init (keyOf i)) (upd i)) [])
      (keyOf i)
    rw [ih] at htruthy
    by_cases hproto : objectPrototypeKeys.contains (keyOf i) = true
    · have ht := htruthy.mpr (Or.inr ((contains_true_iff _ _).mp hproto))
      rw [if_pos ht]
      have hf : List.filter (fun k => !objectPrototypeKeys.contains k) [keyOf i] = [] := by
        rw [List.filter_cons_of_neg (by simpa using hproto)]
        rfl
      rw [hf, List.append_nil]
    · have hproto2 : objectPrototypeKeys.contains (keyOf i) = false := by simpa using hproto
      have hf : List.filter (fun k => !objectPrototypeKeys.contains k) [keyOf i] = [keyOf i] := by
        rw [List.filter_cons_of_pos (by simpa using hproto2)]
        rfl
      rw [hf, firstSeen_append_one]
      by_cases hs : (firstSeen ((is.map keyOf).filter
          (fun k => !objectPrototypeKeys.contains k))).contains (keyOf i) = true
      · rw [if_pos hs, if_pos (htruthy.mpr (Or.inl ((contains_true_iff _ _).mp hs)))]
      · rw [if_neg hs]
        have : ¬ (is.foldl (fun (d : JSDict α) i => d.upsert (keyOf i) (init (keyOf i)) (upd i))
            []).truthyAt (keyOf i) = true := by
          intro hc
          rcases htruthy.mp hc with h | h
          · exact hs ((contains_true_iff _ _).mpr h)
          · exact hproto ((contains_true_iff _ _).mpr h)
        rw [if_neg this]

/-! ## More on rounding -/

/-- A value within `1 / (2 t)` of `a / t` rounds like `a / t`, except that it may round one
lower when `a / t` lies exactly halfway between two integers. -/
theorem round_near (D : ℚ) (k a t : Nat) (ht : 0 < t) (hk1 : (k : ℚ) ≤ D + 1 / 2)
    (hk2 : D + 1 / 2 < k + 1) (hclose : |D - (a : ℚ) / t| < 1 / (2 * t)) :
    k = roundHalfUp a t ∨ ((2 * a) % (2 * t) = t ∧ k + 1 = roundHalfUp a t) := by
  obtain ⟨hR1, hR2⟩ := roundHalfUp_spec a t ht
  generalize roundHalfUp a t = R at hR1 hR2 ⊢
  have htq : (0 : ℚ) < t := by exact_mod_cast ht
  rw [abs_lt] at hclose
  obtain ⟨hlo, hhi⟩ := hclose
  have h2t : (0 : ℚ) < 2 * t := by positivity
  have hD1 : D * (2 * t) < 2 * a + 1 := by
    have : D < (2 * a + 1) / (2 * t) := by
      have e : (2 * (a : ℚ) + 1) / (2 * t) = a / t + 1 / (2 * t) := by
        field_simp
        ring
      rw [e]
      linarith
    exact (lt_div_iff₀ h2t).mp this
  have hD2 : 2 * (a : ℚ) - 1 < D * (2 * t) := by
    have : (2 * a - 1) / (2 * t) < D := by
      have e : (2 * (a : ℚ) - 1) / (2 * t) = a / t - 1 / (2 * t) := by
        field_simp
        ring
      rw [e]
      linarith
    exact (div_lt_iff₀ h2t).mp this
  have hK1 : (k : ℚ) * (2 * t) ≤ D * (2 * t) + t := by
    have := mul_le_mul_of_nonneg_right hk1 h2t.le
    linarith
  have hK2 : D * (2 * t) + t < ((k : ℚ) + 1) * (2 * t) := by
    have := mul_lt_mul_of_pos_right hk2 h2t
    linarith
  generalize D * (2 * t) = Y at hD1 hD2 hK1 hK2
  have h1t : (1 : ℚ) ≤ t := by exact_mod_cast ht
  rcases Nat.eq_or_lt_of_le hR1 with heq | hneq
  · have heqq : (R : ℚ) * (2 * t) = 2 * a + t := by exact_mod_cast heq
    have hkR : k < R + 1 := by
      have : (k : ℚ) * (2 * t) < ((R : ℚ) + 1) * (2 * t) := by linarith
      have : k * (2 * t) < (R + 1) * (2 * t) := by exact_mod_cast this
      exact Nat.lt_of_mul_lt_mul_right this
    have hRk : R < k + 2 := by
      have : (R : ℚ) * (2 * t) < ((k : ℚ) + 2) * (2 * t) := by linarith
      have : R * (2 * t) < (k + 2) * (2 * t) := by exact_mod_cast this
      exact Nat.lt_of_mul_lt_mul_right this
    have hRpos : R ≠ 0 := by
      rintro rfl
      omega
    by_cases hkeq : k = R
    · exact Or.inl hkeq
    right
    obtain ⟨r, hr⟩ : ∃ r, R = r + 1 := ⟨R - 1, by omega⟩
    subst hr
    have hsplit : 2 * a = t + r * (2 * t) := by
      have e : (r + 1) * (2 * t) = r * (2 * t) + 2 * t := by ring
      rw [e] at heq
      omega
    constructor
    · rw [hsplit, Nat.add_mul_mod_self_right]
      exact Nat.mod_eq_of_lt (by omega)
    · omega
  · left
    have hneq1q : (R : ℚ) * (2 * t) + 1 ≤ 2 * a + t := by exact_mod_cast hneq
    have hneq2 : 2 * a + t + 1 ≤ (R + 1) * (2 * t) := hR2
    have hneq2q : (2 : ℚ) * a + t + 1 ≤ ((R : ℚ) + 1) * (2 * t) := by exact_mod_cast hneq2
    have hkR : k < R + 1 := by
      have : (k : ℚ) * (2 * t) < ((R : ℚ) + 1) * (2 * t) := by linarith
      have : k * (2 * t) < (R + 1) * (2 * t) := by exact_mod_cast this
      exact Nat.lt_of_mul_lt_mul_right this
    have hRk : R < k + 1 := by
      have : (R : ℚ) * (2 * t) < ((k : ℚ) + 1) * (2 * t) := by linarith
      have : R * (2 * t) < (k + 1) * (2 * t) := by exact_mod_cast this
      exact Nat.lt_of_mul_lt_mul_right this
    omega

theorem roundHalfEven_of_dvd (x y c : Nat) (hy : 0 < y) (h : x = y * c) :
    roundHalfEven x y = c := by
  subst h
  unfold roundHalfEven
  simp only [Nat.mul_mod_right, Nat.mul_zero, hy, if_true]
  exact Nat.mul_div_cancel_left c hy

/-- A quotient that is a multiple of one half and below `2 ^ 52` is a double: rounding leaves
it as it is. -/
theorem roundToDouble_exact (a b c : Nat) (ha : 0 < a) (hb : 0 < b) (hlt : a < 2 ^ 52 * b)
    (hc : 2 * a = b * c) : (roundToDouble a b).toRat = (a : ℚ) / b := by
  have hs := sigShift_spec a b ha hb
  unfold roundToDouble
  simp only [Nat.pos_iff_ne_zero.mp ha, if_false]
  generalize sigShift a b = s at hs ⊢
  have hspos : 1 ≤ s := by
    by_contra hneg
    have h0 : s.toNat = 0 := by omega
    rw [h0] at hs
    have hU : 1 ≤ 2 ^ (-s).toNat := Nat.one_le_two_pow
    have : 2 ^ 52 * b ≤ 2 ^ 52 * (b * 2 ^ (-s).toNat) :=
      Nat.mul_le_mul_left _ (Nat.le_mul_of_pos_right _ hU)
    omega
  obtain ⟨j, hj⟩ : ∃ j : Nat, s.toNat = j + 1 := ⟨s.toNat - 1, by omega⟩
  have hneg : (-s).toNat = 0 := by omega
  rw [hj, hneg]
  have hx : a * 2 ^ (j + 1) = (b * 2 ^ 0) * (c * 2 ^ j) := by
    have e : a * 2 ^ (j + 1) = (2 * a) * 2 ^ j := by ring
    rw [e, hc]
    ring
  rw [roundHalfEven_of_dvd _ _ (c * 2 ^ j) (by positivity) hx]
  unfold Dbl.toRat
  have hbq : (0 : ℚ) < b := by exact_mod_cast hb
  have hcq : (2 : ℚ) * a = b * c := by exact_mod_cast hc
  push_cast
  field_simp
  have e : (c : ℚ) * 2 ^ j * b = (b * c) * 2 ^ j := by ring
  rw [e, ← hcq]
  ring

/-- `Math.round` of a double-precision quotient of whole numbers is the exact round-half-up,
for a dividend below `2 ^ 52`. -/
theorem mathRound_quotient (n d : Nat) (hd : 0 < d) (hn : n < 2 ^ 52) :
    mathRound (.finite (roundToDouble n d)) = JSNumber.ofNat (roundHalfUp n d) := by
  obtain ⟨k, hk, hk1, hk2⟩ := mathRound_spec (roundToDouble n d)
  rw [hk]
  congr 1
  have hdq : (0 : ℚ) < d := by exact_mod_cast hd
  have hnq : (n : ℚ) < 2 ^ 52 := by exact_mod_cast hn
  have hn0 : (0 : ℚ) ≤ n := by positivity
  by_cases hhalf : (2 * n) % (2 * d) = d
  · -- the quotient is a half-integer and is represented exactly
    have hsplit := Nat.div_add_mod (2 * n) (2 * d)
    rw [hhalf] at hsplit
    have hc : 2 * n = d * (2 * ((2 * n) / (2 * d)) + 1) := by
      have e : d * (2 * ((2 * n) / (2 * d)) + 1) = 2 * d * ((2 * n) / (2 * d)) + d := by ring
      omega
    have hnpos : 0 < n := by
      rcases Nat.eq_zero_or_pos n with h0 | h0
      · subst h0
        simp at hhalf
        omega
      · exact h0
    have hlt : n < 2 ^ 52 * d := lt_of_lt_of_le hn (Nat.le_mul_of_pos_right _ hd)
    have hex := roundToDouble_exact n d _ hnpos hd hlt hc
    rw [hex] at hk1 hk2
    obtain ⟨hR1, hR2⟩ := roundHalfUp_spec n d hd
    generalize roundHalfUp n d = R at hR1 hR2 ⊢
    generalize (2 * n) / (2 * d) = q at hsplit hc
    have e1 : (q + 1) * (2 * d) = 2 * d * q + 2 * d := by ring
    have hRq : R = q + 1 := by
      have h1 : R * (2 * d) < (q + 2) * (2 * d) := by
        have e2 : (q + 2) * (2 * d) = 2 * d * q + 4 * d := by ring
        omega
      have h2 : q * (2 * d) < (R + 1) * (2 * d) := by
        have e2 : q * (2 * d) = 2 * d * q := by ring
        omega
      have h3 := Nat.lt_of_mul_lt_mul_right h1
      have h4 := Nat.lt_of_mul_lt_mul_right h2
      have h5 : (q + 1) * (2 * d) ≤ 2 * n + d := by omega
      have h6 : (q + 1) * (2 * d) < (R + 1) * (2 * d) := lt_of_le_of_lt h5 hR2
      have h7 := Nat.lt_of_mul_lt_mul_right h6
      omega
    subst hRq
    have hval : (n : ℚ) / d + 1 / 2 = (q : ℚ) + 1 := by
      have hsq : (2 : ℚ) * d * q + d = 2 * n := by exact_mod_cast hsplit
      field_simp
      linarith
    rw [hval] at hk1 hk2
    have h8 : k ≤ q + 1 := by exact_mod_cast hk1
    have h9 : q + 1 < k + 1 := by exact_mod_cast hk2
    omega
  · have herr := roundToDouble_error n d hd
    have hclose : |(roundToDouble n d).toRat - (n : ℚ) / d| < 1 / (2 * d) := by
      refine lt_of_le_of_lt herr ?_
      rw [div_div, div_lt_div_iff₀ (by positivity) (by positivity)]
      nlinarith
    rcases round_near _ k n d hd hk1 hk2 hclose with h | ⟨h, -⟩
    · exact h
    · exact absurd h hhalf

theorem mathRoundQuotient_of_nonneg (x : Int) (d : Nat) (hx : 0 ≤ x) (hd : 0 < d)
    (hlt : x < 2 ^ 52) : mathRoundQuotient x d = (roundHalfUp x.toNat d : Nat) := by
  have hn : x.toNat < 2 ^ 52 := by omega
  have h := mathRound_quotient x.toNat d hd hn
  unfold mathRoundQuotient
  rw [if_pos hx]
  simp only [mathRound, JSNumber.ofNat, JSNumber.finite.injEq, Dbl.mk.injEq, and_true] at h
  simp only []
  rw [h]

/-- A share of at most the whole is a whole percentage of at most 100. -/
theorem percentOf_le_hundred (c a : Nat) (ha : 0 < a) (hle : c ≤ a) :
    ∃ k : Nat, percentOf c a = JSNumber.ofNat k ∧ k ≤ 100 := by
  obtain ⟨d, hd, herr⟩ := percentOf_error c a ha
  obtain ⟨k, hk, hk1, -⟩ := mathRound_spec d
  refine ⟨k, hd.trans hk, ?_⟩
  have haq : (0 : ℚ) < a := by exact_mod_cast ha
  have hcq : (c : ℚ) ≤ a := by exact_mod_cast hle
  have hx : 100 * (c : ℚ) / a ≤ 100 := by
    rw [div_le_iff₀ haq]
    linarith
  have hx0 : (0 : ℚ) ≤ 100 * (c : ℚ) / a := by positivity
  rw [abs_le] at herr
  have hsmall : 100 * (c : ℚ) / a * (3 / 2 ^ 53) ≤ 100 * (3 / 2 ^ 53) :=
    mul_le_mul_of_nonneg_right hx (by positivity)
  have hk3 : (k : ℚ) < 101 := by
    have : (100 : ℚ) * (3 / 2 ^ 53) < 1 / 2 := by norm_num
    linarith [herr.2]
  have : k < 101 := by exact_mod_cast hk3
  omega

/-- The whole is 100 percent. -/
theorem percentOf_full (a : Nat) (ha : 0 < a) : percentOf a a = JSNumber.ofNat 100 := by
  obtain ⟨d, hd, herr⟩ := percentOf_error a a ha
  obtain ⟨k, hk, hk1, hk2⟩ := mathRound_spec d
  rw [hd, hk]
  congr 1
  have haq : (0 : ℚ) < a := by exact_mod_cast ha
  have hx : 100 * (a : ℚ) / a = 100 := by
    field_simp
  rw [hx, abs_le] at herr
  have hnum : (100 : ℚ) * (3 / 2 ^ 53) < 1 / 2 := by norm_num
  have h1 : (k : ℚ) < 101 := by linarith [herr.2]
  have h2 : (99 : ℚ) < k := by linarith [herr.1]
  have h3 : k < 101 := by exact_mod_cast h1
  have h4 : 99 < k := by exact_mod_cast h2
  omega

/-- With fewer than 200 in the whole, a proper part stays below 100 percent. -/
theorem percentOf_lt_hundred (c a : Nat) (hlt : c < a) (hsmall : a < 200) :
    ∃ k : Nat, percentOf c a = JSNumber.ofNat k ∧ k < 100 := by
  have ha : 0 < a := by omega
  obtain ⟨d, hd, herr⟩ := percentOf_error c a ha
  obtain ⟨k, hk, hk1, -⟩ := mathRound_spec d
  refine ⟨k, hd.trans hk, ?_⟩
  have haq : (0 : ℚ) < a := by exact_mod_cast ha
  have hca : c + 1 ≤ a := hlt
  have hcq : (c : ℚ) + 1 ≤ a := by exact_mod_cast hca
  have haq2 : (a : ℚ) ≤ 199 := by
    have : a ≤ 199 := by omega
    exact_mod_cast this
  have hx : 100 * (c : ℚ) / a ≤ 19800 / 199 := by
    rw [div_le_div_iff₀ haq (by norm_num)]
    linarith
  have hx0 : (0 : ℚ) ≤ 100 * (c : ℚ) / a := by positivity
  rw [abs_le] at herr
  have hbound : 100 * (c : ℚ) / a * (3 / 2 ^ 53) ≤ 19800 / 199 * (3 / 2 ^ 53) :=
    mul_le_mul_of_nonneg_right hx (by positivity)
  have hk3 : (k : ℚ) < 100 := by
    have : (19800 : ℚ) / 199 + 19800 / 199 * (3 / 2 ^ 53) < 99 + 1 / 2 := by norm_num
    linarith [herr.2]
  exact_mod_cast hk3

/-! ## Weak topics of one quiz -/

theorem stat_foldl (l : List Answer) (st : TopicStat) :
    l.foldl (fun acc (a : Answer) =>
        ({ acc with
          questionsAsked := acc.questionsAsked + 1
          questionsCorrect :=
            if a.isCorrect then acc.questionsCorrect + 1 else acc.questionsCorrect } :
          TopicStat)) st =
      ⟨st.topic, st.questionsAsked + l.length,
        st.questionsCorrect + l.countP (fun a => a.isCorrect)⟩ := by
  induction l generalizing st with
  | nil => simp
  | cons a as ih =>
    rw [List.foldl_cons, ih]
    cases hc : a.isCorrect <;> simp [hc, List.countP_cons] <;> omega

/-- The entries of the `topicStats` object after all answers. -/
theorem topicStats_entries (answers : List Answer) :
    ((answers.foldl recordAnswer []).map (fun p => p.1)).Nodup ∧
      (∀ p ∈ answers.foldl recordAnswer [],
        p.1 ∉ objectPrototypeKeys ∧ p.1 ∈ answers.map topicOf ∧
          p.2 = ⟨p.1, askedFor answers p.1, correctFor answers p.1⟩) ∧
      (∀ a ∈ answers, topicOf a ∉ objectPrototypeKeys →
        topicOf a ∈ (answers.foldl recordAnswer []).map (fun p => p.1)) := by
  have h := dictInv_foldl topicOf (fun k => (⟨k, 0, 0⟩ : TopicStat))
    (fun (a : Answer) (stat : TopicStat) =>
      ({ stat with
        questionsAsked := stat.questionsAsked + 1
        questionsCorrect :=
          if a.isCorrect then stat.questionsCorrect + 1 else stat.questionsCorrect } :
        TopicStat)) answers
  obtain ⟨h1, h2, h3⟩ := h
  refine ⟨h1, fun p hp => ?_, h3⟩
  obtain ⟨g1, g2, g3⟩ := h2 p hp
  refine ⟨g1, g2, ?_⟩
  rw [g3]
  unfold groupValue
  rw [stat_foldl]
  simp only [Nat.zero_add, askedFor, correctFor]
  congr 1
  · rw [List.countP_eq_length_filter]
  · rw [List.countP_filter]
    congr 1
    funext a
    rw [Bool.and_comm]

theorem calculateWeakTopics_perm (answers : List Answer) :
    (calculateWeakTopics answers).Perm
      ((answers.foldl recordAnswer []).map (fun p => withAccuracy p.2)) := by
  unfold calculateWeakTopics
  simp only []
  refine (stableSortBy_perm _ _).trans ?_
  have := (values_perm (answers.foldl recordAnswer [])).map withAccuracy
  rw [List.map_map] at this
  exact this

/-- Which entries `calculateWeakTopics` derives. -/
theorem mem_calculateWeakTopics (answers : List Answer) (w : WeakTopic) :
    w ∈ calculateWeakTopics answers ↔
      (w.topic ∈ answers.map topicOf ∧ w.topic ∉ objectPrototypeKeys ∧
        w = ⟨w.topic, askedFor answers w.topic, correctFor answers w.topic,
          percentOf (correctFor answers w.topic) (askedFor answers w.topic)⟩) := by
  obtain ⟨-, h2, h3⟩ := topicStats_entries answers
  rw [(calculateWeakTopics_perm answers).mem_iff, List.mem_map]
  constructor
  · rintro ⟨p, hp, rfl⟩
    obtain ⟨g1, g2, g3⟩ := h2 p hp
    rw [g3]
    exact ⟨g2, g1, rfl⟩
  · rintro ⟨ht, hproto, hw⟩
    obtain ⟨a, ha, hat⟩ := List.mem_map.mp ht
    have hkey := h3 a ha (hat ▸ hproto)
    rw [hat] at hkey
    obtain ⟨p, hp, hpk⟩ := List.mem_map.mp hkey
    refine ⟨p, hp, ?_⟩
    obtain ⟨-, -, g3⟩ := h2 p hp
    rw [g3, hw, hpk]
    rfl

theorem calculateWeakTopics_topics_nodup (answers : List Answer) :
    ((calculateWeakTopics answers).map (fun w => w.topic)).Nodup := by
  obtain ⟨h1, h2, -⟩ := topicStats_entries answers
  have hperm := (calculateWeakTopics_perm answers).map (fun w => w.topic)
  rw [hperm.nodup_iff, List.map_map]
  have : (answers.foldl recordAnswer []).map ((fun w => w.topic) ∘ fun p => withAccuracy p.2) =
      (answers.foldl recordAnswer []).map (fun p => p.1) := by
    apply List.map_congr_left
    intro p hp
    obtain ⟨-, -, g3⟩ := h2 p hp
    simp only [Function.comp, withAccuracy]
    rw [g3]
  rw [this]
  exact h1

theorem correctFor_le_askedFor (answers : List Answer) (t : String) :
    correctFor answers t ≤ askedFor answers t := by
  unfold correctFor askedFor
  apply List.countP_mono_left
  intro a _ h
  simp only [Bool.and_eq_true] at h
  exact h.1

theorem askedFor_pos (answers : List Answer) (t : String) (h : t ∈ answers.map topicOf) :
    1 ≤ askedFor answers t := by
  obtain ⟨a, ha, hat⟩ := List.mem_map.mp h
  unfold askedFor
  exact List.countP_pos_iff.mpr ⟨a, ha, by simpa using hat⟩

theorem correctFor_le_length (answers : List Answer) (t : String) :
    correctFor answers t ≤ answers.length := List.countP_le_length _

/-- C13, as stated, fails: for 40 answers on topic "A" with 23 correct and one answer on topic
"constructor", the derived list has the single entry of "A" with accuracy 57 (round-half-up of
`100 * 23 / 40 = 57.5` is 58) and no entry for "constructor". -/
theorem calculateWeakTopics_not_per_topic :
    "constructor" ∈ fortyOnOneTopic.map topicOf ∧
      calculateWeakTopics fortyOnOneTopic = [⟨"A", 40, 23, JSNumber.ofNat 57⟩] ∧
      roundHalfUp (100 * 23) 40 = 58 := by
  set_option maxRecDepth 100000 in decide

/-- C13, amended. For answers none of whose topics is a property name of `Object.prototype`
(fewer than `2 ^ 32` answers), the derived list has exactly one entry per distinct topic of the
answers, an absent or empty topic reading as "General"; an entry's `questionsAsked` is the
number of answers with its topic, `questionsCorrect` the number of those that are correct, and
`accuracy` is a whole number: round-half-up of `100 * questionsCorrect / questionsAsked`, or one
less when that quotient lies exactly halfway between two integers. -/
theorem calculateWeakTopics_entries (answers : List Answer)
    (hproto : ∀ a ∈ answers, topicOf a ∉ objectPrototypeKeys)
    (hlen : answers.length < 2 ^ 32) :
    ((calculateWeakTopics answers).map (fun w => w.topic)).Nodup ∧
      (∀ t, t ∈ (calculateWeakTopics answers).map (fun w => w.topic) ↔
        t ∈ answers.map topicOf) ∧
      (∀ a ∈ answers, (a.topic = none ∨ a.topic = some "") → topicOf a = "General") ∧
      (∀ w ∈ calculateWeakTopics answers,
        w.questionsAsked = askedFor answers w.topic ∧
        w.questionsCorrect = correctFor answers w.topic ∧
        ∃ k : Nat, w.accuracy = JSNumber.ofNat k ∧
          (k = roundHalfUp (100 * w.questionsCorrect) w.questionsAsked ∨
            ((200 * w.questionsCorrect) % (2 * w.questionsAsked) = w.questionsAsked ∧
              k + 1 = roundHalfUp (100 * w.questionsCorrect) w.questionsAsked))) := by
  refine ⟨calculateWeakTopics_topics_nodup answers, fun t => ?_, fun a _ h => ?_, fun w hw => ?_⟩
  · constructor
    · intro ht
      obtain ⟨w, hw, rfl⟩ := List.mem_map.mp ht
      exact ((mem_calculateWeakTopics answers w).mp hw).1
    · intro ht
      obtain ⟨a, ha, rfl⟩ := List.mem_map.mp ht
      refine List.mem_map.mpr ⟨⟨topicOf a, askedFor answers (topicOf a),
        correctFor answers (topicOf a),
        percentOf (correctFor answers (topicOf a)) (askedFor answers (topicOf a))⟩, ?_, rfl⟩
      exact (mem_calculateWeakTopics answers _).mpr ⟨ht, hproto a ha, rfl⟩
  · rcases h with h | h <;> simp [topicOf, h]
  · obtain ⟨ht, -, hval⟩ := (mem_calculateWeakTopics answers w).mp hw
    have hasked : w.questionsAsked = askedFor answers w.topic := by
      rw [hval]
    have hcorrect : w.questionsCorrect = correctFor answers w.topic := by
      rw [hval]
    have hacc : w.accuracy = percentOf w.questionsCorrect w.questionsAsked := by
      rw [hasked, hcorrect, hval]
    refine ⟨hasked, hcorrect, ?_⟩
    rw [hacc]
    apply percentOf_spec
    · rw [hasked]
      exact askedFor_pos answers w.topic ht
    · rw [hcorrect]
      exact lt_of_le_of_lt (correctFor_le_length answers w.topic) hlen

/-- The scenario of C13: topics A, A, B, B answered right, wrong, right, right give the entries
(A, 2, 1, 50) and (B, 2, 2, 100). -/
theorem calculateWeakTopics_entries_witness :
    calculateWeakTopics scenarioAnswers =
        [⟨"A", 2, 1, JSNumber.ofNat 50⟩, ⟨"B", 2, 2, JSNumber.ofNat 100⟩] ∧
      ((calculateWeakTopics scenarioAnswers).map (fun w => w.topic)).Nodup :=
  ⟨by decide,
    (calculateWeakTopics_entries scenarioAnswers (by decide) (by decide)).1⟩

theorem differencePositive_self (x : JSNumber) : x.differencePositive x = false := by
  cases x <;> simp [JSNumber.differencePositive]

theorem differencePositive_ofNat (x y : Nat) :
    (!(JSNumber.ofNat x).differencePositive (JSNumber.ofNat y)) = decide (x ≤ y) := by
  simp only [JSNumber.differencePositive, JSNumber.ofNat, pow_zero, Nat.mul_one]
  by_cases h : x ≤ y
  · simp [h]
  · simp [h]
    omega

theorem natValue_ofNat (k : Nat) : (JSNumber.ofNat k).natValue = k := by
  simp [JSNumber.natValue, JSNumber.ofNat]

/-- Every derived entry: at least one question, no more correct than asked, accuracy a whole
number up to 100. -/
theorem calculateWeakTopics_bounds (answers : List Answer) (w : WeakTopic)
    (hw : w ∈ calculateWeakTopics answers) :
    1 ≤ w.questionsAsked ∧ w.questionsCorrect ≤ w.questionsAsked ∧
      w.accuracy = percentOf w.questionsCorrect w.questionsAsked ∧
      ∃ k : Nat, w.accuracy = JSNumber.ofNat k ∧ k ≤ 100 := by
  obtain ⟨ht, -, hval⟩ := (mem_calculateWeakTopics answers w).mp hw
  have hasked : w.questionsAsked = askedFor answers w.topic := by
    rw [hval]
  have hcorrect : w.questionsCorrect = correctFor answers w.topic := by
    rw [hval]
  have hacc : w.accuracy = percentOf w.questionsCorrect w.questionsAsked := by
    rw [hasked, hcorrect, hval]
  have h1 : 1 ≤ w.questionsAsked := hasked ▸ askedFor_pos answers w.topic ht
  have h2 : w.questionsCorrect ≤ w.questionsAsked := by
    rw [hasked, hcorrect]
    exact correctFor_le_askedFor answers w.topic
  refine ⟨h1, h2, hacc, ?_⟩
  rw [hacc]
  exact percentOf_le_hundred _ _ h1 h2

/-- C14, as stated, fails: the topics "b" and "1" are collected in this order and both have
accuracy 100, yet the derived list has "1" before "b" (`Object.values` lists array-index
names first). -/
theorem calculateWeakTopics_ties_not_collection_order :
    firstSeen ([answerOn "b" true, answerOn "1" true].map topicOf) = ["b", "1"] ∧
      calculateWeakTopics [answerOn "b" true, answerOn "1" true] =
        [⟨"1", 1, 1, JSNumber.ofNat 100⟩, ⟨"b", 1, 1, JSNumber.ofNat 100⟩] := by
  decide

/-- C14, amended. The derived list is sorted ascending by accuracy (for positions `i < j`,
`accuracy[i] <= accuracy[j]`, the accuracies being whole numbers); it is a permutation of the
per-topic statistics; and entries of equal accuracy keep the relative order of
`Object.values(topicStats)`, which, when no topic is an array-index name (nor a property name of
`Object.prototype`), is the order in which the topics were first collected. -/
theorem calculateWeakTopics_sorted (answers : List Answer) :
    (calculateWeakTopics answers).Pairwise
        (fun a b => a.accuracy.natValue ≤ b.accuracy.natValue) ∧
      (∀ w ∈ calculateWeakTopics answers, w.accuracy = JSNumber.ofNat w.accuracy.natValue) ∧
      (calculateWeakTopics answers).Perm
        ((JSDict.values (answers.foldl recordAnswer [])).map withAccuracy) ∧
      (∀ acc : JSNumber,
        (calculateWeakTopics answers).filter (fun w => w.accuracy == acc) =
          ((JSDict.values (answers.foldl recordAnswer [])).map withAccuracy).filter
            (fun w => w.accuracy == acc)) ∧
      ((∀ a ∈ answers, arrayIndex? (topicOf a) = none) →
        (∀ a ∈ answers, topicOf a ∉ objectPrototypeKeys) →
        ((JSDict.values (answers.foldl recordAnswer [])).map withAccuracy).map
            (fun w => w.topic) =
          firstSeen (answers.map topicOf)) := by
  have hnat : ∀ w ∈ calculateWeakTopics answers,
      w.accuracy = JSNumber.ofNat w.accuracy.natValue := by
    intro w hw
    obtain ⟨-, -, -, k, hk, -⟩ := calculateWeakTopics_bounds answers w hw
    rw [hk, natValue_ofNat]
  have hperm : (calculateWeakTopics answers).Perm
      ((JSDict.values (answers.foldl recordAnswer [])).map withAccuracy) := by
    unfold calculateWeakTopics
    exact stableSortBy_perm _ _
  refine ⟨?_, hnat, hperm, fun acc => ?_, fun hidx hproto => ?_⟩
  · unfold calculateWeakTopics
    simp only []
    apply stableSortBy_pairwise
    intro a ha b hb
    have ha2 := hnat a (hperm.mem_iff.mpr ha)
    have hb2 := hnat b (hperm.mem_iff.mpr hb)
    rw [ha2, hb2, differencePositive_ofNat, natValue_ofNat, natValue_ofNat]
  · unfold calculateWeakTopics
    simp only []
    apply stableSortBy_filter
    intro a b hle ha
    rw [beq_iff_eq] at ha
    have hpos : a.accuracy.differencePositive b.accuracy = true := by simpa using hle
    rw [Bool.eq_false_iff]
    intro hb
    rw [beq_iff_eq] at hb
    rw [ha, hb, differencePositive_self] at hpos
    exact Bool.false_ne_true hpos
  · obtain ⟨-, h2, -⟩ := topicStats_entries answers
    have hkeys := keys_foldl_upsert topicOf (fun k => (⟨k, 0, 0⟩ : TopicStat))
      (fun (a : Answer) (stat : TopicStat) =>
        ({ stat with
          questionsAsked := stat.questionsAsked + 1
          questionsCorrect :=
            if a.isCorrect then stat.questionsCorrect + 1 else stat.questionsCorrect } :
          TopicStat)) answers
    have hfold : answers.foldl (fun (d : JSDict TopicStat) i =>
        d.upsert (topicOf i) (⟨topicOf i, 0, 0⟩ : TopicStat)
          (fun (stat : TopicStat) =>
            ({ stat with
              questionsAsked := stat.questionsAsked + 1
              questionsCorrect :=
                if i.isCorrect then stat.questionsCorrect + 1 else stat.questionsCorrect } :
              TopicStat))) [] = answers.foldl recordAnswer [] := rfl
    rw [hfold] at hkeys
    have hfilter : (answers.map topicOf).filter (fun k => !objectPrototypeKeys.contains k) =
        answers.map topicOf := by
      rw [List.filter_eq_self]
      intro t ht
      obtain ⟨a, ha, rfl⟩ := List.mem_map.mp ht
      simpa using hproto a ha
    rw [hfilter] at hkeys
    rw [← hkeys, values_of_no_index, List.map_map, List.map_map]
    · apply List.map_congr_left
      intro p hp
      obtain ⟨-, -, g3⟩ := h2 p hp
      simp only [Function.comp, withAccuracy]
      rw [g3]
    · intro p hp
      obtain ⟨-, g2, -⟩ := h2 p hp
      obtain ⟨a, ha, hat⟩ := List.mem_map.mp g2
      rw [← hat]
      exact hidx a ha

/-- An instance of C14: with the topics "B" (one of two correct) and "A" (both correct)
collected in this order the derived list is sorted, "B" (50) before "A" (100), and the order of
`Object.values` is the collection order. -/
theorem calculateWeakTopics_sorted_witness :
    (calculateWeakTopics
        [answerOn "B" true, answerOn "A" true, answerOn "B" false, answerOn "A" true]).map
          (fun w => w.topic) = ["B", "A"] ∧
      ((JSDict.values
        ([answerOn "B" true, answerOn "A" true, answerOn "B" false,
          answerOn "A" true].foldl recordAnswer [])).map withAccuracy).map (fun w => w.topic) =
        firstSeen
          ([answerOn "B" true, answerOn "A" true, answerOn "B" false, answerOn "A" true].map
            topicOf) :=
  ⟨by decide,
    (calculateWeakTopics_sorted
      [answerOn "B" true, answerOn "A" true, answerOn "B" false, answerOn "A" true]).2.2.2.2
      (by decide) (by decide)⟩

/-- C15. Every entry derived by `calculateWeakTopics` has `questionsAsked >= 1` (the accuracy
division is never by zero), `0 <= questionsCorrect <= questionsAsked`, and an accuracy that is
a whole number between 0 and 100. -/
theorem calculateWeakTopics_accuracy_bounds (answers : List Answer) :
    ∀ w ∈ calculateWeakTopics answers,
      1 ≤ w.questionsAsked ∧ 0 ≤ w.questionsCorrect ∧ w.questionsCorrect ≤ w.questionsAsked ∧
        ∃ k : Nat, w.accuracy = JSNumber.ofNat k ∧ 0 ≤ k ∧ k ≤ 100 := by
  intro w hw
  obtain ⟨h1, h2, -, k, hk, hk100⟩ := calculateWeakTopics_bounds answers w hw
  exact ⟨h1, Nat.zero_le _, h2, k, hk, Nat.zero_le _, hk100⟩

/-- An instance of C15: the entry of topic "A" in the scenario quiz, one of two correct. -/
theorem calculateWeakTopics_accuracy_bounds_witness :
    (⟨"A", 2, 1, JSNumber.ofNat 50⟩ : WeakTopic) ∈ calculateWeakTopics scenarioAnswers ∧
      1 ≤ (⟨"A", 2, 1, JSNumber.ofNat 50⟩ : WeakTopic).questionsAsked :=
  ⟨by decide,
    (calculateWeakTopics_accuracy_bounds scenarioAnswers ⟨"A", 2, 1, JSNumber.ofNat 50⟩
      (by decide)).1⟩

/-- C16, as stated, fails: 200 answers on one topic with 199 correct give accuracy 100
(`(199 / 200) * 100` is 99.5), although `questionsCorrect` differs from `questionsAsked`. -/
theorem calculateWeakTopics_hundred_not_all_correct :
    calculateWeakTopics twoHundredOnOneTopic = [⟨"A", 200, 199, JSNumber.ofNat 100⟩] := by
  set_option maxRecDepth 1000000 in decide

/-- C16, amended. For every entry derived by `calculateWeakTopics`: if `questionsCorrect`
equals `questionsAsked` the accuracy is 100; and for an entry with fewer than 200 questions
asked, the accuracy is 100 if and only if `questionsCorrect` equals `questionsAsked`. -/
theorem calculateWeakTopics_hundred_iff (answers : List Answer) :
    ∀ w ∈ calculateWeakTopics answers,
      (w.questionsCorrect = w.questionsAsked → w.accuracy = JSNumber.ofNat 100) ∧
        (w.questionsAsked < 200 →
          (w.accuracy = JSNumber.ofNat 100 ↔ w.questionsCorrect = w.questionsAsked)) := by
  intro w hw
  obtain ⟨h1, h2, hacc, -⟩ := calculateWeakTopics_bounds answers w hw
  have hfull : w.questionsCorrect = w.questionsAsked → w.accuracy = JSNumber.ofNat 100 := by
    intro heq
    rw [hacc, heq]
    exact percentOf_full _ h1
  refine ⟨hfull, fun hsmall => ⟨fun h100 => ?_, hfull⟩⟩
  by_contra hne
  have hlt : w.questionsCorrect < w.questionsAsked := lt_of_le_of_ne h2 hne
  obtain ⟨k, hk, hk100⟩ := percentOf_lt_hundred _ _ hlt hsmall
  rw [hacc, hk] at h100
  simp only [JSNumber.ofNat, JSNumber.finite.injEq, Dbl.mk.injEq, and_true] at h100
  omega

/-- An instance of C16: in the scenario quiz topic "B" has both answers correct and accuracy
100. -/
theorem calculateWeakTopics_hundred_iff_witness :
    (⟨"B", 2, 2, JSNumber.ofNat 100⟩ : WeakTopic) ∈ calculateWeakTopics scenarioAnswers ∧
      (⟨"B", 2, 2, JSNumber.ofNat 100⟩ : WeakTopic).accuracy = JSNumber.ofNat 100 :=
  ⟨by decide,
    (calculateWeakTopics_hundred_iff scenarioAnswers ⟨"B", 2, 2, JSNumber.ofNat 100⟩
      (by decide)).1 rfl⟩

/-! ## Study-session durations and the running quiz average -/

theorem mathRoundQuotient_nonneg (x : Int) (d : Nat) (hx : 0 ≤ x) :
    0 ≤ mathRoundQuotient x d := by
  unfold mathRoundQuotient
  rw [if_pos hx]
  exact Int.natCast_nonneg _

/-- `Math.round` of a negative quotient is never positive, and it is negative once the
magnitude of the quotient exceeds one half. -/
theorem mathRoundQuotient_of_neg (x : Int) (d : Nat) (hx : x < 0) (hd : 0 < d)
    (hd2 : d + 1 < 2 ^ 53) :
    mathRoundQuotient x d ≤ 0 ∧ ((d : Int) < 2 * (-x) → mathRoundQuotient x d < 0) := by
  unfold mathRoundQuotient
  rw [if_neg (by omega)]
  simp only []
  have herr := roundToDouble_error (-x).toNat d hd
  have hnn := Dbl.toRat_nonneg (roundToDouble (-x).toNat d)
  generalize roundToDouble (-x).toNat d = q at herr hnn
  have hP : (0 : Int) < 2 ^ (q.scale + 1) := by positivity
  have hpow : (2 : Int) ^ (q.scale + 1) = 2 * 2 ^ q.scale := by ring
  have hPs : (0 : Int) < 2 ^ q.scale := by positivity
  constructor
  · have hlt : -(2 * (q.num : Int)) + 2 ^ q.scale < 2 ^ (q.scale + 1) := by
      rw [hpow]
      have : (0 : Int) ≤ q.num := Int.natCast_nonneg _
      omega
    have := Int.ediv_lt_of_lt_mul hP (by rw [Int.one_mul]; exact hlt)
    omega
  · intro hbig
    -- the magnitude of the quotient is at least `(d + 1) / (2 d)`, and so is above one half
    -- after rounding
    have hn : d + 1 ≤ 2 * (-x).toNat := by omega
    have hnq : ((d : ℚ) + 1) ≤ 2 * ((-x).toNat : ℚ) := by exact_mod_cast hn
    have hdq : (0 : ℚ) < d := by exact_mod_cast hd
    have hd2q : (d : ℚ) + 1 < 2 ^ 53 := by exact_mod_cast hd2
    rw [abs_le] at herr
    have hval : (1 : ℚ) / 2 < q.toRat := by
      have hq : ((d : ℚ) + 1) / (2 * d) ≤ ((-x).toNat : ℚ) / d := by
        rw [div_le_div_iff₀ (by positivity) hdq]
        nlinarith
      have hq0 : (0 : ℚ) ≤ ((-x).toNat : ℚ) / d := by positivity
      have hlow : ((-x).toNat : ℚ) / d * (1 - 1 / 2 ^ 53) ≤ q.toRat := by
        have : ((-x).toNat : ℚ) / d * (1 - 1 / 2 ^ 53) =
            ((-x).toNat : ℚ) / d - ((-x).toNat : ℚ) / d / 2 ^ 53 := by ring
        rw [this]
        linarith [herr.1]
      have hstep : ((d : ℚ) + 1) / (2 * d) * (1 - 1 / 2 ^ 53) ≤
          ((-x).toNat : ℚ) / d * (1 - 1 / 2 ^ 53) :=
        mul_le_mul_of_nonneg_right hq (by norm_num)
      have hhalf : (1 : ℚ) / 2 < ((d : ℚ) + 1) / (2 * d) * (1 - 1 / 2 ^ 53) := by
        rw [div_mul_eq_mul_div, lt_div_iff₀ (by positivity)]
        have : ((d : ℚ) + 1) * (1 / 2 ^ 53) < 1 := by
          rw [mul_one_div, div_lt_one (by positivity)]
          exact hd2q
        nlinarith
      linarith
    unfold Dbl.toRat at hval
    have hPq : (0 : ℚ) < 2 ^ q.scale := by positivity
    rw [lt_div_iff₀ hPq] at hval
    have hnum : (2 : Int) ^ q.scale < 2 * q.num := by
      have : (2 : ℚ) ^ q.scale < 2 * q.num := by linarith
      exact_mod_cast this
    have hneg : -(2 * (q.num : Int)) + 2 ^ q.scale < 0 := by omega
    exact Int.ediv_neg' hneg hP

theorem completeSession_with_times (s : StudySession) (startTime endTime : Int)
    (hs : s.startTime = some startTime) (he : s.endTime = some endTime) :
    s.completeSession =
      { s with
        actual := some (mathRoundQuotient (endTime - startTime) (1000 * 60)),
        completed := true } := by
  unfold StudySession.completeSession
  rw [hs, he]

theorem completeSession_completed (s : StudySession) : s.completeSession.completed = true := by
  unfold StudySession.completeSession
  split
  · rfl
  · split_ifs <;> rfl

theorem completeSession_actual_set (s : StudySession) : s.completeSession.actual ≠ none := by
  unfold StudySession.completeSession
  split
  · simp
  · split_ifs with h
    · simp
    · simp only
      intro hc
      exact h (Or.inl hc)

/-- C17. The study-session method `completeSession` always sets `completed = true`; with start
and end time present and `end >= start` the actual duration is round-half-up of their
difference in milliseconds over 60000 (for a difference below `2 ^ 52` ms); with no end time
and no actual duration recorded it is the planned duration; in every case the actual duration
is set afterwards. -/
theorem studySession_completeSession (s : StudySession) :
    s.completeSession.completed = true ∧
      (∀ startTime endTime, s.startTime = some startTime → s.endTime = some endTime →
        startTime ≤ endTime → endTime - startTime < 2 ^ 52 →
        s.completeSession.actual =
          some ((roundHalfUp (endTime - startTime).toNat 60000 : Nat) : Int)) ∧
      (s.endTime = none → s.actual = none → s.completeSession.actual = some s.planned) ∧
      s.completeSession.actual ≠ none := by
  refine ⟨completeSession_completed s, ?_, ?_, completeSession_actual_set s⟩
  · intro startTime endTime hs he hle hlt
    rw [completeSession_with_times s startTime endTime hs he]
    simp only
    rw [mathRoundQuotient_of_nonneg _ _ (by omega) (by norm_num) hlt]
  · intro he ha
    unfold StudySession.completeSession
    rw [he]
    cases hst : s.startTime <;> simp [ha]

/-- The scenario of C17: a session completed 125 seconds after its start has an actual
duration of 2 minutes. -/
theorem studySession_completeSession_witness :
    (completeSessionRoute ⟨30, none, some 1700000000000, none, false⟩
        (1700000000000 + 125000)).actual = some 2 ∧
      (StudySession.completeSession
        ⟨30, none, some 1700000000000, some (1700000000000 + 125000), false⟩).actual =
        some ((roundHalfUp ((1700000000000 + 125000 : Int) - 1700000000000).toNat 60000 : Nat) :
          Int) :=
  ⟨by decide,
    (studySession_completeSession
      ⟨30, none, some 1700000000000, some (1700000000000 + 125000), false⟩).2.1
      1700000000000 (1700000000000 + 125000) rfl rfl (by decide) (by decide)⟩

/-- C18, as stated, fails: a session whose end time lies 125 seconds before its start time gets
the actual duration -2, not 0. -/
theorem studySession_negative_duration :
    (StudySession.completeSession ⟨30, none, some 125000, some 0, false⟩).actual =
      some (-2) := by
  decide

/-- C18, amended. There is no clamp: for a session whose end time is earlier than its start
time `completeSession` sets the actual duration to `Math.round` of the negative quotient, which
is never positive and is negative once the end time is more than 30 seconds before the start
time. Through the route, which sets the end time to the current time, the actual duration is
never negative as long as the clock is not behind the start time. -/
theorem studySession_no_clamp (s : StudySession) (startTime : Int)
    (hs : s.startTime = some startTime) :
    (∀ endTime, s.endTime = some endTime → endTime < startTime →
      ∃ v, s.completeSession.actual = some v ∧ v ≤ 0 ∧
        (30000 < startTime - endTime → v < 0)) ∧
      (∀ now, startTime ≤ now →
        ∃ v, (completeSessionRoute s now).actual = some v ∧ 0 ≤ v) := by
  constructor
  · intro endTime he hlt
    rw [completeSession_with_times s startTime endTime hs he]
    obtain ⟨h1, h2⟩ := mathRoundQuotient_of_neg (endTime - startTime) (1000 * 60) (by omega)
      (by norm_num) (by norm_num)
    refine ⟨_, rfl, h1, fun hgap => h2 ?_⟩
    push_cast
    omega
  · intro now hle
    unfold completeSessionRoute
    rw [completeSession_with_times { s with endTime := some now } startTime now hs rfl]
    exact ⟨_, rfl, mathRoundQuotient_nonneg _ _ (by omega)⟩

/-- An instance of C18: the end time 31 seconds before the start time gives a negative actual
duration. -/
theorem studySession_no_clamp_witness :
    ∃ v, (StudySession.completeSession ⟨30, none, some 31000, some 0, false⟩).actual = some v ∧
      v ≤ 0 ∧ (30000 < (31000 : Int) - 0 → v < 0) :=
  (studySession_no_clamp ⟨30, none, some 31000, some 0, false⟩ 31000 rfl).1 0 rfl (by decide)

/-- C19. Quiz submission for an existing user: `totalQuizzesTaken` becomes the old count plus 1
and `averageQuizScore` becomes round-half-up of `(oldAvg * oldCount + score) / (oldCount + 1)`
(whole-number scores, the sum below `2 ^ 52`); for a first quiz the new average is the
score. -/
theorem submitQuizStats_average (stats : QuizStats) (score : Nat)
    (hsize : stats.averageQuizScore * stats.totalQuizzesTaken + score < 2 ^ 52) :
    (submitQuizStats stats score).totalQuizzesTaken = stats.totalQuizzesTaken + 1 ∧
      (submitQuizStats stats score).averageQuizScore =
        roundHalfUp (stats.averageQuizScore * stats.totalQuizzesTaken + score)
          (stats.totalQuizzesTaken + 1) ∧
      (stats.totalQuizzesTaken = 0 → (submitQuizStats stats score).averageQuizScore = score) := by
  have havg : (submitQuizStats stats score).averageQuizScore =
      roundHalfUp (stats.averageQuizScore * stats.totalQuizzesTaken + score)
        (stats.totalQuizzesTaken + 1) := by
    unfold submitQuizStats
    simp only []
    rw [mathRoundQuotient_of_nonneg _ _ (Int.natCast_nonneg _) (by omega)
      (by exact_mod_cast hsize)]
    simp only [Int.toNat_ofNat]
  refine ⟨rfl, havg, fun h0 => ?_⟩
  rw [havg, h0]
  unfold roundHalfUp
  simp only [Nat.mul_zero, Nat.zero_add]
  omega

/-- An instance of C19: an average of 80 over 3 quizzes and a new score of 95 give 4 quizzes
and the average `round(335 / 4) = 84`. -/
theorem submitQuizStats_average_witness :
    submitQuizStats ⟨3, 80⟩ 95 = ⟨4, 84⟩ ∧
      (submitQuizStats ⟨3, 80⟩ 95).averageQuizScore = roundHalfUp (80 * 3 + 95) (3 + 1) :=
  ⟨by decide, (submitQuizStats_average ⟨3, 80⟩ 95 (by decide)).2.1⟩

/-! ## Dashboard weak topics -/

theorem collectWeakTopics_eq_foldl (quizResults : List QuizResult) :
    collectWeakTopics quizResults = (storedEntries quizResults).foldl addWeakTopic [] := by
  unfold collectWeakTopics storedEntries
  generalize ([] : JSDict TopicTotals) = acc
  induction quizResults generalizing acc with
  | nil => rfl
  | cons q qs ih =>
    rw [List.foldl_cons, ih, List.flatMap_cons, List.foldl_append]

theorem totals_foldl (l : List WeakTopic) (st : TopicTotals) :
    l.foldl (fun acc (wt : WeakTopic) =>
        ({ acc with
          totalAsked := acc.totalAsked + wt.questionsAsked
          totalCorrect := acc.totalCorrect + wt.questionsCorrect } : TopicTotals)) st =
      ⟨st.topic, st.totalAsked + (l.map (fun wt => wt.questionsAsked)).sum,
        st.totalCorrect + (l.map (fun wt => wt.questionsCorrect)).sum⟩ := by
  induction l generalizing st with
  | nil => simp
  | cons a as ih =>
    rw [List.foldl_cons, ih]
    simp only [List.map_cons, List.sum_cons]
    congr 1 <;> omega

/-- The entries of the `allWeakTopics` object after all quiz results. -/
theorem collectWeakTopics_entries (quizResults : List QuizResult) :
    ((collectWeakTopics quizResults).map (fun p => p.1)).Nodup ∧
      (∀ p ∈ collectWeakTopics quizResults,
        p.1 ∉ objectPrototypeKeys ∧
          p.1 ∈ (storedEntries quizResults).map (fun wt => wt.topic) ∧
          p.2 = ⟨p.1, totalAskedFor (storedEntries quizResults) p.1,
            totalCorrectFor (storedEntries quizResults) p.1⟩) ∧
      (∀ wt ∈ storedEntries quizResults, wt.topic ∉ objectPrototypeKeys →
        wt.topic ∈ (collectWeakTopics quizResults).map (fun p => p.1)) := by
  rw [collectWeakTopics_eq_foldl]
  have h := dictInv_foldl (fun wt : WeakTopic => wt.topic) (fun k => (⟨k, 0, 0⟩ : TopicTotals))
    (fun (wt : WeakTopic) (t : TopicTotals) =>
      ({ t with
        totalAsked := t.totalAsked + wt.questionsAsked
        totalCorrect := t.totalCorrect + wt.questionsCorrect } : TopicTotals))
    (storedEntries quizResults)
  obtain ⟨h1, h2, h3⟩ := h
  refine ⟨h1, fun p hp => ?_, h3⟩
  obtain ⟨g1, g2, g3⟩ := h2 p hp
  refine ⟨g1, g2, ?_⟩
  rw [g3]
  unfold groupValue
  rw [totals_foldl]
  simp only [Nat.zero_add, totalAskedFor, totalCorrectFor]

theorem sortedDashboardTopics_perm (quizResults : List QuizResult) :
    (sortedDashboardTopics quizResults).Perm
      ((collectWeakTopics quizResults).map (fun p => toDashboardTopic p.2)) := by
  unfold sortedDashboardTopics
  refine (stableSortBy_perm _ _).trans ?_
  have := (values_perm (collectWeakTopics quizResults)).map toDashboardTopic
  rw [List.map_map] at this
  exact this

theorem dashboardWeakTopics_eq_take (quizResults : List QuizResult) :
    dashboardWeakTopics quizResults = (sortedDashboardTopics quizResults).take 5 := rfl

/-- A percentage with a non-zero divisor is a whole number. -/
theorem percentOf_whole (c a : Nat) (ha : 0 < a) : ∃ k : Nat, percentOf c a = JSNumber.ofNat k := by
  obtain ⟨d, hd, -⟩ := percentOf_error c a ha
  obtain ⟨k, hk, -, -⟩ := mathRound_spec d
  exact ⟨k, hd.trans hk⟩

theorem sum_filter_le (entries : List WeakTopic) (f : WeakTopic → Nat) (p : WeakTopic → Bool) :
    ((entries.filter p).map f).sum ≤ (entries.map f).sum := by
  induction entries with
  | nil => simp
  | cons e es ih =>
    by_cases h : p e = true
    · rw [List.filter_cons_of_pos h]
      simp only [List.map_cons, List.sum_cons]
      omega
    · rw [List.filter_cons_of_neg h]
      simp only [List.map_cons, List.sum_cons]
      omega

theorem totalAskedFor_pos (entries : List WeakTopic) (t : String)
    (hpos : ∀ wt ∈ entries, 1 ≤ wt.questionsAsked)
    (ht : t ∈ entries.map (fun wt => wt.topic)) : 1 ≤ totalAskedFor entries t := by
  obtain ⟨wt, hwt, rfl⟩ := List.mem_map.mp ht
  unfold totalAskedFor
  have hmem : wt.questionsAsked ∈
      (entries.filter (fun x => x.topic == wt.topic)).map (fun x => x.questionsAsked) :=
    List.mem_map.mpr ⟨wt, List.mem_filter.mpr ⟨hwt, by simp⟩, rfl⟩
  exact le_trans (hpos wt hwt) (List.single_le_sum (fun _ _ => Nat.zero_le _) _ hmem)

/-- What the sorted list of all topics holds. -/
theorem mem_sortedDashboardTopics (quizResults : List QuizResult) (e : DashboardTopic)
    (he : e ∈ sortedDashboardTopics quizResults) :
    e.topic ∈ (storedEntries quizResults).map (fun wt => wt.topic) ∧
      e.questionsAsked = totalAskedFor (storedEntries quizResults) e.topic ∧
      e.accuracy = percentOf (totalCorrectFor (storedEntries quizResults) e.topic)
        (totalAskedFor (storedEntries quizResults) e.topic) := by
  obtain ⟨-, h2, -⟩ := collectWeakTopics_entries quizResults
  rw [(sortedDashboardTopics_perm quizResults).mem_iff, List.mem_map] at he
  obtain ⟨p, hp, rfl⟩ := he
  obtain ⟨-, g2, g3⟩ := h2 p hp
  rw [g3]
  exact ⟨g2, rfl, rfl⟩

theorem sortedDashboardTopics_topics (quizResults : List QuizResult) :
    ((sortedDashboardTopics quizResults).map (fun e => e.topic)).Perm
      ((collectWeakTopics quizResults).map (fun p => p.1)) := by
  obtain ⟨-, h2, -⟩ := collectWeakTopics_entries quizResults
  refine ((sortedDashboardTopics_perm quizResults).map (fun e => e.topic)).trans ?_
  rw [List.map_map]
  have : (collectWeakTopics quizResults).map
      ((fun e => e.topic) ∘ fun p => toDashboardTopic p.2) =
      (collectWeakTopics quizResults).map (fun p => p.1) := by
    apply List.map_congr_left
    intro p hp
    obtain ⟨-, -, g3⟩ := h2 p hp
    simp only [Function.comp, toDashboardTopic]
    rw [g3]
  rw [this]

/-- C20, as stated, fails: for a single stored entry of 23 correct out of 40 on topic "A" the
dashboard reports accuracy 57, while round-half-up of `100 * 23 / 40 = 57.5` is 58. -/
theorem dashboardWeakTopics_not_round_half_up :
    dashboardWeakTopics [halfwayQuiz] = [⟨"A", JSNumber.ofNat 57, 40⟩] ∧
      roundHalfUp (100 * totalCorrectFor (storedEntries [halfwayQuiz]) "A")
        (totalAskedFor (storedEntries [halfwayQuiz]) "A") = 58 := by
  decide

/-- C20, amended. For stored weak-topic entries with `questionsAsked >= 1` and topics that are
no property names of `Object.prototype` (as `calculateWeakTopics` derives them; fewer than
`2 ^ 32` correct answers in all), the dashboard's list is the first 5 entries (or all, if
fewer) of a list that holds every stored topic exactly once, sorted ascending by accuracy, with
`questionsAsked` the sum over the topic's entries and the accuracy a whole number: round-half-up
of `100 * totalCorrect / totalAsked`, or one less when that quotient lies exactly halfway
between two integers. So the output has at most 5 entries, no topic twice, and no omitted topic
has a lower accuracy than an included one. -/
theorem dashboardWeakTopics_spec (quizResults : List QuizResult)
    (hstored : ∀ wt ∈ storedEntries quizResults,
      1 ≤ wt.questionsAsked ∧ wt.topic ∉ objectPrototypeKeys)
    (hsize : ((storedEntries quizResults).map (fun wt => wt.questionsCorrect)).sum < 2 ^ 32) :
    dashboardWeakTopics quizResults = (sortedDashboardTopics quizResults).take 5 ∧
      ((sortedDashboardTopics quizResults).map (fun e => e.topic)).Nodup ∧
      (∀ t, t ∈ (sortedDashboardTopics quizResults).map (fun e => e.topic) ↔
        t ∈ (storedEntries quizResults).map (fun wt => wt.topic)) ∧
      (sortedDashboardTopics quizResults).Pairwise
        (fun a b => a.accuracy.natValue ≤ b.accuracy.natValue) ∧
      (∀ e ∈ sortedDashboardTopics quizResults,
        e.questionsAsked = totalAskedFor (storedEntries quizResults) e.topic ∧
        ∃ k : Nat, e.accuracy = JSNumber.ofNat k ∧
          (k = roundHalfUp (100 * totalCorrectFor (storedEntries quizResults) e.topic)
                (totalAskedFor (storedEntries quizResults) e.topic) ∨
            ((200 * totalCorrectFor (storedEntries quizResults) e.topic) %
                (2 * totalAskedFor (storedEntries quizResults) e.topic) =
                totalAskedFor (storedEntries quizResults) e.topic ∧
              k + 1 = roundHalfUp (100 * totalCorrectFor (storedEntries quizResults) e.topic)
                (totalAskedFor (storedEntries quizResults) e.topic)))) ∧
      (dashboardWeakTopics quizResults).length ≤ 5 ∧
      ((dashboardWeakTopics quizResults).map (fun e => e.topic)).Nodup ∧
      (∀ e ∈ dashboardWeakTopics quizResults, ∀ o ∈ sortedDashboardTopics quizResults,
        o ∉ dashboardWeakTopics quizResults → e.accuracy.natValue ≤ o.accuracy.natValue) := by
  obtain ⟨h1, h2, h3⟩ := collectWeakTopics_entries quizResults
  have hpos : ∀ wt ∈ storedEntries quizResults, 1 ≤ wt.questionsAsked :=
    fun wt hwt => (hstored wt hwt).1
  have hnodup : ((sortedDashboardTopics quizResults).map (fun e => e.topic)).Nodup :=
    (sortedDashboardTopics_topics quizResults).nodup_iff.mpr h1
  have hwhole : ∀ e ∈ sortedDashboardTopics quizResults,
      e.accuracy = JSNumber.ofNat e.accuracy.natValue := by
    intro e he
    obtain ⟨g1, -, g3⟩ := mem_sortedDashboardTopics quizResults e he
    obtain ⟨k, hk⟩ := percentOf_whole (totalCorrectFor (storedEntries quizResults) e.topic)
      (totalAskedFor (storedEntries quizResults) e.topic)
      (totalAskedFor_pos _ _ hpos g1)
    rw [g3, hk, natValue_ofNat]
  have hsorted : (sortedDashboardTopics quizResults).Pairwise
      (fun a b => a.accuracy.natValue ≤ b.accuracy.natValue) := by
    have hperm : (sortedDashboardTopics quizResults).Perm
        ((JSDict.values (collectWeakTopics quizResults)).map toDashboardTopic) := by
      unfold sortedDashboardTopics
      exact stableSortBy_perm _ _
    unfold sortedDashboardTopics
    apply stableSortBy_pairwise
    intro a ha b hb
    have ha2 := hwhole a (hperm.mem_iff.mpr ha)
    have hb2 := hwhole b (hperm.mem_iff.mpr hb)
    rw [ha2, hb2, differencePositive_ofNat, natValue_ofNat, natValue_ofNat]
  refine ⟨rfl, hnodup, fun t => ?_, hsorted, fun e he => ?_, ?_, ?_, ?_⟩
  · rw [(sortedDashboardTopics_topics quizResults).mem_iff]
    constructor
    · intro ht
      obtain ⟨p, hp, rfl⟩ := List.mem_map.mp ht
      exact (h2 p hp).2.1
    · intro ht
      obtain ⟨wt, hwt, rfl⟩ := List.mem_map.mp ht
      exact h3 wt hwt (hstored wt hwt).2
  · obtain ⟨g1, g2, g3⟩ := mem_sortedDashboardTopics quizResults e he
    refine ⟨g2, ?_⟩
    rw [g3]
    apply percentOf_spec
    · exact totalAskedFor_pos _ _ hpos g1
    · exact lt_of_le_of_lt (sum_filter_le _ _ _) hsize
  · rw [dashboardWeakTopics_eq_take, List.length_take]
    omega
  · rw [dashboardWeakTopics_eq_take, List.map_take]
    exact hnodup.sublist (List.take_sublist _ _)
  · intro e he o ho hnot
    rw [dashboardWeakTopics_eq_take] at he hnot
    have hsplit := List.take_append_drop 5 (sortedDashboardTopics quizResults)
    have hod : o ∈ (sortedDashboardTopics quizResults).drop 5 := by
      rw [← hsplit, List.mem_append] at ho
      rcases ho with ho | ho
      · exact absurd ho hnot
      · exact ho
    rw [← hsplit, List.pairwise_append] at hsorted
    exact hsorted.2.2 e he o hod

/-- An instance of C20: two quiz results over seven topics; the dashboard lists the five
weakest, T7 (0), T5 (10), T1 (50), T2 (50) and T6 (67), and leaves out T4 (80) and T3 (100). -/
theorem dashboardWeakTopics_spec_witness :
    dashboardWeakTopics sevenTopicQuizzes =
        [⟨"T7", JSNumber.ofNat 0, 2⟩, ⟨"T5", JSNumber.ofNat 10, 10⟩, ⟨"T1", JSNumber.ofNat 50, 2⟩,
          ⟨"T2", JSNumber.ofNat 50, 8⟩, ⟨"T6", JSNumber.ofNat 67, 3⟩] ∧
      (dashboardWeakTopics sevenTopicQuizzes).length ≤ 5 :=
  ⟨by decide, (dashboardWeakTopics_spec sevenTopicQuizzes (by decide) (by decide)).2.2.2.2.2.1⟩

/-! ## Dashboard aggregation without a zero guard -/

theorem totalCorrectFor_le (entries : List WeakTopic) (t : String)
    (h : ∀ wt ∈ entries, wt.questionsCorrect ≤ wt.questionsAsked) :
    totalCorrectFor entries t ≤ totalAskedFor entries t := by
  unfold totalCorrectFor totalAskedFor
  induction entries with
  | nil => simp
  | cons wt rest ih =>
    have ih2 := ih (fun x hx => h x (List.mem_cons_of_mem _ hx))
    have h1 := h wt (List.mem_cons_self _ _)
    by_cases hk : (wt.topic == t) = true
    · simp only [List.filter_cons, hk, if_true, List.map_cons, List.sum_cons]
      omega
    · simp only [List.filter_cons, hk, Bool.false_eq_true, if_false]
      exact ih2

/-- Claim C21, counterexample: a stored entry with `questionsAsked = 0` is output by the
dashboard with aggregate `questionsAsked = 0` and accuracy `NaN` (the value of
`Math.round((0 / 0) * 100)`). -/
theorem dashboardWeakTopics_zero_asked :
    dashboardWeakTopics [zeroAskedQuiz] = [⟨"A", JSNumber.nan, 0⟩] := by
  decide

/-- Claim C21, amended: when every stored weak-topic entry has `questionsAsked >= 1` and
`questionsCorrect <= questionsAsked` (what `calculateWeakTopics` stores), every topic of the
dashboard's list has an aggregate `questionsAsked` of at least 1 and a whole accuracy between 0
and 100. -/
theorem dashboardWeakTopics_guarded (quizResults : List QuizResult)
    (hstored : ∀ wt ∈ storedEntries quizResults,
      1 ≤ wt.questionsAsked ∧ wt.questionsCorrect ≤ wt.questionsAsked) :
    ∀ e ∈ dashboardWeakTopics quizResults, 1 ≤ e.questionsAsked ∧ IsPercentage e.accuracy := by
  intro e he
  rw [dashboardWeakTopics_eq_take] at he
  obtain ⟨h1, h2, h3⟩ := mem_sortedDashboardTopics quizResults e (List.mem_of_mem_take he)
  have hpos := totalAskedFor_pos (storedEntries quizResults) e.topic
    (fun wt hwt => (hstored wt hwt).1) h1
  refine ⟨by rw [h2]; exact hpos, ?_⟩
  rw [h3]
  exact percentOf_le_hundred _ _ hpos
    (totalCorrectFor_le _ _ (fun wt hwt => (hstored wt hwt).2))

/-- Claim C21, witness: the seven-topic quiz results. -/
theorem dashboardWeakTopics_guarded_witness :
    (∀ wt ∈ storedEntries sevenTopicQuizzes,
        1 ≤ wt.questionsAsked ∧ wt.questionsCorrect ≤ wt.questionsAsked) ∧
      ∀ e ∈ dashboardWeakTopics sevenTopicQuizzes,
        1 ≤ e.questionsAsked ∧ IsPercentage e.accuracy :=
  ⟨by decide, dashboardWeakTopics_guarded sevenTopicQuizzes (by decide)⟩

/-! ## Dashboard study time -/

theorem foldl_durationOf (sessions : List StudySession) (start : Int) :
    sessions.foldl (fun sum s => sum + durationOf s) start =
      start + (sessions.map durationOf).sum := by
  induction sessions generalizing start with
  | nil => simp
  | cons s rest ih =>
    simp only [List.foldl_cons, List.map_cons, List.sum_cons]
    rw [ih]
    ring

theorem durationOf_eq (s : StudySession) :
    durationOf s = if s.actual = some 0 then s.planned else recordedOrPlanned s := by
  unfold durationOf recordedOrPlanned
  cases h : s.actual with
  | none =>
    by_cases hp : s.planned = 0 <;> simp [hp]
  | some a =>
    by_cases ha : a = 0
    · subst ha
      by_cases hp : s.planned = 0 <;> simp [hp]
    · simp [ha]

/-- Claim C24, counterexample: a session planned for 30 minutes and completed 20 seconds after
its start has a recorded actual duration of 0 minutes, and the dashboard counts 30 for it, not
0. -/
theorem totalStudyTime_zero_actual :
    (completeSessionRoute plannedHalfHour 20000).actual = some 0 ∧
      totalStudyTime [completeSessionRoute plannedHalfHour 20000] = 30 ∧
      ([completeSessionRoute plannedHalfHour 20000].map recordedOrPlanned).sum = 0 := by
  decide

/-- Claim C24, amended: `totalStudyTime` is the sum over the sessions of the actual duration
when one is recorded and is not 0, and of the planned duration otherwise (a recorded actual
duration of 0 counts as the planned duration); so it is the sum of actual-when-recorded, else
planned, whenever no session has a recorded actual duration of 0; the empty list gives 0. -/
theorem totalStudyTime_spec (sessions : List StudySession) :
    totalStudyTime sessions =
        (sessions.map
          (fun s => if s.actual = some 0 then s.planned else recordedOrPlanned s)).sum ∧
      ((∀ s ∈ sessions, s.actual ≠ some 0) →
        totalStudyTime sessions = (sessions.map recordedOrPlanned).sum) ∧
      totalStudyTime [] = 0 := by
  have h1 : totalStudyTime sessions =
      (sessions.map
        (fun s => if s.actual = some 0 then s.planned else recordedOrPlanned s)).sum := by
    unfold totalStudyTime
    rw [foldl_durationOf, zero_add]
    congr 1
    exact List.map_congr_left (fun s _ => durationOf_eq s)
  refine ⟨h1, fun h => ?_, rfl⟩
  rw [h1]
  congr 1
  exact List.map_congr_left (fun s hs => by simp [h s hs])

/-- Claim C24, witness: one session with 25 recorded minutes and one with none recorded and 30
planned give 55. -/
theorem totalStudyTime_spec_witness :
    (∀ s ∈ [(⟨30, some 25, some 0, some 1500000, true⟩ : StudySession), plannedHalfHour],
        s.actual ≠ some 0) ∧
      totalStudyTime [⟨30, some 25, some 0, some 1500000, true⟩, plannedHalfHour] =
        ([(⟨30, some 25, some 0, some 1500000, true⟩ : StudySession), plannedHalfHour].map
          recordedOrPlanned).sum ∧
      totalStudyTime [⟨30, some 25, some 0, some 1500000, true⟩, plannedHalfHour] = 55 :=
  ⟨by decide,
    (totalStudyTime_spec [⟨30, some 25, some 0, some 1500000, true⟩, plannedHalfHour]).2.1
      (by decide),
    by decide⟩

/-! ## The detailed weak-topic view -/

theorem upsert_map {α β : Type} (g : α → β) (obj : JSDict α) (key : String) (init : α)
    (f : α → α) (f2 : β → β) (hg : ∀ v, g (f v) = f2 (g v)) :
    (obj.upsert key init f).map (fun p => (p.1, g p.2)) =
      JSDict.upsert (obj.map (fun p => (p.1, g p.2))) key (g init) f2 := by
  have ht : JSDict.truthyAt (obj.map (fun p => (p.1, g p.2))) key = obj.truthyAt key := by
    have hany : ∀ l : JSDict α,
        (l.map (fun p => (p.1, g p.2))).any (fun p => p.1 == key) =
          l.any (fun p => p.1 == key) := by
      intro l
      induction l with
      | nil => rfl
      | cons a as ih => simp only [List.map_cons, List.any_cons, ih]
    unfold JSDict.truthyAt
    rw [hany]
  have hfun : ∀ l : JSDict α,
      (l.map (fun p => if p.1 == key then (p.1, f p.2) else p)).map (fun p => (p.1, g p.2)) =
        (l.map (fun p => (p.1, g p.2))).map
          (fun p => if p.1 == key then (p.1, f2 p.2) else p) := by
    intro l
    rw [List.map_map, List.map_map]
    apply List.map_congr_left
    intro p _
    simp only [Function.comp]
    by_cases hk : (p.1 == key) = true
    · simp only [hk, if_true, hg]
    · simp only [hk, Bool.false_eq_true, if_false]
  unfold JSDict.upsert
  simp only [ht]
  by_cases h : obj.truthyAt key = true
  · simp only [h, Bool.not_true, Bool.false_eq_true, if_false]
    exact hfun obj
  · have h2 : obj.truthyAt key = false := by simpa using h
    simp only [h2, Bool.not_false, if_true]
    rw [hfun, List.map_append]
    rfl

theorem analyzeTopics_eq_foldl (quizResults : List QuizResult) :
    analyzeTopics quizResults =
      (attempts quizResults).foldl (fun d i => analyzeAnswer i.1 d i.2) [] := by
  unfold analyzeTopics attempts
  generalize ([] : JSDict TopicAnalysis) = acc
  induction quizResults generalizing acc with
  | nil => rfl
  | cons q qs ih =>
    rw [List.foldl_cons, ih, List.flatMap_cons, List.foldl_append, List.foldl_map]

theorem analysis_foldl (l : List (Int × Answer)) (st : TopicAnalysis) :
    l.foldl (fun acc (i : Int × Answer) =>
        ({ acc with
          totalQuestions := acc.totalQuestions + 1
          correctAnswers := if i.2.isCorrect then acc.correctAnswers + 1 else acc.correctAnswers
          averageTimeTaken := acc.averageTimeTaken + i.2.timeTaken
          recentTrend := acc.recentTrend ++ [⟨i.1, i.2.isCorrect⟩]
          lastSeen := 0 } : TopicAnalysis)) { st with lastSeen := 0 } =
      ⟨st.topic, st.totalQuestions + l.length,
        st.correctAnswers + l.countP (fun i => i.2.isCorrect),
        st.averageTimeTaken + (l.map (fun i => i.2.timeTaken)).sum,
        st.recentTrend ++ l.map (fun i => ⟨i.1, i.2.isCorrect⟩), 0⟩ := by
  induction l generalizing st with
  | nil => simp
  | cons a as ih =>
    rw [List.foldl_cons]
    have := ih { st with
      totalQuestions := st.totalQuestions + 1
      correctAnswers := if a.2.isCorrect then st.correctAnswers + 1 else st.correctAnswers
      averageTimeTaken := st.averageTimeTaken + a.2.timeTaken
      recentTrend := st.recentTrend ++ [⟨a.1, a.2.isCorrect⟩] }
    simp only at this
    rw [this]
    simp only [List.length_cons, List.map_cons, List.sum_cons, List.append_assoc,
      List.singleton_append, List.countP_cons]
    congr 1
    · omega
    · cases a.2.isCorrect
      · simp
      · simp
        omega
    · omega

/-- The `topicAnalysis` object after the loops, the `lastSeen` member apart: distinct topics,
none of them a name of `Object.prototype`, each with the counts and the trend of its attempts. -/
theorem analyzeTopics_entries (quizResults : List QuizResult) :
    ∀ p ∈ analyzeTopics quizResults,
      p.1 ∈ (attempts quizResults).map (fun i => topicOf i.2) ∧
        p.2.topic = p.1 ∧
        p.2.totalQuestions = (attemptsOn quizResults p.1).length ∧
        p.2.correctAnswers = (attemptsOn quizResults p.1).countP (fun x => x.correct) ∧
        p.2.recentTrend = attemptsOn quizResults p.1 := by
  intro p hp
  have hmap : (analyzeTopics quizResults).map
      (fun p => (p.1, ({ p.2 with lastSeen := 0 } : TopicAnalysis))) =
      (attempts quizResults).foldl
        (fun (d : JSDict TopicAnalysis) (i : Int × Answer) =>
          d.upsert (topicOf i.2)
            ((fun k => (⟨k, 0, 0, 0, [], 0⟩ : TopicAnalysis)) (topicOf i.2))
            ((fun (i : Int × Answer) (acc : TopicAnalysis) =>
              ({ acc with
                totalQuestions := acc.totalQuestions + 1
                correctAnswers :=
                  if i.2.isCorrect then acc.correctAnswers + 1 else acc.correctAnswers
                averageTimeTaken := acc.averageTimeTaken + i.2.timeTaken
                recentTrend := acc.recentTrend ++ [⟨i.1, i.2.isCorrect⟩]
                lastSeen := 0 } : TopicAnalysis)) i)) [] := by
    rw [analyzeTopics_eq_foldl]
    generalize attempts quizResults = items
    induction items using List.reverseRecOn with
    | nil => rfl
    | append_singleton is i ih =>
      rw [List.foldl_append, List.foldl_append]
      simp only [List.foldl_cons, List.foldl_nil]
      rw [← ih]
      unfold analyzeAnswer
      simp only []
      rw [upsert_map (fun (t : TopicAnalysis) => ({ t with lastSeen := 0 } : TopicAnalysis))]
      intro v
      rfl
  have hinv := dictInv_foldl (fun (i : Int × Answer) => topicOf i.2)
    (fun k => (⟨k, 0, 0, 0, [], 0⟩ : TopicAnalysis))
    (fun (i : Int × Answer) (acc : TopicAnalysis) =>
      ({ acc with
        totalQuestions := acc.totalQuestions + 1
        correctAnswers := if i.2.isCorrect then acc.correctAnswers + 1 else acc.correctAnswers
        averageTimeTaken := acc.averageTimeTaken + i.2.timeTaken
        recentTrend := acc.recentTrend ++ [⟨i.1, i.2.isCorrect⟩]
        lastSeen := 0 } : TopicAnalysis)) (attempts quizResults)
  rw [← hmap] at hinv
  obtain ⟨-, h2, -⟩ := hinv
  have hp2 : (p.1, ({ p.2 with lastSeen := 0 } : TopicAnalysis)) ∈
      (analyzeTopics quizResults).map
        (fun p => (p.1, ({ p.2 with lastSeen := 0 } : TopicAnalysis))) :=
    List.mem_map.mpr ⟨p, hp, rfl⟩
  obtain ⟨-, g2, g3⟩ := h2 _ hp2
  simp only at g2 g3
  refine ⟨g2, ?_⟩
  unfold groupValue at g3
  have hfold := analysis_foldl ((attempts quizResults).filter (fun i => topicOf i.2 == p.1))
    ⟨p.1, 0, 0, 0, [], 0⟩
  simp only [Nat.zero_add, List.nil_append] at hfold
  rw [hfold] at g3
  have e1 := congrArg TopicAnalysis.topic g3
  have e2 := congrArg TopicAnalysis.totalQuestions g3
  have e3 := congrArg TopicAnalysis.correctAnswers g3
  have e4 := congrArg TopicAnalysis.recentTrend g3
  simp only at e1 e2 e3 e4
  refine ⟨e1, ?_, ?_, ?_⟩
  · rw [e2]
    simp [attemptsOn]
  · rw [e3]
    unfold attemptsOn
    rw [List.countP_map]
    rfl
  · rw [e4]
    rfl

/-- What a record of the response holds, in terms of the attempts on its topic. -/
theorem mem_weakTopicsReport (quizResults : List QuizResult) (r : TopicReport)
    (hr : r ∈ weakTopicsReport quizResults) :
    r.topic ∈ (attempts quizResults).map (fun i => topicOf i.2) ∧
      r.totalQuestions = (attemptsOn quizResults r.topic).length ∧
      r.accuracy = percentOf ((attemptsOn quizResults r.topic).countP (fun x => x.correct))
        (attemptsOn quizResults r.topic).length ∧
      r.needsReview =
        (jsDivLengths ((attemptsOn quizResults r.topic).countP (fun x => x.correct))
          (attemptsOn quizResults r.topic).length).lessThan sevenTenths ∧
      r.trend = sliceLastFive (attemptsOn quizResults r.topic) := by
  unfold weakTopicsReport at hr
  have h1 := (stableSortBy_perm _ _).mem_iff.mp hr
  obtain ⟨t, ht, rfl⟩ := List.mem_map.mp h1
  have h2 := (values_perm (analyzeTopics quizResults)).mem_iff.mp ht
  obtain ⟨p, hp, rfl⟩ := List.mem_map.mp h2
  obtain ⟨g1, g2, g3, g4, g5⟩ := analyzeTopics_entries quizResults p hp
  simp only [toTopicReport]
  rw [g2, g3, g4, g5]
  exact ⟨g1, rfl, rfl, rfl, rfl⟩

/-- The shifted quotient has at most 53 significant bits. -/
theorem sigShift_upper (a b : Nat) (ha : 0 < a) (hb : 0 < b) :
    a * 2 ^ (sigShift a b).toNat < 2 ^ 53 * (b * 2 ^ (-(sigShift a b)).toNat) := by
  obtain ⟨-, hla⟩ := natLog2_spec a ha
  obtain ⟨hlb, -⟩ := natLog2_spec b hb
  unfold sigShift
  simp only []
  split_ifs with hlt
  · rcases le_or_lt 0 (52 + (natLog2 b : Int) - (natLog2 a : Int)) with h0 | h0
    · obtain ⟨j, hj⟩ := Int.eq_ofNat_of_zero_le h0
      have t0 : (52 + (natLog2 b : Int) - (natLog2 a : Int)).toNat = j := by omega
      have t0n : (-(52 + (natLog2 b : Int) - (natLog2 a : Int))).toNat = 0 := by omega
      have t1 : (52 + (natLog2 b : Int) - (natLog2 a : Int) + 1).toNat = j + 1 := by omega
      have t2 : (-(52 + (natLog2 b : Int) - (natLog2 a : Int) + 1)).toNat = 0 := by omega
      rw [t0, t0n] at hlt
      rw [t1, t2]
      have e1 : a * 2 ^ (j + 1) = 2 * (a * 2 ^ j) := by ring
      have e2 : 2 ^ 53 * (b * 2 ^ 0) = 2 * (2 ^ 52 * (b * 2 ^ 0)) := by ring
      rw [e1, e2]
      omega
    · obtain ⟨k, hk⟩ : ∃ k : Nat, natLog2 a = 53 + natLog2 b + k :=
        ⟨natLog2 a - 53 - natLog2 b, by omega⟩
      have t0 : (52 + (natLog2 b : Int) - (natLog2 a : Int)).toNat = 0 := by omega
      have t0n : (-(52 + (natLog2 b : Int) - (natLog2 a : Int))).toNat = k + 1 := by omega
      have t1 : (52 + (natLog2 b : Int) - (natLog2 a : Int) + 1).toNat = 0 := by omega
      have t2 : (-(52 + (natLog2 b : Int) - (natLog2 a : Int) + 1)).toNat = k := by omega
      rw [t0, t0n] at hlt
      rw [t1, t2]
      have e1 : 2 ^ 52 * (b * 2 ^ (k + 1)) = 2 ^ 53 * (b * 2 ^ k) := by ring
      rw [e1] at hlt
      exact hlt
  · rcases le_or_lt 0 (52 + (natLog2 b : Int) - (natLog2 a : Int)) with h0 | h0
    · obtain ⟨j, hj⟩ := Int.eq_ofNat_of_zero_le h0
      have hj2 : j + natLog2 a = 52 + natLog2 b := by omega
      have t0 : (52 + (natLog2 b : Int) - (natLog2 a : Int)).toNat = j := by omega
      have t0n : (-(52 + (natLog2 b : Int) - (natLog2 a : Int))).toNat = 0 := by omega
      rw [t0, t0n]
      have key : 2 ^ (natLog2 a + 1) * 2 ^ j = 2 ^ 53 * 2 ^ natLog2 b := by
        rw [← pow_add, ← pow_add]
        congr 1
        omega
      calc a * 2 ^ j < 2 ^ (natLog2 a + 1) * 2 ^ j :=
            Nat.mul_lt_mul_of_pos_right hla (by positivity)
        _ = 2 ^ 53 * 2 ^ natLog2 b := key
        _ ≤ 2 ^ 53 * b := Nat.mul_le_mul_left _ hlb
        _ = 2 ^ 53 * (b * 2 ^ 0) := by ring
    · obtain ⟨k, hk⟩ : ∃ k : Nat, natLog2 a = 52 + natLog2 b + k :=
        ⟨natLog2 a - 52 - natLog2 b, by omega⟩
      have t0 : (52 + (natLog2 b : Int) - (natLog2 a : Int)).toNat = 0 := by omega
      have t0n : (-(52 + (natLog2 b : Int) - (natLog2 a : Int))).toNat = k := by omega
      rw [t0, t0n]
      have key : 2 ^ (natLog2 a + 1) = 2 ^ 53 * (2 ^ natLog2 b * 2 ^ k) := by
        rw [← pow_add, ← pow_add]
        congr 1
        omega
      calc a * 2 ^ 0 = a := by ring
        _ < 2 ^ (natLog2 a + 1) := hla
        _ = 2 ^ 53 * (2 ^ natLog2 b * 2 ^ k) := key
        _ ≤ 2 ^ 53 * (b * 2 ^ k) :=
            Nat.mul_le_mul_left _ (Nat.mul_le_mul_right _ hlb)

theorem lessThan_finite_iff (a b : Dbl) :
    (JSNumber.finite a).lessThan (.finite b) = true ↔ a.toRat < b.toRat := by
  unfold JSNumber.lessThan Dbl.toRat
  rw [decide_eq_true_iff, div_lt_div_iff₀ (by positivity) (by positivity)]
  exact_mod_cast Iff.rfl

/-- The literal `0.7` is the double `6305039478318694 / 2 ^ 53`. -/
theorem sevenTenths_eq : sevenTenths = .finite ⟨6305039478318694, 53⟩ := by
  decide

/-- The quotient of two lengths in the ratio 7 : 10 is the double of the literal `0.7`. -/
theorem roundToDouble_sevenTenths (c t : Nat) (ht : 0 < t) (h : 10 * c = 7 * t) :
    roundToDouble c t = ⟨6305039478318694, 53⟩ := by
  have hc : 0 < c := by omega
  have lo := sigShift_spec c t hc ht
  have hi := sigShift_upper c t hc ht
  have hs : sigShift c t = 53 := by
    rcases le_or_lt (sigShift c t) 0 with h0 | h0
    · exfalso
      have t1 : (sigShift c t).toNat = 0 := by omega
      rw [t1] at lo
      have hp : 1 ≤ 2 ^ (-(sigShift c t)).toNat := Nat.one_le_two_pow
      have hmul : t * 1 ≤ t * 2 ^ (-(sigShift c t)).toNat := Nat.mul_le_mul_left _ hp
      have hmul2 := Nat.mul_le_mul_left (2 ^ 52) hmul
      norm_num at lo hmul2
      omega
    · obtain ⟨j, hj⟩ := Int.eq_ofNat_of_zero_le h0.le
      have t1 : (sigShift c t).toNat = j := by omega
      have t2 : (-(sigShift c t)).toNat = 0 := by omega
      rw [t1, t2] at lo hi
      have hj53 : j = 53 := by
        by_contra hne
        rcases Nat.lt_or_gt_of_ne hne with hlt | hgt
        · have hpow : 2 ^ j ≤ 2 ^ 52 := Nat.pow_le_pow_right (by norm_num) (by omega)
          have := Nat.mul_le_mul_left c hpow
          norm_num at lo this
          omega
        · have hpow : 2 ^ 54 ≤ 2 ^ j := Nat.pow_le_pow_right (by norm_num) (by omega)
          have := Nat.mul_le_mul_left c hpow
          norm_num at hi this
          omega
      rw [hj, hj53]
      rfl
  unfold roundToDouble
  rw [if_neg (by omega)]
  simp only [hs]
  have t1 : ((53 : Int)).toNat = 53 := rfl
  have t2 : (-(53 : Int)).toNat = 0 := rfl
  rw [t1, t2]
  simp only [pow_zero, Nat.mul_one]
  obtain ⟨r1, r2⟩ := roundHalfEven_spec (c * 2 ^ 53) t ht
  generalize roundHalfEven (c * 2 ^ 53) t = m at r1 r2
  obtain ⟨q, hq1, hq2⟩ : ∃ q, c = 7 * q ∧ t = 10 * q := ⟨c / 7, by omega, by omega⟩
  subst hq1 hq2
  have hq : 0 < q := by omega
  have e1 : m * (10 * q) = 10 * (m * q) := by ring
  have e2 : 7 * q * 2 ^ 53 = 63050394783186944 * q := by ring
  rw [e1, e2] at r1 r2
  have hm : m = 6305039478318694 := by
    by_contra hne
    rcases Nat.lt_or_gt_of_ne hne with hlt | hgt
    · have h3 : m * q ≤ 6305039478318693 * q := Nat.mul_le_mul_right q (by omega)
      omega
    · have h3 : 6305039478318695 * q ≤ m * q := Nat.mul_le_mul_right q (by omega)
      omega
  rw [hm]

/-- The comparison `correct / total < 0.7` in doubles decides `10 * correct < 7 * total`. -/
theorem lessThan_sevenTenths_iff (c t : Nat) (ht : 0 < t) (hsize : t < 2 ^ 32) :
    (jsDivLengths c t).lessThan sevenTenths = true ↔ 10 * c < 7 * t := by
  have ht0 : t ≠ 0 := by omega
  unfold jsDivLengths
  rw [if_neg ht0, sevenTenths_eq, lessThan_finite_iff]
  have hK : (Dbl.toRat ⟨6305039478318694, 53⟩) = 6305039478318694 / 2 ^ 53 := by
    simp [Dbl.toRat]
  rw [hK]
  have herr := roundToDouble_error c t ht
  rw [abs_le] at herr
  obtain ⟨herr1, herr2⟩ := herr
  have htq : (0 : ℚ) < t := by exact_mod_cast ht
  rcases Nat.lt_trichotomy (10 * c) (7 * t) with hlt | heq | hgt
  · refine ⟨fun _ => hlt, fun _ => ?_⟩
    have hnat : c * 9007199254740993 < 6305039478318694 * t := by omega
    have hq : (c : ℚ) * 9007199254740993 < 6305039478318694 * t := by exact_mod_cast hnat
    have hup : (roundToDouble c t).toRat ≤ (c : ℚ) / t + (c : ℚ) / t / 2 ^ 53 := by linarith
    have hval : (c : ℚ) / t + (c : ℚ) / t / 2 ^ 53 < 6305039478318694 / 2 ^ 53 := by
      have e : (c : ℚ) / t + (c : ℚ) / t / 2 ^ 53 =
          ((c : ℚ) * 9007199254740993) / (t * 2 ^ 53) := by
        field_simp
        ring
      rw [e, div_lt_div_iff₀ (by positivity) (by positivity)]
      nlinarith
    linarith
  · have := roundToDouble_sevenTenths c t ht heq
    rw [this, hK]
    constructor
    · intro h
      exact absurd h (lt_irrefl _)
    · intro h
      omega
  · constructor
    · intro h
      exfalso
      have hnat : 6305039478318694 * t ≤ c * 9007199254740991 := by omega
      have hq : (6305039478318694 : ℚ) * t ≤ (c : ℚ) * 9007199254740991 := by exact_mod_cast hnat
      have hlow : (c : ℚ) / t - (c : ℚ) / t / 2 ^ 53 ≤ (roundToDouble c t).toRat := by linarith
      have hval : (6305039478318694 : ℚ) / 2 ^ 53 ≤ (c : ℚ) / t - (c : ℚ) / t / 2 ^ 53 := by
        have e : (c : ℚ) / t - (c : ℚ) / t / 2 ^ 53 =
            ((c : ℚ) * 9007199254740991) / (t * 2 ^ 53) := by
          field_simp
          ring
        rw [e, div_le_div_iff₀ (by positivity) (by positivity)]
        nlinarith
      linarith
    · intro h
      omega

/-- The reported percentage against the exact ratio at the 70 percent mark. -/
theorem percentOf_seventy (c t : Nat) (ht : 0 < t) (hc : c < 2 ^ 32) :
    ∃ k : Nat, percentOf c t = JSNumber.ofNat k ∧
      (k < 70 → 10 * c < 7 * t) ∧ (10 * c ≤ 7 * t → k ≤ 70) := by
  obtain ⟨k, hk, hcase⟩ := percentOf_spec c t ht hc
  obtain ⟨r1, r2⟩ := roundHalfUp_spec (100 * c) t ht
  refine ⟨k, hk, fun hk70 => ?_, fun hle => ?_⟩
  · rcases hcase with h | ⟨hhalf, h⟩
    · rw [← h] at r2
      have := Nat.mul_le_mul_right (2 * t) (show k + 1 ≤ 70 by omega)
      omega
    · rw [← h] at r2
      have hdm := Nat.div_add_mod (200 * c) (2 * t)
      rw [hhalf] at hdm
      by_contra hnot
      have hR := Nat.mul_le_mul_right (2 * t) (show k + 1 + 1 ≤ 71 by omega)
      rcases Nat.lt_or_ge (200 * c / (2 * t)) 70 with hq | hq
      · have := Nat.mul_le_mul_left (2 * t) (show 200 * c / (2 * t) ≤ 69 by omega)
        omega
      · have := Nat.mul_le_mul_left (2 * t) hq
        omega
  · have hkR : k ≤ roundHalfUp (100 * c) t := by
      rcases hcase with h | ⟨-, h⟩ <;> omega
    by_contra hnot
    have := Nat.mul_le_mul_right (2 * t)
      (show 71 ≤ roundHalfUp (100 * c) t by omega)
    omega


theorem attemptsOn_pos (quizResults : List QuizResult) (topic : String)
    (h : topic ∈ (attempts quizResults).map (fun i => topicOf i.2)) :
    1 ≤ (attemptsOn quizResults topic).length := by
  obtain ⟨i, hi, rfl⟩ := List.mem_map.mp h
  have hmem : (⟨i.1, i.2.isCorrect⟩ : TrendPoint) ∈ attemptsOn quizResults (topicOf i.2) :=
    List.mem_map.mpr ⟨i, List.mem_filter.mpr ⟨hi, by simp⟩, rfl⟩
  exact List.length_pos_of_mem hmem

theorem attemptsOn_length_le (quizResults : List QuizResult) (topic : String) :
    (attemptsOn quizResults topic).length ≤ (attempts quizResults).length := by
  unfold attemptsOn
  rw [List.length_map]
  exact List.length_filter_le _ _

/-- Claim C22, counterexample: for a topic with 16 correct answers out of 23 the record reports
the accuracy 70, which is not below 70, together with `needsReview = true`. -/
theorem weakTopicsReport_review_at_seventy :
    (weakTopicsReport sixteenOfTwentyThree).map (fun r => (r.accuracy, r.needsReview)) =
      [(JSNumber.ofNat 70, true)] := by
  set_option maxRecDepth 1000000 in decide

/-- Claim C22, amended: with fewer than `2 ^ 32` answers in all, every record of the detailed
view has at least one question, and `needsReview` is true if and only if the exact ratio of the
topic's correct answers to its questions is below 7/10; the reported accuracy is a whole number
`k`, `needsReview` is true whenever `k < 70` and false whenever `k > 70`, and at `k = 70` both
values occur. -/
theorem weakTopicsReport_needsReview (quizResults : List QuizResult)
    (hsize : (attempts quizResults).length < 2 ^ 32) :
    ∀ r ∈ weakTopicsReport quizResults,
      1 ≤ r.totalQuestions ∧
        (r.needsReview = true ↔
          10 * (attemptsOn quizResults r.topic).countP (fun x => x.correct) <
            7 * r.totalQuestions) ∧
        ∃ k : Nat, r.accuracy = JSNumber.ofNat k ∧
          (k < 70 → r.needsReview = true) ∧ (r.needsReview = true → k ≤ 70) := by
  intro r hr
  obtain ⟨h1, h2, h3, h4, -⟩ := mem_weakTopicsReport quizResults r hr
  have hpos := attemptsOn_pos quizResults r.topic h1
  have hle := attemptsOn_length_le quizResults r.topic
  have hcle : (attemptsOn quizResults r.topic).countP (fun x => x.correct) ≤
      (attemptsOn quizResults r.topic).length := List.countP_le_length _
  have hiff := lessThan_sevenTenths_iff
    ((attemptsOn quizResults r.topic).countP (fun x => x.correct))
    (attemptsOn quizResults r.topic).length hpos (by omega)
  rw [← h4, ← h2] at hiff
  obtain ⟨k, hk, hk1, hk2⟩ := percentOf_seventy
    ((attemptsOn quizResults r.topic).countP (fun x => x.correct))
    (attemptsOn quizResults r.topic).length hpos (by omega)
  rw [← h3] at hk
  rw [← h2] at hk1 hk2
  refine ⟨by rw [h2]; exact hpos, hiff, k, hk, fun h => hiff.mpr (hk1 h), fun h => ?_⟩
  exact hk2 (le_of_lt (hiff.mp h))

/-- Claim C22, witness: the six single-answer quiz results, one of six answers correct. -/
theorem weakTopicsReport_needsReview_witness :
    (attempts sixAttempts).length < 2 ^ 32 ∧
      ∀ r ∈ weakTopicsReport sixAttempts,
        1 ≤ r.totalQuestions ∧
          (r.needsReview = true ↔
            10 * (attemptsOn sixAttempts r.topic).countP (fun x => x.correct) <
              7 * r.totalQuestions) ∧
          ∃ k : Nat, r.accuracy = JSNumber.ofNat k ∧
            (k < 70 → r.needsReview = true) ∧ (r.needsReview = true → k ≤ 70) :=
  ⟨by decide, weakTopicsReport_needsReview sixAttempts (by decide)⟩

theorem sliceLastFive_length {α : Type} (xs : List α) : (sliceLastFive xs).length ≤ 5 := by
  unfold sliceLastFive
  rw [List.length_drop]
  omega

/-- Claim C23: for six quiz results on one topic, received newest first, the trend holds the
five oldest attempts, the newest of them first, and leaves out the newest attempt; in general the
trend of a record is the last five of the topic's attempts in the order the route receives
them, which is at most 5 entries. -/
theorem weakTopicsReport_trend_oldest :
    (weakTopicsReport sixAttempts).map (fun r => r.trend) =
        [[⟨5000, false⟩, ⟨4000, false⟩, ⟨3000, false⟩, ⟨2000, false⟩, ⟨1000, false⟩]] ∧
      attemptsOn sixAttempts "A" =
        [⟨6000, true⟩, ⟨5000, false⟩, ⟨4000, false⟩, ⟨3000, false⟩, ⟨2000, false⟩,
          ⟨1000, false⟩] ∧
      ∀ (quizResults : List QuizResult), ∀ r ∈ weakTopicsReport quizResults,
        r.trend = sliceLastFive (attemptsOn quizResults r.topic) ∧ r.trend.length ≤ 5 := by
  refine ⟨by decide, by decide, fun quizResults r hr => ?_⟩
  obtain ⟨-, -, -, -, h5⟩ := mem_weakTopicsReport quizResults r hr
  rw [h5]
  exact ⟨rfl, sliceLastFive_length _⟩

/-! ## Validation of a quiz-result request -/

theorem missingFields_eq_filter (body : QuizResultBody) :
    missingFields body = requiredFieldNames.filter (fieldIsMissing body) := by
  unfold missingFields requiredFieldNames fieldIsMissing
  cases body.userId.truthy <;> cases body.materialId.truthy <;>
    cases body.materialTitle.truthy <;> cases body.quizData.truthy <;>
    cases body.answers.truthy <;> cases body.timeSpent.looseNull <;> decide

theorem missingFields_nil_iff (body : QuizResultBody) :
    missingFields body = [] ↔
      body.userId.truthy = true ∧ body.materialId.truthy = true ∧
        body.materialTitle.truthy = true ∧ body.quizData.truthy = true ∧
        body.answers.truthy = true ∧ body.timeSpent.looseNull = false := by
  unfold missingFields
  cases body.userId.truthy <;> cases body.materialId.truthy <;>
    cases body.materialTitle.truthy <;> cases body.quizData.truthy <;>
    cases body.answers.truthy <;> cases body.timeSpent.looseNull <;> decide

theorem looseNull_iff (v : JSValue) : v.looseNull = true ↔ v = .undefined ∨ v = .null := by
  cases v <;> simp [JSValue.looseNull]

/-- Claim C25: `POST /api/quiz-results` answers 400 if and only if one of `userId`,
`materialId`, `materialTitle`, `quizData`, `answers` is falsy or `timeSpent` is `null` or
`undefined`; the message is then `Missing required fields: ` followed by the missing names, in
the fixed order, joined by `, `, and the stored collection is unchanged; a body that is complete
but for `timeSpent = 0` and an empty `answers` array is not answered with 400. -/
theorem postQuizResult_validation (saved : List QuizResultBody) (body : QuizResultBody)
    (saveSucceeds : Bool) :
    ((postQuizResult saved body saveSucceeds).1.status = 400 ↔
        (body.userId.truthy = false ∨ body.materialId.truthy = false ∨
          body.materialTitle.truthy = false ∨ body.quizData.truthy = false ∨
          body.answers.truthy = false ∨ body.timeSpent = .undefined ∨
          body.timeSpent = .null)) ∧
      ((postQuizResult saved body saveSucceeds).1.status = 400 →
        (postQuizResult saved body saveSucceeds).1.error =
            some ("Missing required fields: " ++
              ", ".intercalate (requiredFieldNames.filter (fieldIsMissing body))) ∧
          (postQuizResult saved body saveSucceeds).2 = saved) ∧
      (body.userId.truthy = true → body.materialId.truthy = true →
        body.materialTitle.truthy = true → body.quizData.truthy = true →
        body.answers = .array 0 → body.timeSpent = .number 0 →
        (postQuizResult saved body saveSucceeds).1.status ≠ 400) := by
  have hstatus : (postQuizResult saved body saveSucceeds).1.status = 400 ↔
      missingFields body ≠ [] := by
    unfold postQuizResult
    by_cases h : missingFields body = []
    · rw [h]
      cases saveSucceeds <;> simp
    · have hlen : (missingFields body).length > 0 := List.length_pos.mpr h
      simp [hlen, h]
  have hiff : (postQuizResult saved body saveSucceeds).1.status = 400 ↔
      (body.userId.truthy = false ∨ body.materialId.truthy = false ∨
        body.materialTitle.truthy = false ∨ body.quizData.truthy = false ∨
        body.answers.truthy = false ∨ body.timeSpent = .undefined ∨
        body.timeSpent = .null) := by
    rw [hstatus, Ne, missingFields_nil_iff, ← looseNull_iff]
    cases body.userId.truthy <;> cases body.materialId.truthy <;>
      cases body.materialTitle.truthy <;> cases body.quizData.truthy <;>
      cases body.answers.truthy <;> cases body.timeSpent.looseNull <;> decide
  refine ⟨hiff, fun h => ?_, fun h1 h2 h3 h4 h5 h6 h => ?_⟩
  · have hne := hstatus.mp h
    have hlen : (missingFields body).length > 0 := List.length_pos.mpr hne
    unfold postQuizResult
    simp only [hlen, if_true]
    rw [missingFields_eq_filter]
    refine ⟨?_, ?_⟩ <;> first | rfl | trivial
  · rcases hiff.mp h with g | g | g | g | g | g | g
    · rw [h1] at g
      exact Bool.noConfusion g
    · rw [h2] at g
      exact Bool.noConfusion g
    · rw [h3] at g
      exact Bool.noConfusion g
    · rw [h4] at g
      exact Bool.noConfusion g
    · rw [h5] at g
      exact Bool.noConfusion g
    · rw [h6] at g
      exact JSValue.noConfusion g
    · rw [h6] at g
      exact JSValue.noConfusion g

/-- Claim C25, witness: a body without `materialId` and `timeSpent` is answered with 400 and the
message naming the two, and a complete body with `timeSpent = 0` and no answers is saved. -/
theorem postQuizResult_validation_witness :
    postQuizResult [] { emptyQuizBody with materialId := .undefined, timeSpent := .null } true =
        (⟨400, some "Missing required fields: materialId, timeSpent"⟩, []) ∧
      postQuizResult [] emptyQuizBody true = (⟨200, none⟩, [emptyQuizBody]) ∧
      (postQuizResult [] emptyQuizBody true).1.status ≠ 400 :=
  ⟨by decide, by decide,
    (postQuizResult_validation [] emptyQuizBody true).2.2 rfl rfl rfl rfl rfl rfl⟩

/-! ## Shape check of a generated schedule -/

theorem mapThrows_iff (days : List Json) : mapThrows days = false ↔ ∀ day ∈ days, day ≠ .null := by
  unfold mapThrows
  rw [List.any_eq_false]
  constructor
  · intro h day hd hnull
    subst hnull
    exact h _ hd rfl
  · intro h day hd
    cases day with
    | null => exact absurd rfl (h _ hd)
    | bool b => simp [Json.property]
    | num n => simp [Json.property]
    | str s => simp [Json.property]
    | arr items => simp [Json.property]
    | obj members => simp [Json.property]

theorem checkFirstDay_iff (firstDay : Json) :
    checkFirstDay firstDay = .accepted ↔
      ∃ sessions, firstDay.property "sessions" = some (some (.arr sessions)) := by
  unfold checkFirstDay
  cases h : firstDay.property "sessions" with
  | none => simp
  | some v =>
    cases v with
    | none => simp [Json.truthy]
    | some w => cases w <;> simp [Json.truthy, Json.asArray]

/-- Claim C26, counterexample: a generated schedule whose second day has no `sessions` member
passes the shape check. -/
theorem validateScheduleData_later_day_unchecked :
    validateScheduleData secondDayWithoutSessions = .accepted := by
  decide

/-- Claim C26, amended: a parsed generator output passes the shape check if and only if its
`schedule` member is a non-empty array, the first day has a `sessions` member that is an array,
and no day is `null`; so an output whose `schedule` is missing, is no array or is empty, or whose
first day has no `sessions` array, is rejected, while the `sessions` of later days are not
looked at. -/
theorem validateScheduleData_accepts (scheduleData : Json) :
    (validateScheduleData scheduleData = .accepted ↔
        ∃ firstDay rest sessions,
          scheduleData.property "schedule" = some (some (.arr (firstDay :: rest))) ∧
            firstDay.property "sessions" = some (some (.arr sessions)) ∧
            ∀ day ∈ rest, day ≠ .null) ∧
      (∀ schedule, scheduleData.property "schedule" = some schedule →
        (Json.asArray schedule = none ∨ Json.asArray schedule = some []) →
        validateScheduleData scheduleData ≠ .accepted) := by
  have key : validateScheduleData scheduleData = .accepted ↔
      ∃ firstDay rest sessions,
        scheduleData.property "schedule" = some (some (.arr (firstDay :: rest))) ∧
          firstDay.property "sessions" = some (some (.arr sessions)) ∧
          ∀ day ∈ rest, day ≠ .null := by
    unfold validateScheduleData
    cases h : scheduleData.property "schedule" with
    | none => simp
    | some v =>
      cases v with
      | none => simp [Json.truthy]
      | some w =>
        cases w with
        | null => simp [Json.truthy]
        | bool b => cases b <;> simp [Json.truthy, Json.asArray]
        | num n => by_cases hn : n = 0 <;> simp [Json.truthy, Json.asArray, hn]
        | str s => by_cases hs : s = "" <;> simp [Json.truthy, Json.asArray, hs]
        | obj members => simp [Json.truthy, Json.asArray]
        | arr items =>
          cases items with
          | nil => simp [Json.truthy, Json.asArray]
          | cons firstDay rest =>
            simp only [Json.truthy, Json.asArray, Option.isNone_some, Bool.not_true,
              Bool.or_self, Bool.false_eq_true, if_false, Option.getD_some]
            cases hc : checkFirstDay firstDay with
            | rejected details =>
              simp only [false_iff, reduceCtorEq]
              rintro ⟨f, r, sessions, h1, h2, -⟩
              have hf : f = firstDay := by
                have := Option.some.inj (Option.some.inj h1)
                injection this with h3
                exact (List.cons.inj h3).1.symm
              subst hf
              have := (checkFirstDay_iff f).mpr ⟨sessions, h2⟩
              rw [hc] at this
              exact ParseOutcome.noConfusion this
            | accepted =>
              obtain ⟨sessions, hs⟩ := (checkFirstDay_iff firstDay).mp hc
              have hnn : firstDay ≠ .null := by
                intro hnull
                rw [hnull] at hs
                simp [Json.property] at hs
              simp only
              by_cases hm : mapThrows (firstDay :: rest) = true
              · rw [if_pos hm]
                simp only [false_iff, reduceCtorEq]
                rintro ⟨f, r, -, h1, -, h3⟩
                have h4 := Option.some.inj (Option.some.inj h1)
                injection h4 with h5
                obtain ⟨h6, h7⟩ := List.cons.inj h5
                subst h6 h7
                have : mapThrows (firstDay :: rest) = false := by
                  rw [mapThrows_iff]
                  intro day hd
                  rcases List.mem_cons.mp hd with hd | hd
                  · rw [hd]
                    exact hnn
                  · exact h3 day hd
                rw [this] at hm
                exact Bool.noConfusion hm
              · rw [if_neg hm]
                simp only [true_iff]
                have hmf : mapThrows (firstDay :: rest) = false := by simpa using hm
                rw [mapThrows_iff] at hmf
                exact ⟨firstDay, rest, sessions, rfl, hs,
                  fun day hd => hmf day (List.mem_cons_of_mem _ hd)⟩
  refine ⟨key, fun schedule hs hbad hacc => ?_⟩
  obtain ⟨f, r, -, h1, -, -⟩ := key.mp hacc
  rw [hs] at h1
  have := Option.some.inj h1
  subst this
  rcases hbad with hbad | hbad <;> simp [Json.asArray] at hbad

/-- Claim C26, witness: an output without a `schedule` member and one whose `schedule` is empty
are rejected. -/
theorem validateScheduleData_accepts_witness :
    validateScheduleData (.obj [("studyTips", .arr [])]) ≠ .accepted ∧
      validateScheduleData (.obj [("schedule", .arr [])]) ≠ .accepted :=
  ⟨(validateScheduleData_accepts (.obj [("studyTips", .arr [])])).2 none rfl (Or.inl rfl),
    (validateScheduleData_accepts (.obj [("schedule", .arr [])])).2 (some (.arr [])) rfl
      (Or.inr rfl)⟩

/-! ## The start-session route -/

/-- On a Schedule document the route answers 400 or 500 and `progress.startedSessions` stays
`undefined`. -/
theorem startSessionRoute_document (schedule : Schedule) (day sessionIndex : JSValue)
    (now : Int) :
    startSessionRoute schedule.progress.startedSessions day sessionIndex now =
      (if startSessionRejects day sessionIndex then
        (⟨400, some "day and sessionIndex are required"⟩, none)
      else (⟨500, some "Failed to start session"⟩, none)) := by
  unfold startSessionRoute Progress.startedSessions
  split_ifs <;> rfl

/-- Claim C8: a request to start session `(1, 0)` of a stored schedule, which holds no record
of that pair, appends no record: `schedule.progress.startedSessions` is `undefined`, the `some`
call throws and the route answers 500. For every Schedule document and every request the route
answers 400 or 500 and leaves `progress.startedSessions` undefined. -/
theorem startSessionRoute_appends_nothing :
    startSessionRoute storedSchedule.progress.startedSessions (.number 1) (.number 0) 1000 =
        (⟨500, some "Failed to start session"⟩, none) ∧
      ∀ (schedule : Schedule) (day sessionIndex : JSValue) (now : Int),
        (startSessionRoute schedule.progress.startedSessions day sessionIndex now).2 = none ∧
          ((startSessionRoute schedule.progress.startedSessions day sessionIndex
              now).1.status = 400 ∨
            (startSessionRoute schedule.progress.startedSessions day sessionIndex
              now).1.status = 500) := by
  refine ⟨by decide, fun schedule day sessionIndex now => ?_⟩
  rw [startSessionRoute_document]
  split_ifs
  · exact ⟨rfl, Or.inl rfl⟩
  · exact ⟨rfl, Or.inr rfl⟩

/-- Claim C27: a request that supplies `day = 1` and no `sessionIndex` is not answered with
400: the condition of line 12 is false for it, the request goes on to the `some` call on the
undefined `progress.startedSessions`, and the answer is 500. On every Schedule document the
route answers 400 exactly when `day` and `sessionIndex` are both falsy and neither is 0, and no
request appends a record. -/
theorem startSessionRoute_one_missing :
    startSessionRoute storedSchedule.progress.startedSessions (.number 1) .undefined 7 =
        (⟨500, some "Failed to start session"⟩, none) ∧
      ∀ (schedule : Schedule) (day sessionIndex : JSValue) (now : Int),
        ((startSessionRoute schedule.progress.startedSessions day sessionIndex
              now).1.status = 400 ↔
            day.truthy = false ∧ sessionIndex.truthy = false ∧ day ≠ .number 0 ∧
              sessionIndex ≠ .number 0) ∧
          (startSessionRoute schedule.progress.startedSessions day sessionIndex now).2 =
            schedule.progress.startedSessions := by
  refine ⟨by decide, fun schedule day sessionIndex now => ?_⟩
  rw [startSessionRoute_document]
  have hrej : startSessionRejects day sessionIndex = true ↔
      day.truthy = false ∧ sessionIndex.truthy = false ∧ day ≠ .number 0 ∧
        sessionIndex ≠ .number 0 := by
    unfold startSessionRejects
    simp only [Bool.and_eq_true, Bool.not_eq_true', bne_iff_ne, ne_eq]
    tauto
  by_cases h : startSessionRejects day sessionIndex = true
  · rw [if_pos h]
    exact ⟨⟨fun _ => hrej.mp h, fun _ => rfl⟩, rfl⟩
  · rw [if_neg h]
    refine ⟨⟨fun hc => ?_, fun hc => absurd (hrej.mpr hc) h⟩, rfl⟩
    exact absurd hc (by decide)

/-! ## The day pointer -/

/-- Claim C28, counterexample: on a new three-day schedule with one session a day, completing
day 3 sets `currentDay` to 4, and completing day 1 next moves it back to 2. -/
theorem currentDay_moves_backwards :
    ((Schedule.new "u1" "m1" "Notes" threeDays).run [(3, 0, 0)]).progress.currentDay = 4 ∧
      (((Schedule.new "u1" "m1" "Notes" threeDays).run [(3, 0, 0)]).completeSession
        1 0 1).progress.currentDay = 2 := by
  decide

/-- Claim C28, amended: after `completeSession(day, sessionIndex)` the day pointer is `day + 1`
when the call completes its day and unchanged otherwise; so it does not move backwards exactly
when the call completes no day or `day + 1` is at least the pointer before the call. -/
theorem completeSession_currentDay (s : Schedule) (day sessionIndex now : Int) :
    (DayCompletes s day (s.progress.completedSessions ++ [⟨day, sessionIndex, now⟩]) →
        (s.completeSession day sessionIndex now).progress.currentDay = day + 1) ∧
      (¬ DayCompletes s day (s.progress.completedSessions ++ [⟨day, sessionIndex, now⟩]) →
        (s.completeSession day sessionIndex now).progress.currentDay = s.progress.currentDay) ∧
      (s.progress.currentDay ≤ (s.completeSession day sessionIndex now).progress.currentDay ↔
        (¬ DayCompletes s day (s.progress.completedSessions ++ [⟨day, sessionIndex, now⟩]) ∨
          s.progress.currentDay ≤ day + 1)) := by
  refine ⟨fun h => (completeSession_days_of_completes s day sessionIndex now h).2,
    fun h => (completeSession_days_of_not_completes s day sessionIndex now h).2, ?_⟩
  by_cases h : DayCompletes s day (s.progress.completedSessions ++ [⟨day, sessionIndex, now⟩])
  · rw [(completeSession_days_of_completes s day sessionIndex now h).2]
    constructor
    · intro hle
      exact Or.inr hle
    · rintro (hn | hle)
      · exact absurd h hn
      · exact hle
  · rw [(completeSession_days_of_not_completes s day sessionIndex now h).2]
    exact ⟨fun _ => Or.inl h, fun _ => le_refl _⟩

/-- Claim C28, witness: on the scenario schedule the call `completeSession(2, 0)` completes day 2
and moves the pointer from 1 to 3. -/
theorem completeSession_currentDay_witness :
    scenario.progress.currentDay = 1 ∧
      (scenario.completeSession 2 0 5).progress.currentDay = 2 + 1 :=
  ⟨rfl, (completeSession_currentDay scenario 2 0 5).1
    ⟨⟨⟨2, [⟨"Quiz", 20, "quiz"⟩]⟩, by decide, by decide⟩, by decide⟩⟩

/-! ## Completed days of reachable states -/

/-- Claim C30: in every state reached from a newly created schedule by any sequence of
`completeSession` calls, `completedDays` has no duplicates and holds only day numbers of the
schedule, its length is at most the number of days, and the `daysRemaining` of
`getCurrentStatus()`, which is `totalDays - completedDays`, is not negative; `getCurrentStatus`
is a function of the state that returns the status record only. -/
theorem run_completedDays_bounds (userId materialId materialTitle : String) (days : List DayEntry)
    (calls : List Call) :
    ((Schedule.new userId materialId materialTitle days).run calls).progress.completedDays.Nodup ∧
      (∀ d ∈ ((Schedule.new userId materialId materialTitle days).run
          calls).progress.completedDays, d ∈ days.map (fun e => e.day)) ∧
      ((Schedule.new userId materialId materialTitle days).run
          calls).progress.completedDays.length ≤ days.length ∧
      ((Schedule.new userId materialId materialTitle days).run
          calls).getCurrentStatus.daysRemaining =
        (days.length : Int) - (((Schedule.new userId materialId materialTitle days).run
          calls).progress.completedDays.length : Int) ∧
      0 ≤ ((Schedule.new userId materialId materialTitle days).run
          calls).getCurrentStatus.daysRemaining := by
  have hinv := run_inv _ calls (new_inv userId materialId materialTitle days)
  have hsched : ((Schedule.new userId materialId materialTitle days).run calls).schedule = days :=
    run_schedule _ calls
  have hlen := Inv.length_le _ hinv
  rw [hsched] at hlen
  refine ⟨hinv.1, ?_, hlen, ?_, ?_⟩
  · intro d hd
    have := Inv.mem_days _ hinv d hd
    rwa [hsched] at this
  · simp only [Schedule.getCurrentStatus, hsched]
  · simp only [Schedule.getCurrentStatus, hsched]
    omega

/-! ## Distinct calls on existing slots -/

theorem mem_slots_iff (days : List DayEntry) (p : Int × Int) :
    p ∈ slots days ↔ ∃ e ∈ days, ∃ i : Nat, i < e.sessions.length ∧ p = (e.day, (i : Int)) := by
  unfold slots
  simp only [List.mem_flatMap, List.mem_map, List.mem_range]
  constructor
  · rintro ⟨e, he, i, hi, rfl⟩
    exact ⟨e, he, i, hi, rfl⟩
  · rintro ⟨e, he, i, hi, rfl⟩
    exact ⟨e, he, i, hi, rfl⟩

theorem entry_of_day (days : List DayEntry) (hnd : (days.map (fun e => e.day)).Nodup)
    (e e2 : DayEntry) (he : e ∈ days) (he2 : e2 ∈ days) (h : e2.day = e.day) : e2 = e := by
  have h1 := find_of_nodup days hnd e he
  have h2 := find_of_nodup days hnd e2 he2
  rw [h] at h2
  rw [h1] at h2
  exact (Option.some.inj h2).symm

theorem find_iff_of_nodup (days : List DayEntry) (hnd : (days.map (fun e => e.day)).Nodup)
    (d : Int) (e : DayEntry) :
    days.find? (fun x => x.day == d) = some e ↔ e ∈ days ∧ e.day = d := by
  constructor
  · intro h
    refine ⟨List.mem_of_find?_eq_some h, ?_⟩
    have := List.find?_some h
    simpa using this
  · rintro ⟨he, rfl⟩
    exact find_of_nodup days hnd e he

/-- For distinct calls on existing slots of a schedule with distinct day numbers, the calls that
name day `e.day` are at least as many as the sessions of `e`, and at least one, exactly when `e`
has a session and every session index of `e` has been called. -/
theorem count_calls_of_day (days : List DayEntry) (hnd : (days.map (fun e => e.day)).Nodup)
    (pairs : List (Int × Int)) (hpairs : pairs.Nodup) (hslots : ∀ p ∈ pairs, p ∈ slots days)
    (e : DayEntry) (he : e ∈ days) :
    (e.sessions.length ≤ pairs.countP (fun p => p.1 == e.day) ∧
        1 ≤ pairs.countP (fun p => p.1 == e.day)) ↔
      (1 ≤ e.sessions.length ∧ ∀ i : Nat, i < e.sessions.length → (e.day, (i : Int)) ∈ pairs) := by
  have hTnd : ((List.range e.sessions.length).map (fun (i : Nat) => (e.day, (i : Int)))).Nodup := by
    refine List.Nodup.map ?_ (List.nodup_range _)
    intro i j hij
    simpa using hij
  have hTlen : ((List.range e.sessions.length).map
      (fun (i : Nat) => (e.day, (i : Int)))).length = e.sessions.length := by simp
  have hFnd : (pairs.filter (fun p => p.1 == e.day)).Nodup := hpairs.filter _
  have hFT : pairs.filter (fun p => p.1 == e.day) ⊆
      (List.range e.sessions.length).map (fun (i : Nat) => (e.day, (i : Int))) := by
    intro p hp
    rw [List.mem_filter] at hp
    obtain ⟨e2, he2, i, hi, hpe⟩ := (mem_slots_iff days p).mp (hslots p hp.1)
    have hday : e2.day = e.day := by
      have := hp.2
      rw [hpe] at this
      simpa using this
    have := entry_of_day days hnd e e2 he he2 hday
    subst this
    rw [hpe]
    exact List.mem_map.mpr ⟨i, List.mem_range.mpr hi, rfl⟩
  have hsub := List.subperm_of_subset hFnd hFT
  have hle : pairs.countP (fun p => p.1 == e.day) ≤ e.sessions.length := by
    rw [List.countP_eq_length_filter, ← hTlen]
    exact hsub.length_le
  constructor
  · rintro ⟨h1, h2⟩
    refine ⟨by omega, fun i hi => ?_⟩
    have hperm := hsub.perm_of_length_le (by
      rw [hTlen, ← List.countP_eq_length_filter]
      exact h1)
    have hmem : (e.day, (i : Int)) ∈
        (List.range e.sessions.length).map (fun (i : Nat) => (e.day, (i : Int))) :=
      List.mem_map.mpr ⟨i, List.mem_range.mpr hi, rfl⟩
    exact (List.mem_filter.mp (hperm.mem_iff.mpr hmem)).1
  · rintro ⟨h1, h2⟩
    have hTF : (List.range e.sessions.length).map (fun (i : Nat) => (e.day, (i : Int))) ⊆
        pairs.filter (fun p => p.1 == e.day) := by
      intro p hp
      obtain ⟨i, hi, rfl⟩ := List.mem_map.mp hp
      exact List.mem_filter.mpr ⟨h2 i (List.mem_range.mp hi), by simp⟩
    have := (List.subperm_of_subset hTnd hTF).length_le
    rw [hTlen, ← List.countP_eq_length_filter] at this
    exact ⟨this, by omega⟩

/-- Claim C29: for a schedule with pairwise distinct day numbers, after `completeSession` calls
from the newly created schedule whose `(day, sessionIndex)` pairs are pairwise distinct and each
name an existing slot, a day number is in `completedDays` if and only if the schedule has that
day with at least one session and every session index of the day has a completed-session record;
and when the schedule is inactive with `completedAt` set, every day is in `completedDays`. -/
theorem run_distinct_slots (userId materialId materialTitle : String) (days : List DayEntry)
    (calls : List Call) (hdistinct : (days.map (fun e => e.day)).Nodup)
    (hcalls : (callPairs calls).Nodup) (hslots : ∀ p ∈ callPairs calls, p ∈ slots days) :
    (∀ d : Int,
        d ∈ ((Schedule.new userId materialId materialTitle days).run
            calls).progress.completedDays ↔
          ∃ e ∈ days, e.day = d ∧ 1 ≤ e.sessions.length ∧
            ∀ i : Nat, i < e.sessions.length →
              ∃ r ∈ ((Schedule.new userId materialId materialTitle days).run
                  calls).progress.completedSessions, r.day = d ∧ r.sessionIndex = (i : Int)) ∧
      (((Schedule.new userId materialId materialTitle days).run calls).active = false ∧
          ((Schedule.new userId materialId materialTitle days).run calls).completedAt.isSome =
            true →
        ∀ e ∈ days, e.day ∈ ((Schedule.new userId materialId materialTitle days).run
          calls).progress.completedDays) := by
  have hinv := run_inv _ calls (new_inv userId materialId materialTitle days)
  have hsched : ((Schedule.new userId materialId materialTitle days).run calls).schedule = days :=
    run_schedule _ _
  have hrec : ∀ (d i : Int),
      (∃ r ∈ ((Schedule.new userId materialId materialTitle days).run
          calls).progress.completedSessions, r.day = d ∧ r.sessionIndex = i) ↔
        (d, i) ∈ callPairs calls := by
    intro d i
    rw [run_records]
    simp only [Schedule.new, Progress.default, List.nil_append, callPairs, List.mem_map]
    constructor
    · rintro ⟨r, ⟨c, hc, rfl⟩, h1, h2⟩
      exact ⟨c, hc, by simp only at h1 h2; rw [h1, h2]⟩
    · rintro ⟨c, hc, h⟩
      refine ⟨⟨c.1, c.2.1, c.2.2⟩, ⟨c, hc, rfl⟩, ?_, ?_⟩
      · exact congrArg Prod.fst h
      · exact congrArg Prod.snd h
  constructor
  · intro d
    rw [hinv.2.1 d, hsched]
    constructor
    · rintro ⟨e, hfind, h1, h2⟩
      obtain ⟨he, hd⟩ := (find_iff_of_nodup days hdistinct d e).mp hfind
      subst hd
      rw [recordsForDay_run_new] at h1 h2
      obtain ⟨h3, h4⟩ := (count_calls_of_day days hdistinct _ hcalls hslots e he).mp ⟨h1, h2⟩
      exact ⟨e, he, rfl, h3, fun i hi => (hrec e.day i).mpr (h4 i hi)⟩
    · rintro ⟨e, he, hd, h3, h4⟩
      subst hd
      have := (count_calls_of_day days hdistinct _ hcalls hslots e he).mpr
        ⟨h3, fun i hi => (hrec e.day i).mp (h4 i hi)⟩
      refine ⟨e, find_of_nodup days hdistinct e he, ?_, ?_⟩
      · rw [recordsForDay_run_new]
        exact this.1
      · rw [recordsForDay_run_new]
        exact this.2
  · rintro ⟨hact, -⟩ e he
    have hlen := (hinv.2.2 hact).2
    rw [hsched] at hlen
    have hsub : ((Schedule.new userId materialId materialTitle days).run
        calls).progress.completedDays ⊆ days.map (fun e => e.day) := by
      intro d hd
      have := Inv.mem_days _ hinv d hd
      rwa [hsched] at this
    have hperm := (List.subperm_of_subset hinv.1 hsub).perm_of_length_le (by simpa using hlen)
    exact hperm.mem_iff.mpr (List.mem_map.mpr ⟨e, he, rfl⟩)

/-- Claim C29, witness: on the scenario schedule, after the distinct calls (2,0) and (1,1). -/
theorem run_distinct_slots_witness :
    ((scenarioDays.map (fun e => e.day)).Nodup ∧
      (callPairs [(2, 0, 1000), (1, 1, 2000)]).Nodup ∧
      ∀ p ∈ callPairs [(2, 0, 1000), (1, 1, 2000)], p ∈ slots scenarioDays) ∧
    ((∀ d : Int,
        d ∈ ((Schedule.new "u1" "m1" "Notes" scenarioDays).run
            [(2, 0, 1000), (1, 1, 2000)]).progress.completedDays ↔
          ∃ e ∈ scenarioDays, e.day = d ∧ 1 ≤ e.sessions.length ∧
            ∀ i : Nat, i < e.sessions.length →
              ∃ r ∈ ((Schedule.new "u1" "m1" "Notes" scenarioDays).run
                  [(2, 0, 1000), (1, 1, 2000)]).progress.completedSessions,
                r.day = d ∧ r.sessionIndex = (i : Int)) ∧
      (((Schedule.new "u1" "m1" "Notes" scenarioDays).run
            [(2, 0, 1000), (1, 1, 2000)]).active = false ∧
          ((Schedule.new "u1" "m1" "Notes" scenarioDays).run
            [(2, 0, 1000), (1, 1, 2000)]).completedAt.isSome = true →
        ∀ e ∈ scenarioDays, e.day ∈ ((Schedule.new "u1" "m1" "Notes" scenarioDays).run
          [(2, 0, 1000), (1, 1, 2000)]).progress.completedDays)) :=
  ⟨⟨by decide, by decide, by decide⟩,
    run_distinct_slots "u1" "m1" "Notes" scenarioDays [(2, 0, 1000), (1, 1, 2000)]
      (by decide) (by decide) (by decide)⟩

end AutoLearn
